import Mathlib

/-!
Verification of the in-memory viewpoint-tree core of
`navisworks_viewpoint_manager_qt.py`.

The Python model class `ViewpointItem` (name, guid, xml_content, is_folder,
source_file, children, parent) is embedded as a rose tree.  Python object
identity (the `is` operator, dict keys on objects) is modelled by an extra
field `oid`, a number unique per allocated node; `parent` back-references are
not stored but recomputed from the tree shape, which is faithful whenever
every node is reachable from the root and oids are unique, the situation the
theorems assume or establish.  Python's stable `list.sort` / `sorted` is
modelled by `List.insertionSort` (any two stable sorts w.r.t. the same total
preorder agree).  `str.lower` is modelled character-wise on the ASCII and
Cyrillic letters that the program's data uses; `str.isdigit` and the regex
class `\d` are modelled as the ASCII digits.
-/

namespace Navis

/-- Data fields of the Python `ViewpointItem`, without the structural fields
`children`/`parent`; `oid` models Python object identity. -/
structure NodeData where
  oid : Nat
  name : String
  guid : String
  xml_content : String
  is_folder : Bool
  source_file : String
deriving DecidableEq

/-- A node of the viewpoint tree: its own data plus the ordered children. -/
inductive VTree where
  | node (data : NodeData) (children : List VTree)

/-- Root data of a tree node. -/
def VTree.data : VTree → NodeData
  | .node d _ => d

/-- Children of a tree node. -/
def VTree.children : VTree → List VTree
  | .node _ cs => cs

mutual

/-- All node data of a subtree, in depth-first pre-order. -/
def datasT : VTree → List NodeData
  | .node d cs => d :: datasF cs

/-- All node data of a forest, in depth-first pre-order (each node before its
children, children left to right), matching the traversal order used by
`find_by_guid` and `iter_views`. -/
def datasF : List VTree → List NodeData
  | [] => []
  | t :: rest => datasT t ++ datasF rest

end

/-- Object identities occurring in a forest. -/
def oidsF (f : List VTree) : List Nat :=
  (datasF f).map NodeData.oid

/-- Guids occurring in a forest. -/
def guidsF (f : List VTree) : List String :=
  (datasF f).map NodeData.guid

mutual

/-- `ViewpointItem.iter_views` on one subtree. -/
def iterViewsT : VTree → List NodeData
  | .node d cs => (if d.is_folder then [] else [d]) ++ iterViewsF cs

/-- `ViewpointItem.iter_views`: the non-folder nodes of a forest in
depth-first order (folders are traversed but not yielded). -/
def iterViewsF : List VTree → List NodeData
  | [] => []
  | t :: rest => iterViewsT t ++ iterViewsF rest

end

mutual

/-- `MainWindow._count_views` on a single node: a non-folder counts as `1`
(its children, which are always empty in practice, are not traversed);
a folder counts the sum over its children. -/
def countV : VTree → Nat
  | .node d cs => if d.is_folder then countF cs else 1

/-- Sum of `countV` over a forest (the folder branch of `_count_views`). -/
def countF : List VTree → Nat
  | [] => 0
  | t :: rest => countV t + countF rest

end

end Navis

namespace Navis

mutual

/-- `ViewpointItem.find_by_guid` on one subtree: the node checks itself
first, then its children in order. -/
def findGuidT (g : String) : VTree → Option NodeData
  | .node d cs => if d.guid = g then some d else findGuidF g cs

/-- `ViewpointItem.find_by_guid` on a forest: elements in order, the first
match wins. -/
def findGuidF (g : String) : List VTree → Option NodeData
  | [] => none
  | t :: rest =>
      match findGuidT g t with
      | some r => some r
      | none => findGuidF g rest

end

mutual

/-- The subtree rooted at object identity `x` inside one subtree. -/
def subAtT (x : Nat) : VTree → Option VTree
  | .node d cs => if d.oid = x then some (.node d cs) else subAtF x cs

/-- The subtree whose root has object identity `x` (first depth-first
match), if any. -/
def subAtF (x : Nat) : List VTree → Option VTree
  | [] => none
  | t :: rest =>
      match subAtT x t with
      | some r => some r
      | none => subAtF x rest

end

mutual

/-- Parent object identity of the node with object identity `x`, searched
inside one subtree (the subtree's own root has no parent here). -/
def parentT (x : Nat) : VTree → Option Nat
  | .node d cs =>
      if (cs.map fun c => c.data.oid).contains x then some d.oid
      else parentF x cs

/-- Parent object identity of the node with object identity `x` inside a
forest (the forest's own top-level nodes have no parent here; the caller
supplies the root). -/
def parentF (x : Nat) : List VTree → Option Nat
  | [] => none
  | t :: rest =>
      match parentT x t with
      | some r => some r
      | none => parentF x rest

end

mutual

/-- Removal of the subtree rooted at `x` from inside one subtree (the
subtree's own root is not a candidate): the node with pruned children,
plus the removed subtree if found. -/
def detachT (x : Nat) : VTree → VTree × Option VTree
  | .node d cs =>
      match detachF x cs with
      | (cs', r) => (.node d cs', r)

/-- `parent.remove_child(node)` for the node with object identity `x`:
removes the first depth-first subtree rooted at `x` and returns it together
with the remaining forest.  (The root itself is never removed, as in the
source, where removal always goes through a parent.) -/
def detachF (x : Nat) : List VTree → List VTree × Option VTree
  | [] => ([], none)
  | t :: rest =>
      if t.data.oid = x then (rest, some t)
      else match detachT x t with
        | (t', some s) => (t' :: rest, some s)
        | (_, none) =>
            match detachF x rest with
            | (rest', r) => (t :: rest', r)

end

mutual

/-- `target.add_child(s)` inside one subtree: appends `s` as last child of
the first depth-first node with object identity `g`. -/
def attachT (g : Nat) (s : VTree) : VTree → VTree × Bool
  | .node d cs =>
      if d.oid = g then (.node d (cs ++ [s]), true)
      else match attachF g s cs with
        | (cs', b) => (.node d cs', b)

/-- `target.add_child(s)` for the node with object identity `g` in a
forest; returns the new forest and whether a match was found. -/
def attachF (g : Nat) (s : VTree) : List VTree → List VTree × Bool
  | [] => ([], false)
  | t :: rest =>
      match attachT g s t with
      | (t', true) => (t' :: rest, true)
      | (_, false) =>
          match attachF g s rest with
          | (rest', b) => (t :: rest', b)

end

/-- The whole session tree: the root folder's data plus its children.
The Python root (`self.root_folder`) is itself a `ViewpointItem`; keeping it
apart mirrors that it is never removed or moved. -/
structure STree where
  rdata : NodeData
  forest : List VTree

/-- All node data of the session tree, root included. -/
def STree.datas (t : STree) : List NodeData :=
  t.rdata :: datasF t.forest

/-- Guids of all nodes of the session tree, root included. -/
def STree.guids (t : STree) : List String :=
  t.datas.map NodeData.guid

/-- Object identities of all nodes of the session tree, root included. -/
def STree.oids (t : STree) : List Nat :=
  t.datas.map NodeData.oid

/-- `self.root_folder.find_by_guid(g)`: the root checks itself first. -/
def STree.findGuid (t : STree) (g : String) : Option NodeData :=
  if t.rdata.guid = g then some t.rdata else findGuidF g t.forest

/-- `self.root_folder.iter_views()`. -/
def STree.iterViews (t : STree) : List NodeData :=
  (if t.rdata.is_folder then [] else [t.rdata]) ++ iterViewsF t.forest

/-- Parent object identity of node `x` in the session tree (`none` for the
root itself or for an absent node). -/
def STree.parentOf (t : STree) (x : Nat) : Option Nat :=
  if (t.forest.map fun c => c.data.oid).contains x then some t.rdata.oid
  else parentF x t.forest

/-- `target.add_child(s)` where `target` is the node with object identity
`g`: appending to the root's children when `g` is the root.  When `g` is not
reachable from the root the Python call would mutate a detached object; from
the root's point of view the subtree `s` simply disappears, which is what
dropping `s` here models. -/
def STree.attach (t : STree) (g : Nat) (s : VTree) : STree :=
  if t.rdata.oid = g then ⟨t.rdata, t.forest ++ [s]⟩
  else ⟨t.rdata, (attachF g s t.forest).1⟩

/-- `node.parent.remove_child(node); target.add_child(node)` — the
relocation idiom used by `bulk_move_points` and `on_move_inside_right`.
If `x` is not found below the root nothing happens (under the theorems'
hypotheses the moved node is always present). -/
def STree.moveTo (t : STree) (x : Nat) (g : Nat) : STree :=
  match detachF x t.forest with
  | (f', some s) => STree.attach ⟨t.rdata, f'⟩ g s
  | (_, none) => t

/-- `self._count_views(node)` for the node with object identity `x` (the
root included); `0` if absent. -/
def STree.countAt (t : STree) (x : Nat) : Nat :=
  if t.rdata.oid = x then (if t.rdata.is_folder then countF t.forest else 1)
  else match subAtF x t.forest with
    | some s => countV s
    | none => 0

end Navis

namespace Navis

/-! ### Python string primitives

`str.lower` is modelled character-wise on ASCII `A`–`Z` and on the Cyrillic
letters `А`–`Я` and `Ё` (the alphabets occurring in the program's data);
other characters are left unchanged.  `str.isdigit` and the regex class
`\d` are modelled as ASCII `0`–`9`.  `str.split()` with no argument splits
on runs of whitespace and never yields empty pieces. -/

/-- Character-wise model of Python `str.lower`. -/
def pyLowerChar (c : Char) : Char :=
  if 'A' ≤ c ∧ c ≤ 'Z' then Char.ofNat (c.toNat + 32)
  else if c = 'Ё' then 'ё'
  else if 'А' ≤ c ∧ c ≤ 'Я' then Char.ofNat (c.toNat + 32)
  else c

/-- Model of Python `str.lower`. -/
def pyLower (s : String) : String :=
  String.mk (s.data.map pyLowerChar)

/-- Whitespace characters recognised by Python `str.split()` (the common
ASCII ones). -/
def pyIsSpace (c : Char) : Bool :=
  c = ' ' ∨ c = '\t' ∨ c = '\n' ∨ c = '\r' ∨ c.toNat = 11 ∨ c.toNat = 12

/-- Helper for `str.split()`: accumulates the current word (reversed). -/
def splitWsAux (acc : List Char) : List Char → List (List Char)
  | [] => if acc.isEmpty then [] else [acc.reverse]
  | c :: cs =>
      if pyIsSpace c then
        if acc.isEmpty then splitWsAux [] cs
        else acc.reverse :: splitWsAux [] cs
      else splitWsAux (c :: acc) cs

/-- Model of Python `str.split()` (no separator): whitespace runs separate
words, empty pieces are dropped. -/
def pySplitWs (s : String) : List String :=
  (splitWsAux [] s.data).map String.mk

/-- `name_lower.replace('_',' ').replace('-',' ').replace('.',' ')`. -/
def sepToSpace (s : String) : String :=
  String.mk (s.data.map fun c => if c = '_' ∨ c = '-' ∨ c = '.' then ' ' else c)

/-- The token list `name_lower.replace('_',' ').replace('-',' ')
.replace('.',' ').split()` used by the bulk-move and search name indexes
(`s` is already lowercased by the caller, as in the source). -/
def nameParts (s : String) : List String :=
  pySplitWs (sepToSpace s)

end Navis

namespace Navis

/-! ### The natural-sort key (`MainWindow._natural_key`)

`re.split(r'(\d+)', name)` yields an alternating list
`[nondigit, digit, nondigit, …, nondigit]` whose first and last pieces may
be empty; each digit piece satisfies `isdigit` and becomes `int(p)`, every
other piece becomes `p.lower()`.  Keys are compared as Python compares
lists: lexicographically, elementwise; a strict prefix is smaller.  A key
element is either a lowered character list or a number; `Lex (List Char ⊕ ℕ)`
carries the (total) Mathlib order used to run the sorts — on the key pairs
that `_natural_key` can actually produce it agrees with Python, because an
`inl` is never compared with an `inr`.

Two character predicates are involved and they differ: the regex class
`\d` matches exactly the decimal digits (Unicode category Nd — on the
character domain this development manipulates, Basic Latin, Latin-1 and
Cyrillic, these are `0`–`9`), while `str.isdigit` also accepts
digit-property characters that are not decimal, such as the Latin-1
superscripts `¹`, `²`, `³`, on which `int` raises `ValueError`.  `natKey`
below is the total decimal-digit-only value; `natKeyPy` keeps Python's
partiality and is the faithful model (claim C10). -/

/-- One element of a natural-sort key. -/
abbrev NatKeyVal := Lex (List Char ⊕ Nat)

/-- A natural-sort key. -/
abbrev NatKey := List NatKeyVal

/-- Numeric value of a digit run, as Python `int` reads it. -/
def digitsVal (cs : List Char) : Nat :=
  cs.foldl (fun a c => 10 * a + (c.toNat - 48)) 0

mutual

/-- `re.split(r'(\d+)', ·)` while inside a non-digit run (`acc` reversed). -/
def rsdND (acc : List Char) : List Char → List (List Char)
  | [] => [acc.reverse]
  | c :: cs =>
      if c.isDigit then acc.reverse :: rsdD [c] cs
      else rsdND (c :: acc) cs

/-- `re.split(r'(\d+)', ·)` while inside a digit run (`dacc` reversed). -/
def rsdD (dacc : List Char) : List Char → List (List Char)
  | [] => [dacc.reverse, []]
  | c :: cs =>
      if c.isDigit then rsdD (c :: dacc) cs
      else dacc.reverse :: rsdND [c] cs

end

/-- `re.split(r'(\d+)', s)`: alternating non-digit / digit pieces, first and
last (possibly empty) pieces being non-digit runs.  The class `\d` is the
decimal digits; on the modeled character domain these are exactly `0`–`9`
(`Char.isDigit`). -/
def reSplitDigits (s : String) : List (List Char) :=
  rsdND [] s.data

/-- Key of one piece, on the decimal-digit-only domain where `int(p)` cannot
raise: digit runs become their numeric value, other pieces are lowercased
text (`p.isdigit()` is false for the empty piece, as in Python).  The
faithful partial version is `pieceKeyPy`; the two agree wherever the latter
returns. -/
def pieceKey (p : List Char) : NatKeyVal :=
  if p ≠ [] ∧ p.all Char.isDigit then toLex (Sum.inr (digitsVal p))
  else toLex (Sum.inl (p.map pyLowerChar))

/-- The value of `MainWindow._natural_key` on every name it returns on
(`natKeyPy` below keeps the partiality; they agree wherever the latter
returns). -/
def natKey (name : String) : NatKey :=
  (reSplitDigits name).map pieceKey

/-! ### Python list comparison on natural keys

Python compares two key lists elementwise; the first position whose
elements are not equal decides (`<` on two `int`s or two `str`s), a strict
prefix is smaller, and comparing an `int` with a `str` raises `TypeError`
(modelled by `none`). -/

/-- Code-point lexicographic comparison of two character lists (Python
`str` comparison). -/
def cmpChars : List Char → List Char → Ordering
  | [], [] => .eq
  | [], _ :: _ => .lt
  | _ :: _, [] => .gt
  | a :: as, b :: bs =>
      if a < b then .lt else if b < a then .gt else cmpChars as bs

/-- Comparison of two key elements; `none` models Python's `TypeError` on
an `int` vs `str` comparison. -/
def pyCmpVal (a b : NatKeyVal) : Option Ordering :=
  match ofLex a, ofLex b with
  | .inl s, .inl t => some (cmpChars s t)
  | .inr m, .inr n => some (compare m n)
  | _, _ => none

/-- Python list comparison of two keys; `none` propagates a `TypeError`. -/
def pyCmpKey : NatKey → NatKey → Option Ordering
  | [], [] => some .eq
  | [], _ :: _ => some .lt
  | _ :: _, [] => some .gt
  | a :: as, b :: bs =>
      match pyCmpVal a b with
      | none => none
      | some .eq => pyCmpKey as bs
      | some o => some o

/-- Is a key element a text run? -/
def isInl (x : NatKeyVal) : Bool :=
  match ofLex x with
  | .inl _ => true
  | .inr _ => false

/-- Is a key element a number? -/
def isInr (x : NatKeyVal) : Bool := !isInl x

/-- Checks the shape `[text, number, text, number, …, text]`: a text run at
every even position, a number at every odd one, odd length. -/
def altOK : NatKey → Bool
  | [] => false
  | [v] => isInl v
  | v :: w :: rest => isInl v && isInr w && altOK rest

/-- Shape `[number, text, number, …, text]`: what follows the leading text
run of a well-formed key. -/
def altOKD : NatKey → Bool
  | [] => false
  | v :: rest => isInr v && altOK rest

/-- Python `str.isdigit` on one character, on the character domain this
development manipulates (Basic Latin, Latin-1, Cyrillic): true on the
decimal digits `0`–`9` and on the Latin-1 superscript digits `¹`, `²`, `³`,
which carry the digit property without being decimal — `int` rejects
them. -/
def pyIsDigit (c : Char) : Bool :=
  c.isDigit || (c = '¹') || (c = '²') || (c = '³')

/-- One piece of `_natural_key`, with Python's partiality kept: a non-empty
piece of digit-property characters takes the `int(p)` branch, which
succeeds exactly when every character is a decimal digit and raises
`ValueError` (`none`) otherwise; every other piece becomes `p.lower()`. -/
def pieceKeyPy (p : List Char) : Option NatKeyVal :=
  if p ≠ [] ∧ p.all pyIsDigit then
    if p.all Char.isDigit then some (toLex (Sum.inr (digitsVal p))) else none
  else some (toLex (Sum.inl (p.map pyLowerChar)))

/-- The key loop of `_natural_key`: pieces are processed left to right and a
`ValueError` aborts the whole call. -/
def natKeyPyAux : List (List Char) → Option NatKey
  | [] => some []
  | p :: ps =>
      match pieceKeyPy p, natKeyPyAux ps with
      | some v, some vs => some (v :: vs)
      | _, _ => none

/-- `MainWindow._natural_key`, faithfully partial: `none` models the
`ValueError` that `int(p)` raises on a digit-property piece that is not a
decimal-digit run (e.g. the whole name `"²"`). -/
def natKeyPy (name : String) : Option NatKey :=
  natKeyPyAux (reSplitDigits name)

end Navis

namespace Navis

/-! ### Sorting (`sort_folder`, `sort_selected_points`)

Both use Python's stable `list.sort` / `sorted`; a stable sort w.r.t. a
total preorder is unique, so `List.insertionSort` (stable, and inserting
the earlier element before later equal ones) is an exact model, including
`reverse=True`, which stably sorts by the reversed comparison. -/

/-- The three context-menu sort modes. -/
inductive SortMode where
  | nat_asc
  | nat_desc
  | guid
deriving DecidableEq

/-- Stable sort by a key into a linear order (ascending). -/
def sortByKey {α : Type} {β : Type} [LinearOrder β] (key : α → β) (l : List α) : List α :=
  @List.insertionSort α (fun x y => key x ≤ key y)
    (fun x y => inferInstanceAs (Decidable (key x ≤ key y))) l

/-- Stable sort by a key, descending (`reverse=True`). -/
def sortByKeyRev {α : Type} {β : Type} [LinearOrder β] (key : α → β) (l : List α) : List α :=
  @List.insertionSort α (fun x y => key y ≤ key x)
    (fun x y => inferInstanceAs (Decidable (key y ≤ key x))) l

/-- `(x.guid or '').lower()` as a character list. -/
def guidKey (d : NodeData) : List Char :=
  d.guid.data.map pyLowerChar

/-- The tuple key `(x.is_folder, …)` used by `sort_folder`; the guid key is
injected into `NatKey` (order-preservingly) so all three modes share one
key type. -/
def folderModeKey (mode : SortMode) (c : VTree) : Lex (Bool × NatKey) :=
  match mode with
  | .guid => toLex (c.data.is_folder, [toLex (Sum.inl (guidKey c.data))])
  | _ => toLex (c.data.is_folder, natKey c.data.name)

/-- `sort_folder`: `folder.children.sort(key=…, reverse=…)` — the tuple key
`(x.is_folder, key)` in all three modes, with `reverse=True` exactly for
`nat_desc`. -/
def sortFolderChildren (mode : SortMode) (cs : List VTree) : List VTree :=
  match mode with
  | .nat_desc => sortByKeyRev (folderModeKey .nat_desc) cs
  | m => sortByKey (folderModeKey m) cs

/-- The key used by `sort_selected_points` (no `is_folder` component). -/
def selModeKey (mode : SortMode) (c : VTree) : NatKey :=
  match mode with
  | .guid => [toLex (Sum.inl (guidKey c.data))]
  | _ => natKey c.data.name

/-- The selected nodes of `sort_selected_points` for one shared parent, in
selection order: each selected object identity resolved among the parent's
children, folders dropped (as in the source). -/
def selChosen (children : List VTree) (sel : List Nat) : List VTree :=
  (sel.filterMap fun o => children.find? fun c => c.data.oid = o).filter
    fun c => !c.data.is_folder

/-- `indexes = [parent.children.index(ch) for ch in children]`: the
original absolute slots of the selection. -/
def selIndexes (children : List VTree) (sel : List Nat) : List Nat :=
  (selChosen children sel).map fun ch =>
    children.findIdx fun c => c.data.oid = ch.data.oid

/-- `sorted_sel`: the selection sorted by the mode's key (stably, with
`reverse=True` for descending). -/
def selSorted (mode : SortMode) (children : List VTree) (sel : List Nat) : List VTree :=
  match mode with
  | .guid => sortByKey (selModeKey .guid) (selChosen children sel)
  | .nat_asc => sortByKey (selModeKey .nat_asc) (selChosen children sel)
  | .nat_desc => sortByKeyRev (selModeKey .nat_desc) (selChosen children sel)

/-- `sort_selected_points` restricted to one parent: `children` is the
parent's child list, `sel` the selected objects in selection order
(folders and non-children are ignored, as in the source).  The original
index slots of the selection are computed, the selection is sorted, and the
sorted nodes are written back into those slots in ascending slot order
(`for idx, ch in zip(sorted(indexes), sorted_sel): parent.children[idx] = ch`). -/
def sortSelectedPoints (mode : SortMode) (children : List VTree) (sel : List Nat) : List VTree :=
  ((sortByKey id (selIndexes children sel)).zip (selSorted mode children sel)).foldl
    (fun acc p => acc.set p.1 p.2) children

end Navis

namespace Navis

/-! ### The name indexes and the bulk resolver
(`bulk_move_points`, `search_points`)

`bulk_move_points` builds, once per run, a dict from lowercased full name —
and from every delimiter token of it different from the full name — to the
list of matching nodes, over the tree's `iter_views()` and over the source
pool.  A dict entry is a list in insertion order, and one node may occur
several times under one key (duplicate tokens); `·.flatMap (nameHits key)`
reproduces entry `key` of that dict exactly. -/

/-- The occurrences of node `d` in the name-index entry for `key`: once if
`key` is the lowercased full name, plus once per delimiter token equal to
`key` (tokens equal to the full name are skipped, as in the source). -/
def nameHits (key : String) (d : NodeData) : List NodeData :=
  let ln := pyLower d.name
  (if key = ln then [d] else []) ++
    ((nameParts ln).filterMap fun p => if p ≠ ln ∧ p = key then some d else none)

/-- Entry `key` of `name_to_nodes`, the tree index of `bulk_move_points`
(node objects are represented by their identities). -/
def treeIndexLookup (t : STree) (key : String) : List Nat :=
  t.iterViews.flatMap fun d => (nameHits key d).map NodeData.oid

/-- Entry `key` of `source_by_name`, the pool index of `bulk_move_points`. -/
def poolIndexLookup (pool : List NodeData) (key : String) : List NodeData :=
  pool.flatMap (nameHits key)

/-- Running state of one `bulk_move_points` call. -/
structure BulkState where
  tree : STree
  moved : Nat
  already : Nat
  missing : List String
  fresh : Nat

/-- One tree-index hit of a token: skip (count "already") when the node's
parent is the target, otherwise detach it and append it under the target. -/
def processTreeHit (target : Nat) (st : BulkState) (x : Nat) : BulkState :=
  if st.tree.parentOf x = some target then { st with already := st.already + 1 }
  else { st with tree := st.tree.moveTo x target, moved := st.moved + 1 }

/-- One pool-index hit of a token: if a tree node with the source's guid
exists, move that node (or count "already"); otherwise clone the pool entry
(fresh object, `source_file` left empty as in the source) under the
target. -/
def processPoolSrc (target : Nat) (st : BulkState) (src : NodeData) : BulkState :=
  match st.tree.findGuid src.guid with
  | some exist =>
      if st.tree.parentOf exist.oid = some target then
        { st with already := st.already + 1 }
      else { st with tree := st.tree.moveTo exist.oid target, moved := st.moved + 1 }
  | none =>
      { st with
        tree := st.tree.attach target
          (.node ⟨st.fresh, src.name, src.guid, src.xml_content, false, ""⟩ [])
        moved := st.moved + 1
        fresh := st.fresh + 1 }

/-- Processing of a single token by `bulk_move_points`: tree matches win;
otherwise pool matches; otherwise the token is recorded as not found. -/
def processToken (treeIdx : String → List Nat) (poolIdx : String → List NodeData)
    (target : Nat) (st : BulkState) (token : String) : BulkState :=
  let key := pyLower token
  let hits := treeIdx key
  if hits ≠ [] then hits.foldl (processTreeHit target) st
  else
    let srcs := poolIdx key
    if srcs ≠ [] then srcs.foldl (processPoolSrc target) st
    else { st with missing := st.missing ++ [token] }

/-- `bulk_move_points` with the token list and target already resolved from
the UI widgets: both indexes are built once from the initial state, then
the tokens are processed in order. -/
def bulkMovePoints (t : STree) (pool : List NodeData) (fresh : Nat)
    (tokens : List String) (target : Nat) : BulkState :=
  tokens.foldl (processToken (treeIndexLookup t) (poolIndexLookup pool) target)
    ⟨t, 0, 0, [], fresh⟩

/-- The membership set used by `search_points` over one node collection:
the lowercased full name plus every delimiter token (no token is excluded
here, unlike the bulk index). -/
def searchNames (views : List NodeData) : List String :=
  views.flatMap fun v => pyLower v.name :: nameParts (pyLower v.name)

/-- `search_points`: the tokens found neither among tree names nor among
pool names, in order.  Search never mutates anything. -/
def searchNotFound (t : STree) (pool : List NodeData) (tokens : List String) : List String :=
  tokens.filter fun tok =>
    ¬ (pyLower tok ∈ searchNames t.iterViews ∨ pyLower tok ∈ searchNames pool)

end Navis

namespace Navis

/-! ### Drag-and-drop handlers (`on_drop_from_left`, `on_move_inside_right`) -/

/-- Data of the node with object identity `x`, root included. -/
def STree.lookupData (t : STree) (x : Nat) : Option NodeData :=
  if t.rdata.oid = x then some t.rdata else (subAtF x t.forest).map VTree.data

/-- Both drop handlers first coerce the drop target: a non-folder target is
replaced by its parent, no target means the root. -/
def resolveTarget (t : STree) (tm : Option Nat) : Nat :=
  match tm with
  | none => t.rdata.oid
  | some x =>
      match t.lookupData x with
      | some d => if d.is_folder then x else (t.parentOf x).getD t.rdata.oid
      | none => t.rdata.oid

/-- `ViewpointItem.is_ancestor_of`: `a` lies on `b`'s parent chain.  For a
root-reachable node with unique identities this is exactly "`b` lies
strictly inside `a`'s subtree". -/
def STree.isAncestorOf (t : STree) (a b : Nat) : Bool :=
  if t.rdata.oid = a then (oidsF t.forest).contains b
  else match subAtF a t.forest with
    | some s => (oidsF s.children).contains b
    | none => false

/-- `on_move_inside_right`: moves the selected nodes (the root is never
movable) under the resolved target, skipping any node that is the target
itself or an ancestor of it; returns the new tree and the move count. -/
def moveInsideRight (t : STree) (sel : List Nat) (tm : Option Nat) : STree × Nat :=
  let target := resolveTarget t tm
  (sel.filter fun x => x ≠ t.rdata.oid).foldl
    (fun st x =>
      if x = target ∨ st.1.isAncestorOf x target then st
      else (st.1.moveTo x target, st.2 + 1))
    (t, 0)

/-- `self.source_views_by_guid.get(g)`: the pool is kept in insertion order
with unique guids, so the first match is the dict entry. -/
def poolGet (pool : List NodeData) (g : String) : Option NodeData :=
  pool.find? fun d => d.guid = g

/-- `on_drop_from_left`: for each dragged guid, clone the pool entry under
the resolved target unless a tree node with that guid already exists
somewhere in the structure. -/
def dropFromLeft (t : STree) (pool : List NodeData) (guids : List String)
    (tm : Option Nat) (fresh : Nat) : STree × Nat × Nat :=
  let target := resolveTarget t tm
  guids.foldl
    (fun (st : STree × Nat × Nat) g =>
      match poolGet pool g with
      | none => st
      | some src =>
          match st.1.findGuid g with
          | some _ => st
          | none =>
              (st.1.attach target
                  (.node ⟨st.2.2, src.name, src.guid, src.xml_content, false,
                    src.source_file⟩ []),
                st.2.1 + 1, st.2.2 + 1))
    (t, 0, fresh)

end Navis



namespace Navis

/-! ### XML model and the import/merge engine (`_load_xml_file`,
`_process_viewpoint_elements`)

`xml.etree` elements are modelled structurally (tag, attribute list in
insertion order, children).  `ET.tostring` is modelled by a fixed
structural serializer — the claims below never inspect the produced text,
they only rely on its determinism.  `uuid.uuid4()` and object allocation
are modelled by a threaded counter. -/

/-- A parsed XML element. -/
inductive XmlElem where
  | elem (tag : String) (attrs : List (String × String)) (children : List XmlElem)

/-- Tag of an element. -/
def XmlElem.tag : XmlElem → String
  | .elem g _ _ => g

/-- Attribute list of an element. -/
def XmlElem.attrs : XmlElem → List (String × String)
  | .elem _ a _ => a

/-- Children of an element. -/
def XmlElem.childs : XmlElem → List XmlElem
  | .elem _ _ cs => cs

/-- `el.get(k)`: attribute lookup. -/
def XmlElem.getAttr (e : XmlElem) (k : String) : Option String :=
  (e.attrs.find? fun p => p.1 = k).map Prod.snd

/-- `el.get(k, d)`: attribute lookup with default. -/
def XmlElem.getAttrD (e : XmlElem) (k d : String) : String :=
  (e.getAttr k).getD d

/-- `el.set(k, v)`: overwrite in place or append. -/
def XmlElem.setAttr : XmlElem → String → String → XmlElem
  | .elem g a cs, k, v =>
      if a.any fun p => p.1 = k then
        .elem g (a.map fun p => if p.1 = k then (k, v) else p) cs
      else .elem g (a ++ [(k, v)]) cs

mutual

/-- Structural model of `ET.tostring(el, encoding='unicode')`. -/
def XmlElem.serialize : XmlElem → String
  | .elem g a cs =>
      "<" ++ g ++ (a.foldl (fun s p => s ++ " " ++ p.1 ++ "=\x22" ++ p.2 ++ "\x22") "")
        ++ ">" ++ XmlElem.serializeF cs ++ "</" ++ g ++ ">"

/-- Serialization of a child list. -/
def XmlElem.serializeF : List XmlElem → String
  | [] => ""
  | c :: cs => XmlElem.serialize c ++ XmlElem.serializeF cs

end

/-- A generated identifier (`str(uuid.uuid4())`), from the allocation
counter. -/
def genGuid (n : Nat) : String :=
  "uuid-" ++ toString n

mutual

/-- `find('.//viewpoints')` candidate check of one element and its
descendants. -/
def findContT : XmlElem → Option XmlElem
  | .elem g a cs =>
      if g = "viewpoints" then some (.elem g a cs) else findContF cs

/-- `root.find('.//viewpoints')`: first descendant in document order with
tag `viewpoints` (the root itself is not a candidate). -/
def findContF : List XmlElem → Option XmlElem
  | [] => none
  | e :: rest =>
      match findContT e with
      | some r => some r
      | none => findContF rest

end

/-- The designated `viewpoints` container of a document. -/
def findContainer : XmlElem → Option XmlElem
  | .elem _ _ cs => findContF cs

mutual

/-- `_process_viewpoint_elements` on one element: a `viewfolder` becomes a
folder node with recursively processed children, a `view` a leaf viewpoint,
anything else nothing. -/
def processElem (source : String) : Nat → XmlElem → Option VTree × Nat
  | fresh, .elem g a cs =>
      if g = "viewfolder" then
        let name := (XmlElem.elem g a cs).getAttrD "name" "Папка"
        let (guid, f1) :=
          match (XmlElem.elem g a cs).getAttr "guid" with
          | some u => (u, fresh)
          | none => (genGuid fresh, fresh + 1)
        let (sub, f2) := processViewpointElements source (f1 + 1) cs
        (some (.node ⟨f1, name, guid, "", true, source⟩ sub), f2)
      else if g = "view" then
        let name := (XmlElem.elem g a cs).getAttrD "name" "Точка"
        let (guid, f1) :=
          match (XmlElem.elem g a cs).getAttr "guid" with
          | some u => (u, fresh)
          | none => (genGuid fresh, fresh + 1)
        (some (.node ⟨f1, name, guid, (XmlElem.elem g a cs).serialize, false, source⟩ []),
          f1 + 1)
      else (none, fresh)

/-- `_process_viewpoint_elements` over a sibling list, threading the
allocation counter left to right. -/
def processViewpointElements (source : String) : Nat → List XmlElem → List VTree × Nat
  | fresh, [] => ([], fresh)
  | fresh, e :: rest =>
      match processElem source fresh e with
      | (r, f1) =>
          match processViewpointElements source f1 rest with
          | (rest', f2) => (r.toList ++ rest', f2)

end

/-- The flat branch of `_load_xml_file`: every direct `view` child of the
container is offered to the source pool; `if guid not in
self.source_views_by_guid` keeps the first occurrence (first-import-wins).
The default name comes from the translation table
(`defaults.unnamed_view`). -/
def loadFlatViews (source : String) : List NodeData → Nat → List XmlElem → List NodeData × Nat
  | pool, fresh, [] => (pool, fresh)
  | pool, fresh, .elem g a cs :: rest =>
      if g = "view" then
        let name := (XmlElem.elem g a cs).getAttrD "name" "Безымянная точка"
        let (guid, f1) :=
          match (XmlElem.elem g a cs).getAttr "guid" with
          | some u => (u, fresh)
          | none => (genGuid fresh, fresh + 1)
        let vp : NodeData := ⟨f1, name, guid, (XmlElem.elem g a cs).serialize, false, source⟩
        let pool' := if pool.any fun d => d.guid = guid then pool else pool ++ [vp]
        loadFlatViews source pool' (f1 + 1) rest
      else loadFlatViews source pool fresh rest

/-- The whole mutable state of the manager: structure tree, source pool
(insertion-ordered, guid-keyed), allocation counter. -/
structure Session where
  tree : STree
  pool : List NodeData
  fresh : Nat

/-- `_load_xml_file` on an already parsed document: no container means the
file is skipped; otherwise the structured content (if any `viewfolder` is a
direct child) is merged under the live root, and the flat content (direct
`view` children, if any) is offered to the source pool. -/
def loadDoc (source : String) (s : Session) (doc : XmlElem) : Session :=
  match findContainer doc with
  | none => s
  | some c =>
      let chs := c.childs
      let hasFolders := chs.any fun e => e.tag = "viewfolder"
      let hasViews := chs.any fun e => e.tag = "view"
      let (tree1, f1) :=
        if hasFolders then
          let (new, f') := processViewpointElements source s.fresh chs
          (⟨s.tree.rdata, s.tree.forest ++ new⟩, f')
        else (s.tree, s.fresh)
      let (pool1, f2) :=
        if hasViews then loadFlatViews source s.pool f1 chs else (s.pool, f1)
      ⟨tree1, pool1, f2⟩

/-- A fresh session (`__init__` / `clear_all_data`): an empty root folder
with a generated guid, an empty pool. -/
def freshSession : Session :=
  ⟨⟨⟨0, "Корень", genGuid 0, "", true, ""⟩, []⟩, [], 1⟩

end Navis

namespace Navis

/-! ### The export engine (`_create_export_xml`)

`ET.fromstring` applied to a stored payload is abstracted by a parse
function `par : String → Option XmlElem` (`none` models `ET.ParseError`);
every result below holds for an arbitrary such function. -/

mutual

/-- `add_node_xml`: a folder becomes a `viewfolder` element whose name is
suffixed with the live viewpoint count and whose children are emitted
recursively; a viewpoint with a non-empty payload is re-parsed and gets its
`name`/`guid` overwritten, falling back to a minimal `view` element when the
payload does not parse; a viewpoint with an empty payload produces nothing. -/
def addNodeXml (par : String → Option XmlElem) : VTree → List XmlElem
  | .node d cs =>
      if d.is_folder then
        [.elem "viewfolder"
          [("name", d.name ++ " (" ++ toString (countF cs) ++ ")"), ("guid", d.guid)]
          (addNodeXmlF par cs)]
      else
        if d.xml_content ≠ "" then
          match par d.xml_content with
          | some el => [(el.setAttr "name" d.name).setAttr "guid" d.guid]
          | none => [.elem "view" [("name", d.name), ("guid", d.guid)] []]
        else []

/-- `add_node_xml` over a child list. -/
def addNodeXmlF (par : String → Option XmlElem) : List VTree → List XmlElem
  | [] => []
  | c :: cs => addNodeXml par c ++ addNodeXmlF par cs

end

/-- `_create_export_xml` up to serialization: the `exchange` envelope with
its fixed format attributes around a `viewpoints` container holding the
emitted children of the root (the root itself is never emitted). -/
def createExportXml (par : String → Option XmlElem) (t : STree) : XmlElem :=
  .elem "exchange"
    [("xmlns:xsi", "http://www.w3.org/2001/XMLSchema-instance"),
     ("xsi:noNamespaceSchemaLocation",
       "http://download.autodesk.com/us/navisworks/schemas/nw-exchange-12.0.xsd"),
     ("units", "m"), ("filename", "merged_viewpoints.nwd"), ("filepath", "")]
    [.elem "viewpoints" [] (addNodeXmlF par t.forest)]

end Navis
namespace Navis

/-- `load_xml_files`: the documents are processed in order (a failing file
only skips its own contribution, which `loadDoc` models by returning the
state unchanged). -/
def loadDocs (s : Session) (docs : List (String × XmlElem)) : Session :=
  docs.foldl (fun a p => loadDoc p.1 a p.2) s

mutual

/-- Non-folder nodes never carry children (true of every tree the program
builds: imports give `view` elements no children, clones are created
childless). -/
def viewsChildlessT : VTree → Bool
  | .node d cs => (d.is_folder || cs.isEmpty) && viewsChildlessF cs

/-- `viewsChildlessT` over a forest. -/
def viewsChildlessF : List VTree → Bool
  | [] => true
  | t :: rest => viewsChildlessT t && viewsChildlessF rest

end

/-- `viewsChildlessF` over the whole session tree. -/
def STree.viewsOk (t : STree) : Bool :=
  viewsChildlessF t.forest

/-- One UI mutation of the structure tree, as exposed to the user: a drop
from the left tree (clone from pool), a drag inside the right tree (move),
or a bulk move.  The pool is read but never written by these. -/
inductive MutOp where
  | drop (guids : List String) (tm : Option Nat)
  | move (sel : List Nat) (tm : Option Nat)
  | bulk (tokens : List String) (target : Nat)

/-- Interpretation of one mutation over (tree, allocation counter). -/
def applyOp (pool : List NodeData) (s : STree × Nat) : MutOp → STree × Nat
  | .drop guids tm =>
      let r := dropFromLeft s.1 pool guids tm s.2
      (r.1, r.2.2)
  | .move sel tm => ((moveInsideRight s.1 sel tm).1, s.2)
  | .bulk tokens target =>
      let r := bulkMovePoints s.1 pool s.2 tokens target
      (r.tree, r.fresh)

/-- A sequence of UI mutations. -/
def applyOps (pool : List NodeData) (s : STree × Nat) (ops : List MutOp) : STree × Nat :=
  ops.foldl (applyOp pool) s

end Navis
namespace Navis

/-- Structural induction over forests, recursing into both the children of
the head node and the tail. -/
def forestInd {P : List VTree → Prop} (nil : P [])
    (cons : ∀ d cs rest, P cs → P rest → P (VTree.node d cs :: rest)) :
    ∀ f, P f
  | [] => nil
  | .node d cs :: rest => cons d cs rest (forestInd nil cons cs) (forestInd nil cons rest)

/-- Structural induction over XML element lists. -/
def xmlForestInd {P : List XmlElem → Prop} (nil : P [])
    (cons : ∀ g a cs rest, P cs → P rest → P (XmlElem.elem g a cs :: rest)) :
    ∀ f, P f
  | [] => nil
  | .elem g a cs :: rest => cons g a cs rest (xmlForestInd nil cons cs) (xmlForestInd nil cons rest)

/-- First demo import file: one flat viewpoint `Alpha` with identifier
`X`. -/
def demoDocA : XmlElem :=
  .elem "exchange" []
    [.elem "viewpoints" [] [.elem "view" [("name", "Alpha"), ("guid", "X")] []]]

/-- Second demo import file: a flat viewpoint `Beta` with the same
identifier `X`. -/
def demoDocB : XmlElem :=
  .elem "exchange" []
    [.elem "viewpoints" [] [.elem "view" [("name", "Beta"), ("guid", "X")] []]]

/-- The session after importing `demoDocA` into a fresh session. -/
def demoSessA : Session :=
  loadDoc "a.xml" freshSession demoDocA

end Navis
namespace Navis

/-- Three viewpoint leaves named `Item2`, `Item10`, `Item1`, in that order
(the natural-sort demo). -/
def demoItems : List VTree :=
  [.node ⟨0, "Item2", "g2", "", false, ""⟩ [],
   .node ⟨1, "Item10", "g10", "", false, ""⟩ [],
   .node ⟨2, "Item1", "g1", "", false, ""⟩ []]

end Navis

namespace Navis

/-- The ordering that `sort_folder` applies inside each flag group: the
mode's key ascending, except descending (reversed) for `nat_desc`. -/
def modeRel (mode : SortMode) (x y : VTree) : Prop :=
  if mode = .nat_desc then selModeKey mode y ≤ selModeKey mode x
  else selModeKey mode x ≤ selModeKey mode y

/-- One viewpoint and one folder, in that order (the grouping demo). -/
def demoMixed : List VTree :=
  [.node ⟨0, "a", "ga", "", false, ""⟩ [],
   .node ⟨1, "b", "gb", "", true, ""⟩ []]

end Navis

namespace Navis

/-- Four viewpoint children `[A, B, C, D]` where only `B` and `D` carry
natural-sortable names (`Item1` < `Item2`), the partial-selection demo. -/
def demoABCD : List VTree :=
  [.node ⟨0, "Alpha", "ga", "", false, ""⟩ [],
   .node ⟨1, "Item1", "gb", "", false, ""⟩ [],
   .node ⟨2, "Charlie", "gc", "", false, ""⟩ [],
   .node ⟨3, "Item2", "gd", "", false, ""⟩ []]

/-- The selection `[B, D]` (object identities) of the demo. -/
def demoSelBD : List Nat := [1, 3]

end Navis

namespace Navis

/-- A viewpoint named `ЛКП_213` (the token-matching demo). -/
def demoLkp : NodeData := ⟨5, "ЛКП_213", "gl", "", false, ""⟩

/-- A session tree holding only `demoLkp` under the root. -/
def demoLkpTree : STree :=
  ⟨⟨0, "Корень", "rg", "", true, ""⟩, [.node demoLkp []]⟩

end Navis

namespace Navis

/-- A root holding a folder `F` that contains a folder `D` (the
move-into-own-descendant demo). -/
def demoFD : STree :=
  ⟨⟨0, "Корень", "rg", "", true, ""⟩,
   [.node ⟨1, "F", "gf", "", true, ""⟩ [.node ⟨2, "D", "gd", "", true, ""⟩ []]]⟩

end Navis

namespace Navis

/-- Number of nodes of a data list carrying guid `g`. -/
def gcount (l : List NodeData) (g : String) : Nat :=
  l.countP fun d => d.guid = g

/-- A structured demo import file: a `viewfolder` `F` (guid `gf`) holding a
`view` `V` (guid `g1`). -/
def demoDocS : XmlElem :=
  .elem "exchange" []
    [.elem "viewpoints" []
      [.elem "viewfolder" [("name", "F"), ("guid", "gf")]
        [.elem "view" [("name", "V"), ("guid", "g1")] []]]]

/-- Demo source pool for the uniqueness theorem: one viewpoint `Point`. -/
def demoPool : List NodeData :=
  [⟨10, "Point", "gp", "", false, ""⟩]

/-- Demo mutation sequence: clone `gp` twice (the second is skipped), bulk
move its token, then a move of an absent identity. -/
def demoOps : List MutOp :=
  [.drop ["gp"] none, .drop ["gp"] none, .bulk ["point"] 0, .move [2] none]

end Navis

namespace Navis

/-- Number of nodes of a data list carrying object identity `x`. -/
def ocount (l : List NodeData) (x : Nat) : Nat :=
  l.countP fun d => d.oid = x

/-- The well-formedness of a tree/pool/target triple under which
`bulk_move_points` behaves as the spec describes: the root is a folder,
viewpoints carry no children, guids and object identities are unique, the
allocation counter is ahead of every identity, the target is a folder node
of the tree, and no tree folder shares a guid with a pool entry. -/
def BulkOK (t : STree) (pool : List NodeData) (target : Nat) (fresh : Nat) : Prop :=
  t.rdata.is_folder = true ∧
  viewsChildlessF t.forest = true ∧
  t.guids.Nodup ∧
  t.oids.Nodup ∧
  (∀ x ∈ t.oids, x < fresh) ∧
  target ∈ t.oids ∧
  (∀ d ∈ t.datas, d.oid = target → d.is_folder = true) ∧
  (∀ d ∈ t.datas, d.is_folder = true → ∀ src ∈ pool, src.guid ≠ d.guid)

/-- Invariant of the evolving tree during one `bulk_move_points` run,
relative to the initial tree `t0`: root unchanged, guid/identity uniqueness,
the counter ahead of every identity, viewpoints childless, nothing lost, and
every new node is a viewpoint clone with a fresh identity sitting under the
target. -/
def TreeInv (t0 : STree) (target fresh0 : Nat) (tr : STree) (fr : Nat) : Prop :=
  tr.rdata = t0.rdata ∧
  (∀ g, gcount tr.datas g ≤ 1) ∧
  (∀ x, ocount tr.datas x ≤ 1) ∧
  (∀ x ∈ tr.oids, x < fr) ∧
  fresh0 ≤ fr ∧
  viewsChildlessF tr.forest = true ∧
  (∀ d ∈ t0.datas, d ∈ tr.datas) ∧
  (∀ d ∈ tr.datas, d ∈ t0.datas ∨
    (d.is_folder = false ∧ fresh0 ≤ d.oid ∧ tr.parentOf d.oid = some target))

/-- The after-state of one processed bulk-move token: every initial-index
tree hit now sits under the target, and if the token had no tree hits, every
pool hit has a tree node with its guid sitting under the target. -/
def TokenDone (t0 : STree) (pool : List NodeData) (target : Nat) (tr : STree)
    (tok : String) : Prop :=
  (∀ x ∈ treeIndexLookup t0 (pyLower tok), tr.parentOf x = some target) ∧
  (treeIndexLookup t0 (pyLower tok) = [] →
    ∀ src ∈ poolIndexLookup pool (pyLower tok),
      ∃ ex ∈ tr.datas, ex.guid = src.guid ∧ tr.parentOf ex.oid = some target)

/-- A tree with two viewpoints sharing guid `g` (duplicate identifiers) and
a target folder `T`. -/
def demoDupTree : STree :=
  ⟨⟨0, "Корень", "rg", "", true, ""⟩,
   [.node ⟨1, "c1", "g", "", false, ""⟩ [],
    .node ⟨2, "c2", "g", "", false, ""⟩ [],
    .node ⟨3, "T", "gt", "", true, ""⟩ []]⟩

/-- A pool entry named `tok` with the duplicated guid `g`. -/
def demoDupPool : List NodeData :=
  [⟨9, "tok", "g", "", false, ""⟩]

/-- The spec's bulk-move demo: viewpoints `1311` and `1312` inside a zone
folder, plus an empty target folder. -/
def demoBulkTree : STree :=
  ⟨⟨0, "Корень", "rg", "", true, ""⟩,
   [.node ⟨1, "Зона A", "ga", "", true, ""⟩
      [.node ⟨2, "1311", "g1311", "", false, ""⟩ [],
       .node ⟨3, "1312", "g1312", "", false, ""⟩ []],
    .node ⟨4, "Target", "gt", "", true, ""⟩ []]⟩

end Navis

namespace Navis

/-! ## Theorems -/

theorem poolGet_append (pool : List NodeData) (g : String) (v vp : NodeData)
    (h : poolGet pool g = some v) : poolGet (pool ++ [vp]) g = some v := by
  induction pool with
  | nil => simp [poolGet] at h
  | cons d rest ih =>
      by_cases hd : d.guid = g
      · simpa [poolGet, List.find?_cons, hd] using h
      · have h' : poolGet rest g = some v := by
          simpa [poolGet, List.find?_cons, hd] using h
        simpa [poolGet, List.find?_cons, hd] using ih h'

theorem loadFlatViews_preserves (src : String) (els : List XmlElem) :
    ∀ (pool : List NodeData) (fresh : Nat) (g : String) (v : NodeData),
      poolGet pool g = some v →
      poolGet (loadFlatViews src pool fresh els).1 g = some v := by
  induction els with
  | nil => intro pool fresh g v h; simpa [loadFlatViews] using h
  | cons e rest ih =>
      intro pool fresh g v h
      cases e with
      | elem tg a cs =>
          by_cases ht : tg = "view"
          · simp only [loadFlatViews, if_pos ht]
            split <;> split <;>
              first
                | exact ih _ _ _ _ h
                | exact ih _ _ _ _ (poolGet_append _ _ _ _ h)
          · simp only [loadFlatViews, if_neg ht]
            exact ih _ _ _ _ h

theorem loadDoc_pool_preserves (src : String) (s : Session) (doc : XmlElem)
    (g : String) (v : NodeData) (h : poolGet s.pool g = some v) :
    poolGet (loadDoc src s doc).pool g = some v := by
  rw [loadDoc]
  split
  · exact h
  · dsimp only
    split
    · exact loadFlatViews_preserves _ _ _ _ _ _ h
    · exact h

/-- C5 — first-import-wins: once the source pool holds an entry for an
identifier, no later import (of any document sequence) replaces it: the
entry keeps the name and payload of its first occurrence, later flat
elements with the same identifier are discarded. -/
theorem claim_C5 (docs : List (String × XmlElem)) (s : Session) (g : String)
    (v : NodeData) (h : poolGet s.pool g = some v) :
    poolGet (loadDocs s docs).pool g = some v := by
  induction docs generalizing s with
  | nil => exact h
  | cons p rest ih =>
      exact ih (loadDoc p.1 s p.2) (loadDoc_pool_preserves _ _ _ _ _ h)

/-- Witness for C5: importing `Alpha` (identifier `X`) and then `Beta`
(same identifier) leaves the pool entry for `X` named `Alpha`. -/
theorem claim_C5_witness :
    ∃ v : NodeData, poolGet demoSessA.pool "X" = some v ∧
      poolGet (loadDocs demoSessA [("b.xml", demoDocB)]).pool "X" = some v ∧
      v.name = "Alpha" := by
  refine ⟨⟨1, "Alpha", "X", "<view name=\x22Alpha\x22 guid=\x22X\x22></view>",
    false, "a.xml"⟩, ?_, ?_, rfl⟩
  · decide
  · exact claim_C5 [("b.xml", demoDocB)] demoSessA "X" _ (by decide)

end Navis
namespace Navis

/-- Counterexample to C2 as stated: a viewpoint whose retained payload is
empty produces no element at all on export (the claim demands a minimal
element carrying name and identifier).  The parse function is irrelevant —
it is never consulted for an empty payload. -/
theorem claim_C2_counterexample :
    addNodeXml (fun _ => none) (.node ⟨5, "v", "g", "", false, ""⟩ []) = [] := rfl

/-- C2 (amended) — export fallback: a viewpoint whose non-empty payload
fails to re-parse is emitted as a minimal `view` element carrying exactly
its current name and identifier; a viewpoint with an empty payload is
silently skipped (no element).  In both cases `add_node_xml` returns
normally, so such nodes never abort the surrounding export. -/
theorem claim_C2 (par : String → Option XmlElem) (d : NodeData) (cs : List VTree)
    (hf : d.is_folder = false) :
    (d.xml_content ≠ "" → par d.xml_content = none →
      addNodeXml par (.node d cs) = [.elem "view" [("name", d.name), ("guid", d.guid)] []]) ∧
    (d.xml_content = "" → addNodeXml par (.node d cs) = []) := by
  constructor
  · intro hne hp
    simp [addNodeXml, hf, hne, hp]
  · intro he
    simp [addNodeXml, hf, he]

/-- Witness for C2: a concrete unparsable non-empty payload falls back to
the minimal element. -/
theorem claim_C2_witness :
    addNodeXml (fun _ => none) (.node ⟨7, "nm", "gd", "bad", false, ""⟩ []) =
      [.elem "view" [("name", "nm"), ("guid", "gd")] []] :=
  (claim_C2 (fun _ => none) ⟨7, "nm", "gd", "bad", false, ""⟩ [] rfl).1
    (by decide) rfl

end Navis
namespace Navis

theorem pieceKey_nondigit (p : List Char) (h : ∀ c ∈ p, c.isDigit = false) :
    pieceKey p = toLex (Sum.inl (p.map pyLowerChar)) := by
  cases p with
  | nil => simp [pieceKey]
  | cons c cs =>
      have hc : c.isDigit = false := h c (by simp)
      simp [pieceKey, List.all_cons, hc]

theorem pieceKey_digits (p : List Char) (hne : p ≠ [])
    (h : ∀ c ∈ p, c.isDigit = true) :
    pieceKey p = toLex (Sum.inr (digitsVal p)) := by
  have hall : p.all Char.isDigit = true := by
    simpa [List.all_eq_true] using h
  simp [pieceKey, hne, hall]

theorem isInl_pieceKey_nondigit (p : List Char) (h : ∀ c ∈ p, c.isDigit = false) :
    isInl (pieceKey p) = true := by
  rw [pieceKey_nondigit p h]; rfl

theorem isInr_pieceKey_digits (p : List Char) (hne : p ≠ [])
    (h : ∀ c ∈ p, c.isDigit = true) : isInr (pieceKey p) = true := by
  rw [pieceKey_digits p hne h]; rfl

theorem altOK_cons_of_altOKD (v : NatKeyVal) (L : NatKey) (hv : isInl v = true)
    (hL : altOKD L = true) : altOK (v :: L) = true := by
  cases L with
  | nil => simp [altOKD] at hL
  | cons w rest =>
      simp only [altOKD, Bool.and_eq_true] at hL
      simp [altOK, hv, hL.1, hL.2]

theorem rsd_alt (cs : List Char) :
    (∀ acc, (∀ c ∈ acc, c.isDigit = false) →
      altOK ((rsdND acc cs).map pieceKey) = true) ∧
    (∀ dacc, dacc ≠ [] → (∀ c ∈ dacc, c.isDigit = true) →
      altOKD ((rsdD dacc cs).map pieceKey) = true) := by
  induction cs with
  | nil =>
      constructor
      · intro acc hacc
        have : ∀ c ∈ acc.reverse, c.isDigit = false := by
          intro c hcmem; exact hacc c (List.mem_reverse.1 hcmem)
        simp [rsdND, altOK, isInl_pieceKey_nondigit _ this]
      · intro dacc hne hd
        have h1 : isInr (pieceKey dacc.reverse) = true :=
          isInr_pieceKey_digits _ (by simpa using hne)
            (fun c hc => hd c (List.mem_reverse.1 hc))
        have h2 : isInl (pieceKey ([] : List Char)) = true :=
          isInl_pieceKey_nondigit _ (by simp)
        simp [rsdD, altOKD, altOK, h1, h2]
  | cons c cs ih =>
      constructor
      · intro acc hacc
        by_cases hc : c.isDigit
        · have hInl : isInl (pieceKey acc.reverse) = true :=
            isInl_pieceKey_nondigit _ (fun x hx => hacc x (List.mem_reverse.1 hx))
          have hD : altOKD ((rsdD [c] cs).map pieceKey) = true :=
            ih.2 [c] (by simp) (by simpa using hc)
          simpa [rsdND, hc] using altOK_cons_of_altOKD _ _ hInl hD
        · have hc' : c.isDigit = false := by simpa using hc
          simp only [rsdND, hc', Bool.false_eq_true, if_false]
          exact ih.1 (c :: acc) (by
            intro x hx
            rcases List.mem_cons.1 hx with h | h
            · exact h ▸ hc'
            · exact hacc x h)
      · intro dacc hne hd
        by_cases hc : c.isDigit
        · simp only [rsdD, hc, if_true]
          exact ih.2 (c :: dacc) (by simp) (by
            intro x hx
            rcases List.mem_cons.1 hx with h | h
            · exact h ▸ hc
            · exact hd x h)
        · have hc' : c.isDigit = false := by simpa using hc
          have hInr : isInr (pieceKey dacc.reverse) = true :=
            isInr_pieceKey_digits _ (by simpa using hne)
              (fun x hx => hd x (List.mem_reverse.1 hx))
          have hND : altOK ((rsdND [c] cs).map pieceKey) = true :=
            ih.1 [c] (by simpa using hc')
          simp [rsdD, hc', altOKD, hInr, hND]

theorem natKey_altOK (s : String) : altOK (natKey s) = true :=
  (rsd_alt s.data).1 [] (by simp)

theorem pyCmpVal_inl_isSome (a b : NatKeyVal) (ha : isInl a = true)
    (hb : isInl b = true) : pyCmpVal a b ≠ none := by
  unfold isInl at ha hb
  unfold pyCmpVal
  cases hA : ofLex a with
  | inl s =>
      cases hB : ofLex b with
      | inl t => simp
      | inr n => rw [hB] at hb; simp at hb
  | inr m => rw [hA] at ha; simp at ha

theorem pyCmpVal_inr_isSome (a b : NatKeyVal) (ha : isInr a = true)
    (hb : isInr b = true) : pyCmpVal a b ≠ none := by
  unfold isInr isInl at ha hb
  unfold pyCmpVal
  cases hA : ofLex a with
  | inl s => rw [hA] at ha; simp at ha
  | inr m =>
      cases hB : ofLex b with
      | inl t => rw [hB] at hb; simp at hb
      | inr n => simp

end Navis
namespace Navis

theorem pyCmpKey_isSome :
    ∀ a b : NatKey, altOK a = true → altOK b = true → pyCmpKey a b ≠ none := by
  intro a
  induction a using altOK.induct with
  | case1 =>
      intro b ha _
      simp [altOK] at ha
  | case2 v =>
      intro b ha hb
      match b with
      | [] => simp [altOK] at hb
      | [w] =>
          have hv : isInl v = true := by simpa [altOK] using ha
          have hw : isInl w = true := by simpa [altOK] using hb
          have hvw := pyCmpVal_inl_isSome v w hv hw
          simp only [pyCmpKey]
          rcases hc : pyCmpVal v w with _ | o
          · exact absurd hc hvw
          · cases o <;> simp [pyCmpKey]
      | w :: w2 :: bs =>
          have hv : isInl v = true := by simpa [altOK] using ha
          have hw : isInl w = true := by
            simp only [altOK, Bool.and_eq_true] at hb
            exact hb.1.1
          have hvw := pyCmpVal_inl_isSome v w hv hw
          simp only [pyCmpKey]
          rcases hc : pyCmpVal v w with _ | o
          · exact absurd hc hvw
          · cases o <;> simp [pyCmpKey]
  | case3 v w rest ih =>
      intro b ha hb
      simp only [altOK, Bool.and_eq_true] at ha
      match b with
      | [] => simp [altOK] at hb
      | [w'] =>
          have hw' : isInl w' = true := by simpa [altOK] using hb
          have hvw := pyCmpVal_inl_isSome v w' ha.1.1 hw'
          simp only [pyCmpKey]
          rcases hc : pyCmpVal v w' with _ | o
          · exact absurd hc hvw
          · cases o <;> simp [pyCmpKey]
      | w' :: w2' :: bs =>
          simp only [altOK, Bool.and_eq_true] at hb
          have hvw := pyCmpVal_inl_isSome v w' ha.1.1 hb.1.1
          simp only [pyCmpKey]
          rcases hc : pyCmpVal v w' with _ | o
          · exact absurd hc hvw
          · cases o with
            | eq =>
                have h2 := pyCmpVal_inr_isSome w w2' ha.1.2 hb.1.2
                simp only [pyCmpKey]
                rcases hc2 : pyCmpVal w w2' with _ | o2
                · exact absurd hc2 h2
                · cases o2 with
                  | eq => exact ih bs ha.2 hb.2
                  | lt => simp
                  | gt => simp
            | lt => simp
            | gt => simp

/-- A piece key that `_natural_key` actually produces agrees with the total
decimal-digit model. -/
theorem pieceKeyPy_eq (p : List Char) (v : NatKeyVal)
    (h : pieceKeyPy p = some v) : v = pieceKey p := by
  rw [pieceKeyPy] at h
  rw [pieceKey]
  by_cases h1 : p ≠ [] ∧ p.all pyIsDigit = true
  · rw [if_pos h1] at h
    by_cases h2 : p.all Char.isDigit = true
    · rw [if_pos h2] at h
      rw [if_pos ⟨h1.1, h2⟩]
      exact (Option.some.inj h).symm
    · rw [if_neg h2] at h
      simp at h
  · rw [if_neg h1] at h
    have h2 : ¬ (p ≠ [] ∧ p.all Char.isDigit = true) := by
      rintro ⟨hne, hall⟩
      refine h1 ⟨hne, ?_⟩
      rw [List.all_eq_true] at hall ⊢
      intro c hc
      rw [pyIsDigit, hall c hc]
      rfl
    rw [if_neg h2]
    exact (Option.some.inj h).symm

/-- The key loop agrees with the total model wherever it returns. -/
theorem natKeyPyAux_eq :
    ∀ (ps : List (List Char)) (k : NatKey), natKeyPyAux ps = some k →
      k = ps.map pieceKey := by
  intro ps
  induction ps with
  | nil =>
      intro k h
      rw [natKeyPyAux] at h
      rw [List.map_nil]
      exact (Option.some.inj h).symm
  | cons p rest ih =>
      intro k h
      rw [natKeyPyAux] at h
      rcases hv : pieceKeyPy p with _ | v
      · rw [hv] at h
        have h' : (none : Option NatKey) = some k := h
        simp at h'
      · rw [hv] at h
        rcases hvs : natKeyPyAux rest with _ | vs
        · rw [hvs] at h
          have h' : (none : Option NatKey) = some k := h
          simp at h'
        · rw [hvs] at h
          have h' : some (v :: vs) = some k := h
          rw [List.map_cons, ← pieceKeyPy_eq p v hv, ← ih vs hvs]
          exact (Option.some.inj h').symm

/-- Every key `_natural_key` actually returns is the total model's key. -/
theorem natKeyPy_eq_natKey (s : String) (k : NatKey) (h : natKeyPy s = some k) :
    k = natKey s := by
  rw [natKeyPy] at h
  rw [natKey]
  exact natKeyPyAux_eq _ k h

/-- C10 counterexample: the name `"²"` refutes totality — `re.split` leaves
the piece `²` uncaptured (it is not a decimal digit), `'²'.isdigit()` is
true, and `int('²')` raises `ValueError`, so `_natural_key` raises instead
of returning a key. -/
theorem claim_C10_counterexample :
    pyIsDigit '²' = true ∧ ('²' : Char).isDigit = false ∧
      reSplitDigits "²" = [['²']] ∧ natKeyPy "²" = none := by
  refine ⟨rfl, rfl, by decide, by decide⟩

/-- C10 (amended) — the natural-sort key is partial (`int(p)` raises on a
digit-property piece that is not a decimal-digit run), but on every name
where `_natural_key` does return, the key alternates a text run at every
even position with a number at every odd position (`altOK`), and Python's
elementwise list comparison of two such keys never reaches an `int` vs
`str` comparison — sorting children whose names all produce keys never
raises a comparison `TypeError`. -/
theorem claim_C10 (n₁ n₂ : String) (k₁ k₂ : NatKey)
    (h₁ : natKeyPy n₁ = some k₁) (h₂ : natKeyPy n₂ = some k₂) :
    altOK k₁ = true ∧ altOK k₂ = true ∧ pyCmpKey k₁ k₂ ≠ none := by
  rw [natKeyPy_eq_natKey n₁ k₁ h₁, natKeyPy_eq_natKey n₂ k₂ h₂]
  exact ⟨natKey_altOK n₁, natKey_altOK n₂,
    pyCmpKey_isSome _ _ (natKey_altOK n₁) (natKey_altOK n₂)⟩

/-- Witness for C10: `Item2` and `Item10` both produce keys, and those keys
alternate and compare without a type fault, by the theorem. -/
theorem claim_C10_witness :
    (natKeyPy "Item2" = some (natKey "Item2") ∧
      natKeyPy "Item10" = some (natKey "Item10")) ∧
    (altOK (natKey "Item2") = true ∧ altOK (natKey "Item10") = true ∧
      pyCmpKey (natKey "Item2") (natKey "Item10") ≠ none) :=
  ⟨⟨rfl, rfl⟩,
    claim_C10 "Item2" "Item10" (natKey "Item2") (natKey "Item10") rfl rfl⟩

end Navis
namespace Navis

theorem rsdD_digits (cs : List Char) :
    ∀ dacc, (∀ c ∈ cs, c.isDigit = true) →
      rsdD dacc cs = [dacc.reverse ++ cs, []] := by
  induction cs with
  | nil => intro dacc _; simp [rsdD]
  | cons c cs ih =>
      intro dacc h
      have hc : c.isDigit = true := h c (by simp)
      rw [rsdD, if_pos hc, ih (c :: dacc) (fun x hx => h x (List.mem_cons_of_mem _ hx))]
      simp

theorem rsdND_split (pc : List Char) :
    ∀ acc (sc : List Char), (∀ c ∈ pc, c.isDigit = false) → sc ≠ [] →
      (∀ c ∈ sc, c.isDigit = true) →
      rsdND acc (pc ++ sc) = [acc.reverse ++ pc, sc, []] := by
  induction pc with
  | nil =>
      intro acc sc _ hne hdig
      cases sc with
      | nil => exact absurd rfl hne
      | cons c cs =>
          have hc : c.isDigit = true := hdig c (by simp)
          rw [List.nil_append, rsdND, if_pos hc,
            rsdD_digits cs [c] (fun x hx => hdig x (List.mem_cons_of_mem _ hx))]
          simp
  | cons b pc ih =>
      intro acc sc hnd hne hdig
      have hb : b.isDigit = false := hnd b (by simp)
      rw [List.cons_append, rsdND, hb]
      simp only [Bool.false_eq_true, if_false]
      rw [ih (b :: acc) sc (fun x hx => hnd x (List.mem_cons_of_mem _ hx)) hne hdig]
      simp

theorem natKey_text_digits (p s : String) (hp : ∀ c ∈ p.data, c.isDigit = false)
    (hne : s.data ≠ []) (hdig : ∀ c ∈ s.data, c.isDigit = true) :
    natKey (p ++ s) =
      [toLex (Sum.inl (p.data.map pyLowerChar)),
       toLex (Sum.inr (digitsVal s.data)), toLex (Sum.inl [])] := by
  rw [natKey, reSplitDigits, String.data_append, rsdND_split p.data [] s.data hp hne hdig]
  simp [pieceKey_nondigit p.data hp, pieceKey_digits s.data hne hdig,
    pieceKey_nondigit [] (by simp)]

/-- C8 — natural-order comparator: over names made of a digit-free prefix
followed by a digit run, keys order strictly by the numeric value of the
run; lowercasing makes comparison case-insensitive; and sorting the three
viewpoints `Item2`, `Item10`, `Item1` ascending by the code's key yields
`Item1`, `Item2`, `Item10` (not the lexicographic order). -/
theorem claim_C8 :
    (∀ p s t : String, (∀ c ∈ p.data, c.isDigit = false) →
      s.data ≠ [] → (∀ c ∈ s.data, c.isDigit = true) →
      t.data ≠ [] → (∀ c ∈ t.data, c.isDigit = true) →
      digitsVal s.data < digitsVal t.data →
      natKey (p ++ s) < natKey (p ++ t)) ∧
    natKey "ITEM2" = natKey "item2" ∧
    (sortFolderChildren .nat_asc demoItems).map (fun c => c.data.name) =
      ["Item1", "Item2", "Item10"] := by
  refine ⟨?_, by decide, by decide⟩
  intro p s t hp hsne hs htne ht hval
  rw [natKey_text_digits p s hp hsne hs, natKey_text_digits p t hp htne ht]
  exact List.Lex.cons (List.Lex.rel (Sum.Lex.inr_lt_inr_iff.2 hval))

/-- Witness for C8: `Item2` sorts strictly before `Item10`. -/
theorem claim_C8_witness :
    natKey ("Item" ++ "2") < natKey ("Item" ++ "10") :=
  claim_C8.1 "Item" "2" "10" (by decide) (by decide) (by decide) (by decide)
    (by decide) (by decide)

end Navis
namespace Navis

theorem pairwise_sortByKey {α : Type} {β : Type} [LinearOrder β] (key : α → β)
    (l : List α) :
    (sortByKey key l).Pairwise (fun x y => key x ≤ key y) :=
  @List.sorted_insertionSort α (fun x y => key x ≤ key y)
    (fun x y => inferInstanceAs (Decidable (key x ≤ key y)))
    ⟨fun a b => le_total (key a) (key b)⟩
    ⟨fun _ _ _ hab hbc => le_trans hab hbc⟩ l

theorem pairwise_sortByKeyRev {α : Type} {β : Type} [LinearOrder β] (key : α → β)
    (l : List α) :
    (sortByKeyRev key l).Pairwise (fun x y => key y ≤ key x) :=
  @List.sorted_insertionSort α (fun x y => key y ≤ key x)
    (fun x y => inferInstanceAs (Decidable (key y ≤ key x)))
    ⟨fun a b => le_total (key b) (key a)⟩
    ⟨fun _ _ _ hab hbc => le_trans hbc hab⟩ l

theorem sortByKey_perm {α : Type} {β : Type} [LinearOrder β] (key : α → β)
    (l : List α) : (sortByKey key l).Perm l :=
  List.perm_insertionSort _ l

theorem sortByKeyRev_perm {α : Type} {β : Type} [LinearOrder β] (key : α → β)
    (l : List α) : (sortByKeyRev key l).Perm l :=
  List.perm_insertionSort _ l

end Navis
namespace Navis

theorem pairwise_flag_split {α : Type} (flag : α → Bool) (le : α → α → Prop)
    (hmono : ∀ x y, le x y → flag x = true → flag y = true) :
    ∀ l : List α, l.Pairwise le →
      ∃ a b, l = a ++ b ∧ (∀ x ∈ a, flag x = false) ∧ ∀ x ∈ b, flag x = true := by
  intro l h
  induction l with
  | nil => exact ⟨[], [], rfl, by simp, by simp⟩
  | cons x rest ih =>
      rw [List.pairwise_cons] at h
      cases hx : flag x with
      | false =>
          obtain ⟨a, b, heq, hfa, hfb⟩ := ih h.2
          exact ⟨x :: a, b, by rw [heq]; rfl, by
            intro y hy
            rcases List.mem_cons.1 hy with h' | h'
            · exact h' ▸ hx
            · exact hfa y h', hfb⟩
      | true =>
          refine ⟨[], x :: rest, rfl, by simp, ?_⟩
          intro y hy
          rcases List.mem_cons.1 hy with h' | h'
          · exact h' ▸ hx
          · exact hmono x y (h.1 y h') hx

theorem folderModeKey_eq (mode : SortMode) (c : VTree) :
    folderModeKey mode c = toLex (c.data.is_folder, selModeKey mode c) := by
  cases mode <;> rfl

theorem folderModeKey_le_iff (mode : SortMode) (x y : VTree)
    (h : x.data.is_folder = y.data.is_folder) :
    (folderModeKey mode x ≤ folderModeKey mode y ↔
      selModeKey mode x ≤ selModeKey mode y) := by
  rw [folderModeKey_eq, folderModeKey_eq, Prod.Lex.le_iff, h]
  simp

end Navis
namespace Navis

theorem bool_le_true_left {f : Bool} (h : (true : Bool) ≤ f) : f = true := by
  cases f
  · exact absurd h (by decide)
  · rfl

theorem bool_le_false_right {f : Bool} (h : f ≤ (false : Bool)) : f = false := by
  cases f
  · rfl
  · exact absurd h (by decide)

/-- Counterexample to C7 as stated: ascending natural sort puts the
non-folder first, descending natural sort puts the folder first — the
leading group is not the same in every mode. -/
theorem claim_C7_counterexample :
    (sortFolderChildren .nat_asc demoMixed).map (fun c => c.data.is_folder) =
        [false, true] ∧
      (sortFolderChildren .nat_desc demoMixed).map (fun c => c.data.is_folder) =
        [true, false] := by
  constructor <;> decide

theorem sortByKey_flag_split (mode : SortMode) (cs : List VTree) :
    ∃ va fa : List VTree,
      (∀ x ∈ va, x.data.is_folder = false) ∧
      (∀ x ∈ fa, x.data.is_folder = true) ∧
      sortByKey (folderModeKey mode) cs = va ++ fa ∧
      (va ++ fa).Perm cs ∧
      (va ++ fa).Pairwise (fun x y => folderModeKey mode x ≤ folderModeKey mode y) := by
  have hpw := pairwise_sortByKey (folderModeKey mode) cs
  have hperm := sortByKey_perm (folderModeKey mode) cs
  have hmono : ∀ x y : VTree,
      folderModeKey mode x ≤ folderModeKey mode y →
        x.data.is_folder = true → y.data.is_folder = true := by
    intro x y hle hx
    rw [folderModeKey_eq, folderModeKey_eq, Prod.Lex.le_iff] at hle
    dsimp only at hle
    rcases hle with h | ⟨h, _⟩
    · rw [hx] at h; exact bool_le_true_left h.le
    · rw [← h, hx]
  obtain ⟨a, b, heq, hfa, hfb⟩ :=
    pairwise_flag_split (fun x => x.data.is_folder) _ hmono _ hpw
  exact ⟨a, b, hfa, hfb, heq, heq ▸ hperm, heq ▸ hpw⟩

theorem perm_filter_groups {va fa : List VTree} (cs : List VTree)
    (hva : ∀ x ∈ va, x.data.is_folder = false)
    (hfa : ∀ x ∈ fa, x.data.is_folder = true)
    (hperm : (va ++ fa).Perm cs) :
    va.Perm (cs.filter fun x => !x.data.is_folder) ∧
      fa.Perm (cs.filter fun x => x.data.is_folder) := by
  have e1 : List.filter (fun x => !x.data.is_folder) va = va :=
    List.filter_eq_self.2 (by intro x hx; simp [hva x hx])
  have e2 : List.filter (fun x => !x.data.is_folder) fa = [] :=
    List.filter_eq_nil_iff.2 (by intro x hx; simp [hfa x hx])
  have e3 : List.filter (fun x => x.data.is_folder) va = [] :=
    List.filter_eq_nil_iff.2 (by intro x hx; simp [hva x hx])
  have e4 : List.filter (fun x => x.data.is_folder) fa = fa :=
    List.filter_eq_self.2 (by intro x hx; simp [hfa x hx])
  constructor
  · have h := (hperm.filter (fun x => !x.data.is_folder)).symm
    rw [List.filter_append, e1, e2, List.append_nil] at h
    exact h.symm
  · have h := (hperm.filter (fun x => x.data.is_folder)).symm
    rw [List.filter_append, e3, e4, List.nil_append] at h
    exact h.symm

/-- C7 (amended) — folder grouping under `sort_folder`: in every mode the
result consists of two contiguous groups, each a permutation of the
corresponding original subset, ordered inside by the mode's key alone; the
non-folder group comes first in `nat_asc` and `guid` mode, while
`reverse=True` puts the folder group first in `nat_desc` mode.  Folders and
non-folders are never interleaved by key alone. -/
theorem claim_C7 (cs : List VTree) (mode : SortMode) :
    ∃ va fa : List VTree,
      (∀ x ∈ va, x.data.is_folder = false) ∧
      (∀ x ∈ fa, x.data.is_folder = true) ∧
      va.Perm (cs.filter fun x => !x.data.is_folder) ∧
      fa.Perm (cs.filter fun x => x.data.is_folder) ∧
      sortFolderChildren mode cs = (if mode = .nat_desc then fa ++ va else va ++ fa) ∧
      va.Pairwise (modeRel mode) ∧ fa.Pairwise (modeRel mode) := by
  cases mode with
  | nat_asc =>
      obtain ⟨va, fa, hva, hfa, heq, hperm, hpw⟩ :=
        sortByKey_flag_split .nat_asc cs
      obtain ⟨hp1, hp2⟩ := perm_filter_groups cs hva hfa hperm
      rw [List.pairwise_append] at hpw
      refine ⟨va, fa, hva, hfa, hp1, hp2, heq, ?_, ?_⟩
      · exact hpw.1.imp_of_mem fun hx hy h => by
          rw [modeRel, if_neg (by simp),
            ← folderModeKey_le_iff .nat_asc _ _ (by rw [hva _ hx, hva _ hy])]
          exact h
      · exact hpw.2.1.imp_of_mem fun hx hy h => by
          rw [modeRel, if_neg (by simp),
            ← folderModeKey_le_iff .nat_asc _ _ (by rw [hfa _ hx, hfa _ hy])]
          exact h
  | guid =>
      obtain ⟨va, fa, hva, hfa, heq, hperm, hpw⟩ :=
        sortByKey_flag_split .guid cs
      obtain ⟨hp1, hp2⟩ := perm_filter_groups cs hva hfa hperm
      rw [List.pairwise_append] at hpw
      refine ⟨va, fa, hva, hfa, hp1, hp2, heq, ?_, ?_⟩
      · exact hpw.1.imp_of_mem fun hx hy h => by
          rw [modeRel, if_neg (by simp),
            ← folderModeKey_le_iff .guid _ _ (by rw [hva _ hx, hva _ hy])]
          exact h
      · exact hpw.2.1.imp_of_mem fun hx hy h => by
          rw [modeRel, if_neg (by simp),
            ← folderModeKey_le_iff .guid _ _ (by rw [hfa _ hx, hfa _ hy])]
          exact h
  | nat_desc =>
      have hpw := pairwise_sortByKeyRev (folderModeKey .nat_desc) cs
      have hperm := sortByKeyRev_perm (folderModeKey .nat_desc) cs
      have hmono : ∀ x y : VTree,
          folderModeKey .nat_desc y ≤ folderModeKey .nat_desc x →
            (!x.data.is_folder) = true → (!y.data.is_folder) = true := by
        intro x y hle hx
        have hx' : x.data.is_folder = false := by simpa using hx
        rw [folderModeKey_eq, folderModeKey_eq, Prod.Lex.le_iff] at hle
        dsimp only at hle
        rcases hle with h | ⟨h, _⟩
        · rw [hx'] at h; simp [bool_le_false_right h.le]
        · rw [hx'] at h; simp [h]
      obtain ⟨fa, va, heq, hfa, hva⟩ :=
        pairwise_flag_split (fun x => !x.data.is_folder) _ hmono _ hpw
      have hva' : ∀ x ∈ va, x.data.is_folder = false := by
        intro x hx; simpa using hva x hx
      have hfa' : ∀ x ∈ fa, x.data.is_folder = true := by
        intro x hx; simpa using hfa x hx
      have hperm' : (va ++ fa).Perm cs :=
        (List.perm_append_comm.trans (heq ▸ hperm))
      obtain ⟨hp1, hp2⟩ := perm_filter_groups cs hva' hfa' hperm'
      rw [heq, List.pairwise_append] at hpw
      refine ⟨va, fa, hva', hfa', hp1, hp2, heq, ?_, ?_⟩
      · exact hpw.2.1.imp_of_mem fun hx hy h => by
          rw [modeRel, if_pos rfl,
            ← folderModeKey_le_iff .nat_desc _ _ (by rw [hva' _ hx, hva' _ hy])]
          exact h
      · exact hpw.1.imp_of_mem fun hx hy h => by
          rw [modeRel, if_pos rfl,
            ← folderModeKey_le_iff .nat_desc _ _ (by rw [hfa' _ hx, hfa' _ hy])]
          exact h

end Navis
namespace Navis

theorem foldl_set_getElem?_not_mem {α : Type} (ps : List (Nat × α)) :
    ∀ (l : List α) (i : Nat), (∀ p ∈ ps, p.1 ≠ i) →
      (ps.foldl (fun acc p => acc.set p.1 p.2) l)[i]? = l[i]? := by
  induction ps with
  | nil => intro l i _; rfl
  | cons p ps ih =>
      intro l i h
      rw [List.foldl_cons, ih _ _ (fun q hq => h q (List.mem_cons_of_mem _ hq)),
        List.getElem?_set_ne (h p (List.mem_cons_self _ _))]

theorem foldl_set_getElem?_mem {α : Type} (ps : List (Nat × α)) :
    ∀ (l : List α) (i : Nat) (v : α), (ps.map Prod.fst).Nodup →
      (i, v) ∈ ps → i < l.length →
      (ps.foldl (fun acc p => acc.set p.1 p.2) l)[i]? = some v := by
  induction ps with
  | nil => intro l i v _ hm _; exact absurd hm (List.not_mem_nil _)
  | cons p ps ih =>
      intro l i v hnd hm hlt
      rw [List.map_cons, List.nodup_cons] at hnd
      rcases List.mem_cons.1 hm with he | hm'
      · have hpi : p.1 = i := by rw [← he]
        have hpv : p.2 = v := by rw [← he]
        have hni : i ∉ ps.map Prod.fst := by rw [← hpi]; exact hnd.1
        rw [List.foldl_cons, hpi, hpv,
          foldl_set_getElem?_not_mem ps _ _ (by
            intro q hq hqe
            apply hni
            rw [← hqe]
            exact List.mem_map_of_mem Prod.fst hq)]
        exact List.getElem?_set_self hlt
      · rw [List.foldl_cons]
        exact ih _ _ _ hnd.2 hm' (by rw [List.length_set]; exact hlt)

theorem selChosen_oid_sublist (children : List VTree) (sel : List Nat) :
    ((selChosen children sel).map fun c => c.data.oid).Sublist sel := by
  have h1 : (selChosen children sel).Sublist
      (sel.filterMap fun o => children.find? fun c => c.data.oid = o) :=
    List.filter_sublist _
  have h2 : ∀ sl : List Nat,
      ((sl.filterMap fun o => children.find? fun c => c.data.oid = o).map
        fun c => c.data.oid).Sublist sl := by
    intro sl
    induction sl with
    | nil => simp
    | cons o rest ih =>
        rw [List.filterMap_cons]
        rcases hf : children.find? fun c => c.data.oid = o with _ | c
        · simp only [hf]
          exact ih.cons o
        · have hco : c.data.oid = o := by simpa using List.find?_some hf
          simp only [hf, List.map_cons, hco]
          exact ih.cons₂ o
  exact (List.Sublist.map _ h1).trans (h2 sel)

theorem selChosen_mem (children : List VTree) (sel : List Nat) (c : VTree)
    (hc : c ∈ selChosen children sel) : c ∈ children := by
  have := List.mem_of_mem_filter hc
  rcases List.mem_filterMap.1 this with ⟨o, _, hf⟩
  exact List.mem_of_find?_eq_some hf

theorem selIndexes_lt (children : List VTree) (sel : List Nat) (i : Nat)
    (hi : i ∈ selIndexes children sel) : i < children.length := by
  rcases List.mem_map.1 hi with ⟨ch, hch, rfl⟩
  exact List.findIdx_lt_length_of_exists
    ⟨ch, selChosen_mem _ _ _ hch, by simp⟩

theorem selIndexes_nodup (children : List VTree) (sel : List Nat)
    (hsel : sel.Nodup) : (selIndexes children sel).Nodup := by
  have hsub := selChosen_oid_sublist children sel
  have hchnodup : ((selChosen children sel).map fun c => c.data.oid).Nodup :=
    hsel.sublist hsub
  have : selIndexes children sel =
      ((selChosen children sel).map fun c => c.data.oid).map
        (fun o => children.findIdx fun c => c.data.oid = o) := by
    rw [selIndexes, List.map_map]; rfl
  rw [this]
  refine hchnodup.map_on ?_
  intro o1 h1 o2 h2 heq
  rcases List.mem_map.1 h1 with ⟨c1, hc1, rfl⟩
  rcases List.mem_map.1 h2 with ⟨c2, hc2, rfl⟩
  have hlt1 : (children.findIdx fun c => c.data.oid = c1.data.oid) < children.length :=
    List.findIdx_lt_length_of_exists ⟨c1, selChosen_mem _ _ _ hc1, by simp⟩
  have hlt2 : (children.findIdx fun c => c.data.oid = c2.data.oid) < children.length :=
    List.findIdx_lt_length_of_exists ⟨c2, selChosen_mem _ _ _ hc2, by simp⟩
  have e1 : (children[(children.findIdx fun c => c.data.oid = c1.data.oid)]?).map
      (fun c => c.data.oid) = some c1.data.oid := by
    rw [List.getElem?_eq_getElem hlt1]
    simpa using (List.findIdx_getElem (w := hlt1))
  have e2 : (children[(children.findIdx fun c => c.data.oid = c2.data.oid)]?).map
      (fun c => c.data.oid) = some c2.data.oid := by
    rw [List.getElem?_eq_getElem hlt2]
    simpa using (List.findIdx_getElem (w := hlt2))
  rw [heq] at e1
  exact Option.some.inj (e1.symm.trans e2)

end Navis
namespace Navis

theorem selSorted_perm (mode : SortMode) (children : List VTree) (sel : List Nat) :
    (selSorted mode children sel).Perm (selChosen children sel) := by
  cases mode
  · exact sortByKey_perm _ _
  · exact sortByKeyRev_perm _ _
  · exact sortByKey_perm _ _

theorem selSorted_pairwise (mode : SortMode) (children : List VTree) (sel : List Nat) :
    (selSorted mode children sel).Pairwise (modeRel mode) := by
  cases mode with
  | nat_asc =>
      refine (pairwise_sortByKey (selModeKey .nat_asc) _).imp ?_
      intro x y h
      simpa [modeRel] using h
  | nat_desc =>
      refine (pairwise_sortByKeyRev (selModeKey .nat_desc) _).imp ?_
      intro x y h
      simpa [modeRel] using h
  | guid =>
      refine (pairwise_sortByKey (selModeKey .guid) _).imp ?_
      intro x y h
      simpa [modeRel] using h

theorem selSorted_length (mode : SortMode) (children : List VTree) (sel : List Nat) :
    (selSorted mode children sel).length = (selChosen children sel).length :=
  (selSorted_perm mode children sel).length_eq

/-- C6 — partial-selection sort: sorting only a selected subset of one
parent's children (a duplicate-free selection) leaves every unselected
position untouched, and writes the stably sorted selection, in order, into
exactly the ascending sequence of index slots the selection originally
occupied. -/
theorem claim_C6 (mode : SortMode) (children : List VTree) (sel : List Nat)
    (hsel : sel.Nodup) :
    (∀ i : Nat, i ∉ selIndexes children sel →
      (sortSelectedPoints mode children sel)[i]? = children[i]?) ∧
    (∀ p ∈ (sortByKey id (selIndexes children sel)).zip (selSorted mode children sel),
      (sortSelectedPoints mode children sel)[p.1]? = some p.2) ∧
    (sortByKey id (selIndexes children sel)).Perm (selIndexes children sel) ∧
    (sortByKey id (selIndexes children sel)).Pairwise (· ≤ ·) ∧
    (selSorted mode children sel).Perm (selChosen children sel) ∧
    (selSorted mode children sel).Pairwise (modeRel mode) := by
  have hpermIdx : (sortByKey id (selIndexes children sel)).Perm (selIndexes children sel) :=
    sortByKey_perm _ _
  have hlen : (sortByKey id (selIndexes children sel)).length ≤
      (selSorted mode children sel).length := by
    rw [hpermIdx.length_eq, selSorted_length, selIndexes, List.length_map]
  have hfst : ((sortByKey id (selIndexes children sel)).zip
      (selSorted mode children sel)).map Prod.fst =
      sortByKey id (selIndexes children sel) :=
    List.map_fst_zip _ _ hlen
  refine ⟨?_, ?_, hpermIdx, ?_, selSorted_perm mode children sel,
    selSorted_pairwise mode children sel⟩
  · intro i hi
    rw [sortSelectedPoints]
    refine foldl_set_getElem?_not_mem _ _ _ ?_
    intro p hp he
    apply hi
    rw [← he]
    exact hpermIdx.mem_iff.1 (hfst ▸ List.mem_map_of_mem Prod.fst hp)
  · intro p hp
    rw [sortSelectedPoints]
    refine foldl_set_getElem?_mem _ _ _ _ ?_ hp ?_
    · rw [hfst]
      exact ((selIndexes_nodup children sel hsel).perm hpermIdx.symm)
    · exact selIndexes_lt children sel p.1
        (hpermIdx.mem_iff.1 (hfst ▸ List.mem_map_of_mem Prod.fst hp))
  · refine (pairwise_sortByKey id _).imp ?_
    intro x y h
    exact h

/-- Witness for C6: with children `[Alpha, Item1, Charlie, Item2]` and only
positions 1 and 3 selected, descending natural sort yields
`[Alpha, Item2, Charlie, Item1]`; in particular the unselected position 2
is untouched, by the theorem. -/
theorem claim_C6_witness :
    (sortSelectedPoints .nat_desc demoABCD demoSelBD).map (fun c => c.data.name) =
        ["Alpha", "Item2", "Charlie", "Item1"] ∧
      (sortSelectedPoints .nat_desc demoABCD demoSelBD)[2]? = demoABCD[2]? :=
  ⟨by decide,
    (claim_C6 .nat_desc demoABCD demoSelBD (by decide)).1 2 (by decide)⟩

end Navis
namespace Navis

theorem mem_nameHits (key : String) (d : NodeData)
    (h : key = pyLower d.name ∨ key ∈ nameParts (pyLower d.name)) :
    d ∈ nameHits key d := by
  by_cases he : key = pyLower d.name
  · simp [nameHits, he]
  · rcases h with h | h
    · exact absurd h he
    · refine List.mem_append_right _ ?_
      exact List.mem_filterMap.2 ⟨key, h, by simp [he]⟩

/-- C9 — token matching: a query token whose lowercasing equals the full
lowercased name or any delimiter token of it reaches the viewpoint through
the bulk-move tree index, through the bulk-move pool index, and through the
search name set. -/
theorem claim_C9 (tok : String) (v : NodeData)
    (h : pyLower tok = pyLower v.name ∨ pyLower tok ∈ nameParts (pyLower v.name)) :
    (∀ t : STree, v ∈ t.iterViews → v.oid ∈ treeIndexLookup t (pyLower tok)) ∧
    (∀ pool : List NodeData, v ∈ pool → v ∈ poolIndexLookup pool (pyLower tok)) ∧
    (∀ views : List NodeData, v ∈ views → pyLower tok ∈ searchNames views) := by
  refine ⟨?_, ?_, ?_⟩
  · intro t hv
    exact List.mem_flatMap.2
      ⟨v, hv, List.mem_map_of_mem NodeData.oid (mem_nameHits _ _ h)⟩
  · intro pool hv
    exact List.mem_flatMap.2 ⟨v, hv, mem_nameHits _ _ h⟩
  · intro views hv
    refine List.mem_flatMap.2 ⟨v, hv, ?_⟩
    rcases h with h | h
    · exact h ▸ List.mem_cons_self _ _
    · exact List.mem_cons_of_mem _ h

/-- Witness for C9: the viewpoint `ЛКП_213` is matched by the queries
`213` and `ЛКП` through the tree index, the pool index and the search set. -/
theorem claim_C9_witness :
    demoLkp.oid ∈ treeIndexLookup demoLkpTree (pyLower "213") ∧
      demoLkp.oid ∈ treeIndexLookup demoLkpTree (pyLower "ЛКП") ∧
      demoLkp ∈ poolIndexLookup [demoLkp] (pyLower "ЛКП") ∧
      pyLower "213" ∈ searchNames [demoLkp] :=
  ⟨(claim_C9 "213" demoLkp (by decide)).1 demoLkpTree (by decide),
    (claim_C9 "ЛКП" demoLkp (by decide)).1 demoLkpTree (by decide),
    (claim_C9 "ЛКП" demoLkp (by decide)).2.1 [demoLkp] (by decide),
    (claim_C9 "213" demoLkp (by decide)).2.2 [demoLkp] (by decide)⟩

end Navis
namespace Navis

@[simp]
theorem VTree.data_node (d : NodeData) (cs : List VTree) :
    (VTree.node d cs).data = d := rfl

@[simp]
theorem VTree.children_node (d : NodeData) (cs : List VTree) :
    (VTree.node d cs).children = cs := rfl

theorem datasF_append (a b : List VTree) : datasF (a ++ b) = datasF a ++ datasF b := by
  induction a with
  | nil => rfl
  | cons t rest ih => rw [List.cons_append, datasF, datasF, ih, List.append_assoc]

theorem datasF_singleton (s : VTree) : datasF [s] = datasT s := by
  rw [datasF, datasF, List.append_nil]

theorem detachF_cons (x : Nat) (d : NodeData) (cs rest : List VTree) :
    detachF x (VTree.node d cs :: rest) =
      if d.oid = x then (rest, some (VTree.node d cs))
      else
        match (detachF x cs).2 with
        | some s => (VTree.node d (detachF x cs).1 :: rest, some s)
        | none => (VTree.node d cs :: (detachF x rest).1, (detachF x rest).2) := by
  rw [detachF, detachT]
  by_cases hd : d.oid = x
  · simp [hd]
  · rcases h2 : detachF x cs with ⟨cs', r⟩
    cases r with
    | some s =>
        simp [hd, h2]
    | none =>
        rcases h3 : detachF x rest with ⟨rest', r'⟩
        simp [hd, h2, h3]

theorem attachF_cons (g : Nat) (s : VTree) (d : NodeData) (cs rest : List VTree) :
    attachF g s (VTree.node d cs :: rest) =
      if d.oid = g then (VTree.node d (cs ++ [s]) :: rest, true)
      else
        if (attachF g s cs).2 then (VTree.node d (attachF g s cs).1 :: rest, true)
        else (VTree.node d cs :: (attachF g s rest).1, (attachF g s rest).2) := by
  rw [attachF, attachT]
  by_cases hd : d.oid = g
  · simp [hd]
  · rcases h2 : attachF g s cs with ⟨cs', b⟩
    cases b with
    | true => simp [hd, h2]
    | false =>
        rcases h3 : attachF g s rest with ⟨rest', b'⟩
        simp [hd, h2, h3]

theorem parentF_cons (x : Nat) (d : NodeData) (cs rest : List VTree) :
    parentF x (VTree.node d cs :: rest) =
      (if (cs.map fun c => c.data.oid).contains x then some d.oid
       else (parentF x cs).orElse fun _ => parentF x rest) := by
  rw [parentF, parentT]
  by_cases hc : (cs.map fun c => c.data.oid).contains x
  · rw [if_pos hc, if_pos hc]
  · rw [if_neg hc, if_neg hc]
    rcases h2 : parentF x cs with _ | p <;> rfl

theorem findGuidF_cons (g : String) (d : NodeData) (cs rest : List VTree) :
    findGuidF g (VTree.node d cs :: rest) =
      (if d.guid = g then some d
       else (findGuidF g cs).orElse fun _ => findGuidF g rest) := by
  rw [findGuidF, findGuidT]
  by_cases hd : d.guid = g
  · simp [hd]
  · rcases h2 : findGuidF g cs with _ | r <;> simp [hd, h2, Option.orElse]

theorem subAtF_cons (x : Nat) (d : NodeData) (cs rest : List VTree) :
    subAtF x (VTree.node d cs :: rest) =
      (if d.oid = x then some (VTree.node d cs)
       else (subAtF x cs).orElse fun _ => subAtF x rest) := by
  rw [subAtF, subAtT]
  by_cases hd : d.oid = x
  · simp [hd]
  · rcases h2 : subAtF x cs with _ | r <;> simp [hd, h2, Option.orElse]

end Navis
namespace Navis

theorem detachF_cons_hit {x : Nat} {d : NodeData} (cs rest : List VTree)
    (hd : d.oid = x) :
    detachF x (VTree.node d cs :: rest) = (rest, some (VTree.node d cs)) := by
  rw [detachF_cons, if_pos hd]

theorem detachF_cons_inner {x : Nat} {d : NodeData} {cs : List VTree}
    (rest : List VTree) {s : VTree} (hd : ¬d.oid = x)
    (h2 : (detachF x cs).2 = some s) :
    detachF x (VTree.node d cs :: rest) =
      (VTree.node d (detachF x cs).1 :: rest, some s) := by
  rw [detachF_cons, if_neg hd, h2]

theorem detachF_cons_outer {x : Nat} {d : NodeData} {cs : List VTree}
    (rest : List VTree) (hd : ¬d.oid = x) (h2 : (detachF x cs).2 = none) :
    detachF x (VTree.node d cs :: rest) =
      (VTree.node d cs :: (detachF x rest).1, (detachF x rest).2) := by
  rw [detachF_cons, if_neg hd, h2]

theorem attachF_cons_hit {g : Nat} {d : NodeData} (s : VTree) (cs rest : List VTree)
    (hd : d.oid = g) :
    attachF g s (VTree.node d cs :: rest) =
      (VTree.node d (cs ++ [s]) :: rest, true) := by
  rw [attachF_cons, if_pos hd]

theorem attachF_cons_inner {g : Nat} {d : NodeData} {s : VTree} {cs : List VTree}
    (rest : List VTree) (hd : ¬d.oid = g) (h2 : (attachF g s cs).2 = true) :
    attachF g s (VTree.node d cs :: rest) =
      (VTree.node d (attachF g s cs).1 :: rest, true) := by
  rw [attachF_cons, if_neg hd, h2, if_pos rfl]

theorem attachF_cons_outer {g : Nat} {d : NodeData} {s : VTree} {cs : List VTree}
    (rest : List VTree) (hd : ¬d.oid = g) (h2 : (attachF g s cs).2 = false) :
    attachF g s (VTree.node d cs :: rest) =
      (VTree.node d cs :: (attachF g s rest).1, (attachF g s rest).2) := by
  rw [attachF_cons, if_neg hd, h2]
  simp

theorem detachF_none (x : Nat) :
    ∀ f : List VTree, (detachF x f).2 = none → (detachF x f).1 = f := by
  refine forestInd ?_ ?_
  · intro _; rfl
  · intro d cs rest ihc ihr h
    by_cases hd : d.oid = x
    · rw [detachF_cons_hit cs rest hd] at h; simp at h
    · rcases h2 : (detachF x cs).2 with _ | s0
      · rw [detachF_cons_outer rest hd h2] at h ⊢
        simp only at h ⊢
        rw [ihr h]
      · rw [detachF_cons_inner rest hd h2] at h; simp at h

theorem detachF_count (x : Nat) :
    ∀ f : List VTree, ∀ s, (detachF x f).2 = some s →
      ∀ a, (datasF f).count a = (datasT s).count a + ((datasF (detachF x f).1).count a) := by
  refine forestInd ?_ ?_
  · intro s h; rw [detachF] at h; simp at h
  · intro d cs rest ihc ihr s h a
    by_cases hd : d.oid = x
    · rw [detachF_cons_hit cs rest hd] at h ⊢
      simp only at h
      obtain rfl : VTree.node d cs = s := Option.some.inj h
      simp [datasF, List.count_append]
    · rcases h2 : (detachF x cs).2 with _ | s0
      · rw [detachF_cons_outer rest hd h2] at h ⊢
        simp only at h ⊢
        have hr := ihr s h a
        simp only [datasF, List.count_append] at hr ⊢
        omega
      · rw [detachF_cons_inner rest hd h2] at h ⊢
        simp only at h ⊢
        obtain rfl : s0 = s := Option.some.inj h
        have hc := ihc s0 h2 a
        simp only [datasF, datasT, List.count_append, List.count_cons] at hc ⊢
        omega

theorem attachF_false (g : Nat) (s : VTree) :
    ∀ f : List VTree, (attachF g s f).2 = false → (attachF g s f).1 = f := by
  refine forestInd ?_ ?_
  · intro _; rfl
  · intro d cs rest ihc ihr h
    by_cases hd : d.oid = g
    · rw [attachF_cons_hit s cs rest hd] at h; simp at h
    · rcases h2 : (attachF g s cs).2 with _ | _
      · rw [attachF_cons_outer rest hd h2] at h ⊢
        simp only at h ⊢
        rw [ihr h]
      · rw [attachF_cons_inner rest hd h2] at h; simp at h

theorem attachF_count (g : Nat) (s : VTree) :
    ∀ f : List VTree, (attachF g s f).2 = true →
      ∀ a, ((datasF (attachF g s f).1).count a) = (datasF f).count a + (datasT s).count a := by
  refine forestInd ?_ ?_
  · intro h; rw [attachF] at h; simp at h
  · intro d cs rest ihc ihr h a
    by_cases hd : d.oid = g
    · rw [attachF_cons_hit s cs rest hd]
      simp only [datasF, datasT, datasF_append, datasF_singleton,
        List.count_append, List.count_cons, List.count_nil]
      omega
    · rcases h2 : (attachF g s cs).2 with _ | _
      · rw [attachF_cons_outer rest hd h2] at h ⊢
        simp only at h ⊢
        have hr := ihr h a
        simp only [datasF, List.count_append] at hr ⊢
        omega
      · rw [attachF_cons_inner rest hd h2]
        have hc := ihc h2 a
        simp only [datasF, datasT, List.count_append, List.count_cons] at hc ⊢
        omega

end Navis
namespace Navis

theorem detachF_some_oid (x : Nat) :
    ∀ f : List VTree, ∀ s, (detachF x f).2 = some s → s.data.oid = x := by
  refine forestInd ?_ ?_
  · intro s h; rw [detachF] at h; simp at h
  · intro d cs rest ihc ihr s h
    by_cases hd : d.oid = x
    · rw [detachF_cons_hit cs rest hd] at h
      simp only at h
      rw [← Option.some.inj h]
      exact hd
    · rcases h2 : (detachF x cs).2 with _ | s0
      · rw [detachF_cons_outer rest hd h2] at h
        exact ihr s h
      · rw [detachF_cons_inner rest hd h2] at h
        simp only at h
        rw [← Option.some.inj h]
        exact ihc s0 h2
  
theorem subAtF_eq_detachF (x : Nat) :
    ∀ f : List VTree, subAtF x f = (detachF x f).2 := by
  refine forestInd ?_ ?_
  · rfl
  · intro d cs rest ihc ihr
    rw [subAtF_cons]
    by_cases hd : d.oid = x
    · rw [detachF_cons_hit cs rest hd, if_pos hd]
    · rcases h2 : (detachF x cs).2 with _ | s0
      · rw [detachF_cons_outer rest hd h2, if_neg hd]
        simp only
        rw [ihc, h2, ihr]
        rfl
      · rw [detachF_cons_inner rest hd h2, if_neg hd]
        simp only
        rw [ihc, h2]
        rfl

theorem attachF_true_of_mem (g : Nat) (s : VTree) :
    ∀ f : List VTree, g ∈ oidsF f → (attachF g s f).2 = true := by
  refine forestInd ?_ ?_
  · intro h; simp [oidsF, datasF] at h
  · intro d cs rest ihc ihr h
    rw [oidsF, datasF, datasT] at h
    simp only [List.map_append, List.map_cons, List.mem_cons, List.mem_append] at h
    by_cases hd : d.oid = g
    · rw [attachF_cons_hit s cs rest hd]
    · rcases h2 : (attachF g s cs).2 with _ | _
      · rw [attachF_cons_outer rest hd h2]
        simp only
        refine ihr ?_
        rcases h with (h | h) | h
        · exact absurd h.symm hd
        · exact absurd (ihc (by rwa [oidsF])) (by rw [h2]; simp)
        · rwa [oidsF]
      · rw [attachF_cons_inner rest hd h2]

theorem STree.attach_rdata (t : STree) (g : Nat) (s : VTree) :
    (t.attach g s).rdata = t.rdata := by
  rw [STree.attach]
  split <;> rfl

theorem STree.attach_datas_count (t : STree) (g : Nat) (s : VTree) :
    (t.attach g s) = t ∨
      ∀ a, ((t.attach g s).datas).count a = (t.datas).count a + (datasT s).count a := by
  rw [STree.attach]
  by_cases hr : t.rdata.oid = g
  · right
    intro a
    rw [if_pos hr]
    simp [STree.datas, datasF_append, datasF_singleton, List.count_append,
      List.count_cons]
    omega
  · rw [if_neg hr]
    rcases h2 : (attachF g s t.forest).2 with _ | _
    · left
      rw [attachF_false g s t.forest h2]
    · right
      intro a
      have hc := attachF_count g s t.forest h2 a
      simp only [STree.datas, List.count_cons] at hc ⊢
      omega

theorem STree.attach_succ_count (t : STree) (g : Nat) (s : VTree)
    (hg : g ∈ t.oids) :
    ∀ a, ((t.attach g s).datas).count a = (t.datas).count a + (datasT s).count a := by
  intro a
  rw [STree.attach]
  by_cases hr : t.rdata.oid = g
  · rw [if_pos hr]
    simp [STree.datas, datasF_append, datasF_singleton, List.count_append,
      List.count_cons]
    omega
  · rw [if_neg hr]
    have hmem : g ∈ oidsF t.forest := by
      rw [STree.oids, STree.datas, List.map_cons] at hg
      rcases List.mem_cons.1 hg with h | h
      · exact absurd h.symm hr
      · rw [oidsF]
        exact h
    have hc := attachF_count g s t.forest (attachF_true_of_mem g s t.forest hmem) a
    simp only [STree.datas, List.count_cons] at hc ⊢
    omega

end Navis
namespace Navis

theorem STree.moveTo_none {t : STree} {x : Nat} (g : Nat)
    (h : (detachF x t.forest).2 = none) : t.moveTo x g = t := by
  rw [STree.moveTo]
  rcases hd : detachF x t.forest with ⟨f', r⟩
  rw [hd] at h
  simp only at h
  subst h
  rfl

theorem STree.moveTo_some {t : STree} {x : Nat} (g : Nat) {s : VTree}
    (h : (detachF x t.forest).2 = some s) :
    t.moveTo x g = STree.attach ⟨t.rdata, (detachF x t.forest).1⟩ g s := by
  rw [STree.moveTo]
  rcases hd : detachF x t.forest with ⟨f', r⟩
  rw [hd] at h
  simp only at h
  subst h
  rfl

theorem STree.moveTo_rdata (t : STree) (x g : Nat) :
    (t.moveTo x g).rdata = t.rdata := by
  rcases h2 : (detachF x t.forest).2 with _ | s
  · rw [STree.moveTo_none g h2]
  · rw [STree.moveTo_some g h2, STree.attach_rdata]

theorem STree.moveTo_count_le (t : STree) (x g : Nat) :
    ∀ a, ((t.moveTo x g).datas).count a ≤ (t.datas).count a := by
  intro a
  rcases h2 : (detachF x t.forest).2 with _ | s
  · rw [STree.moveTo_none g h2]
  · rw [STree.moveTo_some g h2]
    have hdet := detachF_count x t.forest s h2 a
    rcases STree.attach_datas_count ⟨t.rdata, (detachF x t.forest).1⟩ g s with he | hc
    · rw [he]
      simp only [STree.datas, List.count_cons]
      omega
    · rw [hc a]
      simp only [STree.datas, List.count_cons]
      omega

theorem count_pos_of_mem {l : List NodeData} {a : NodeData} (h : a ∈ l) :
    0 < l.count a :=
  List.count_pos_iff.2 h

theorem mem_of_count_pos {l : List NodeData} {a : NodeData} (h : 0 < l.count a) :
    a ∈ l :=
  List.count_pos_iff.1 h

/-- A successful guarded relocation (the guard `node is target or
node.is_ancestor_of(target)` being false, the target being in the tree)
permutes the node data: nothing is gained or lost. -/
theorem STree.moveTo_count_eq (t : STree) (x target : Nat) {s : VTree}
    (hdet : (detachF x t.forest).2 = some s)
    (hx : x ≠ t.rdata.oid)
    (hanc : t.isAncestorOf x target = false)
    (hne : x ≠ target)
    (htm : target ∈ t.oids) :
    ∀ a, ((t.moveTo x target).datas).count a = (t.datas).count a := by
  intro a
  rw [STree.moveTo_some target hdet]
  have hdetc := detachF_count x t.forest s hdet
  -- the detached subtree does not contain the target
  have hanc' : target ∉ (datasT s).map NodeData.oid := by
    rw [STree.isAncestorOf, if_neg (fun he => hx he.symm), subAtF_eq_detachF, hdet] at hanc
    intro hmem
    rcases s with ⟨ds, css⟩
    rw [datasT, List.map_cons] at hmem
    rcases List.mem_cons.1 hmem with h | h
    · exact hne ((detachF_some_oid x t.forest _ hdet) ▸ h.symm)
    · have hred : target ∉ oidsF css := by
        simp only at hanc
        simpa [oidsF] using hanc
      exact hred (by rwa [oidsF])
  have htarget' : target ∈ (STree.mk t.rdata (detachF x t.forest).1).oids := by
    rw [STree.oids, STree.datas, List.map_cons]
    by_cases hroot : t.rdata.oid = target
    · rw [hroot]
      exact List.mem_cons_self _ _
    · rw [STree.oids, STree.datas, List.map_cons] at htm
      rcases List.mem_cons.1 htm with h | h
      · exact absurd h.symm hroot
      · rcases List.mem_map.1 h with ⟨d, hd, rfl⟩
        have hpos : 0 < (datasF t.forest).count d := count_pos_of_mem hd
        have hsplit : d ∈ datasT s ∨ d ∈ datasF (detachF x t.forest).1 := by
          have hcnt := hdetc d
          by_cases h1 : 0 < (datasT s).count d
          · exact Or.inl (mem_of_count_pos h1)
          · refine Or.inr (mem_of_count_pos ?_)
            omega
        rcases hsplit with h1 | h1
        · exact absurd (List.mem_map_of_mem NodeData.oid h1) hanc'
        · exact List.mem_cons_of_mem _ (List.mem_map_of_mem NodeData.oid h1)
  rw [STree.attach_succ_count ⟨t.rdata, (detachF x t.forest).1⟩ target s htarget' a]
  have hd := hdetc a
  simp only [STree.datas, List.count_cons] at hd ⊢
  omega

end Navis
namespace Navis

theorem parentF_mem (x : Nat) :
    ∀ f : List VTree, ∀ p, parentF x f = some p → p ∈ (datasF f).map NodeData.oid := by
  refine forestInd ?_ ?_
  · intro p h; rw [parentF] at h; simp at h
  · intro d cs rest ihc ihr p h
    rw [parentF_cons] at h
    simp only [datasF, datasT, List.map_append, List.map_cons, List.cons_append]
    by_cases hc : (cs.map fun c => c.data.oid).contains x
    · rw [if_pos hc] at h
      exact List.mem_cons.2 (Or.inl (Option.some.inj h).symm)
    · rw [if_neg hc] at h
      rcases h2 : parentF x cs with _ | q
      · rw [h2] at h
        simp only [Option.orElse] at h
        exact List.mem_cons_of_mem _ (List.mem_append_right _ (ihr p h))
      · rw [h2] at h
        simp only [Option.orElse] at h
        obtain rfl : q = p := Option.some.inj h
        exact List.mem_cons_of_mem _ (List.mem_append_left _ (ihc q h2))

theorem STree.parentOf_mem (t : STree) (x p : Nat) (h : t.parentOf x = some p) :
    p ∈ t.oids := by
  rw [STree.parentOf] at h
  rw [STree.oids, STree.datas, List.map_cons]
  by_cases hc : (t.forest.map fun c => c.data.oid).contains x
  · rw [if_pos hc] at h
    exact List.mem_cons.2 (Or.inl (Option.some.inj h).symm)
  · rw [if_neg hc] at h
    exact List.mem_cons_of_mem _ (parentF_mem x t.forest p h)

theorem mem_datasT_mem_datasF {x : Nat} {f : List VTree} {s : VTree}
    (hdet : (detachF x f).2 = some s) {a : NodeData} (ha : a ∈ datasT s) :
    a ∈ datasF f := by
  have hc := detachF_count x f s hdet a
  have := count_pos_of_mem ha
  exact mem_of_count_pos (by omega)

theorem STree.lookupData_spec (t : STree) (x : Nat) (d : NodeData)
    (h : t.lookupData x = some d) : d ∈ t.datas ∧ d.oid = x := by
  rw [STree.lookupData] at h
  by_cases hr : t.rdata.oid = x
  · rw [if_pos hr] at h
    obtain rfl : t.rdata = d := Option.some.inj h
    exact ⟨List.mem_cons_self _ _, hr⟩
  · rw [if_neg hr] at h
    rcases h2 : subAtF x t.forest with _ | s
    · rw [h2] at h; simp at h
    · rw [h2] at h
      simp only [Option.map] at h
      obtain rfl : s.data = d := Option.some.inj h
      have hdet : (detachF x t.forest).2 = some s := by
        rw [← subAtF_eq_detachF]; exact h2
      constructor
      · refine List.mem_cons_of_mem _ (mem_datasT_mem_datasF hdet ?_)
        rcases s with ⟨ds, css⟩
        exact List.mem_cons_self _ _
      · exact detachF_some_oid x t.forest s hdet

theorem resolveTarget_mem (t : STree) (tm : Option Nat) :
    resolveTarget t tm ∈ t.oids := by
  have hroot : t.rdata.oid ∈ t.oids := by
    rw [STree.oids, STree.datas, List.map_cons]
    exact List.mem_cons_self _ _
  cases tm with
  | none => exact hroot
  | some x =>
      rw [resolveTarget]
      rcases hl : t.lookupData x with _ | d
      · exact hroot
      · simp only
        obtain ⟨hmem, hoid⟩ := STree.lookupData_spec t x d hl
        by_cases hf : d.is_folder
        · rw [if_pos hf, ← hoid]
          exact List.mem_map_of_mem NodeData.oid hmem
        · rw [if_neg hf]
          rcases hp : t.parentOf x with _ | p
          · exact hroot
          · exact STree.parentOf_mem t x p hp

end Navis
namespace Navis

/-- One guarded relocation step of `on_move_inside_right` preserves the
node-data multiset and the root. -/
theorem moveStep_perm (t st : STree) (x target : Nat)
    (hperm : st.datas.Perm t.datas) (hrd : st.rdata = t.rdata)
    (hx : x ≠ t.rdata.oid)
    (hguard : ¬(x = target ∨ st.isAncestorOf x target = true))
    (htm : target ∈ t.oids) :
    ((st.moveTo x target).datas).Perm t.datas ∧ (st.moveTo x target).rdata = t.rdata := by
  refine ⟨?_, by rw [STree.moveTo_rdata, hrd]⟩
  rcases hdet : (detachF x st.forest).2 with _ | s
  · rw [STree.moveTo_none target hdet]
    exact hperm
  · push_neg at hguard
    have htm' : target ∈ st.oids := by
      rw [STree.oids]
      rw [STree.oids] at htm
      exact ((hperm.map NodeData.oid).mem_iff).2 htm
    have heq := STree.moveTo_count_eq st x target hdet (hrd ▸ hx)
      (by
        rcases hb : st.isAncestorOf x target with _ | _
        · rfl
        · exact absurd hb hguard.2) hguard.1 htm'
    refine (List.perm_iff_count.2 ?_).trans hperm
    intro a
    exact heq a

/-- The whole fold of `on_move_inside_right` preserves the node-data
multiset. -/
theorem moveInsideRight_perm (t : STree) (sel : List Nat) (tm : Option Nat) :
    ((moveInsideRight t sel tm).1.datas).Perm t.datas ∧
      (moveInsideRight t sel tm).1.rdata = t.rdata := by
  simp only [moveInsideRight]
  have htm := resolveTarget_mem t tm
  have hfilter : ∀ x ∈ sel.filter (fun x => x ≠ t.rdata.oid), x ≠ t.rdata.oid := by
    intro x hx
    simpa using List.of_mem_filter hx
  generalize sel.filter (fun x => x ≠ t.rdata.oid) = ms at hfilter
  suffices h : ∀ (ms : List Nat), (∀ x ∈ ms, x ≠ t.rdata.oid) →
      ∀ st : STree × Nat, st.1.datas.Perm t.datas → st.1.rdata = t.rdata →
      ((ms.foldl (fun st x =>
          if x = resolveTarget t tm ∨ st.1.isAncestorOf x (resolveTarget t tm) then st
          else (st.1.moveTo x (resolveTarget t tm), st.2 + 1)) st).1.datas.Perm t.datas ∧
        (ms.foldl (fun st x =>
          if x = resolveTarget t tm ∨ st.1.isAncestorOf x (resolveTarget t tm) then st
          else (st.1.moveTo x (resolveTarget t tm), st.2 + 1)) st).1.rdata = t.rdata) by
    exact h ms hfilter (t, 0) (List.Perm.refl _) rfl
  intro ms
  induction ms with
  | nil => intro _ st h1 h2; exact ⟨h1, h2⟩
  | cons m ms ih =>
      intro hms st h1 h2
      rw [List.foldl_cons]
      by_cases hg : m = resolveTarget t tm ∨ st.1.isAncestorOf m (resolveTarget t tm) = true
      · rw [if_pos hg]
        exact ih (fun x hx => hms x (List.mem_cons_of_mem _ hx)) st h1 h2
      · rw [if_neg hg]
        obtain ⟨hp, hr⟩ := moveStep_perm t st.1 m (resolveTarget t tm) h1 h2
          (hms m (List.mem_cons_self _ _)) hg htm
        exact ih (fun x hx => hms x (List.mem_cons_of_mem _ hx)) _ hp hr

end Navis
namespace Navis

/-- C4 — acyclicity guard: moving a folder onto itself or into one of its
descendants is a complete no-op (`(t, 0)`: unchanged tree, zero moves);
and every `on_move_inside_right` call, whatever the selection and drop
target, permutes the tree's node data — no node is duplicated or lost, and
the result is again a tree (hence acyclic). -/
theorem claim_C4 :
    (∀ (t : STree) (D F : Nat) (dD : NodeData),
      t.lookupData D = some dD → dD.is_folder = true →
      (F = D ∨ t.isAncestorOf F D = true) →
      moveInsideRight t [F] (some D) = (t, 0)) ∧
    ∀ (t : STree) (sel : List Nat) (tm : Option Nat),
      ((moveInsideRight t sel tm).1.datas).Perm t.datas := by
  constructor
  · intro t D F dD hlook hf hFD
    have hres : resolveTarget t (some D) = D := by
      rw [resolveTarget, hlook]
      simp only
      rw [if_pos hf]
    simp only [moveInsideRight, hres]
    by_cases hF : F = t.rdata.oid
    · have hfe : [F].filter (fun x => x ≠ t.rdata.oid) = [] := by simp [hF]
      rw [hfe]; rfl
    · have hfe : [F].filter (fun x => x ≠ t.rdata.oid) = [F] := by simp [hF]
      rw [hfe, List.foldl_cons, if_pos hFD]; rfl
  · intro t sel tm
    exact (moveInsideRight_perm t sel tm).1

/-- Witness for C4: moving folder `F` under its child folder `D` leaves the
demo tree untouched and reports zero moves. -/
theorem claim_C4_witness :
    moveInsideRight demoFD [1] (some 2) = (demoFD, 0) :=
  claim_C4.1 demoFD 2 1 ⟨2, "D", "gd", "", true, ""⟩ (by decide) rfl
    (Or.inr (by decide))

end Navis
namespace Navis

/-- A property preserved by every step of a fold is preserved by the whole
fold. -/
theorem foldl_inv {α β : Type} (P : α → Prop) (f : α → β → α)
    (hstep : ∀ s x, P s → P (f s x)) :
    ∀ (l : List β) (s : α), P s → P (l.foldl f s) := by
  intro l
  induction l with
  | nil => intro s h; exact h
  | cons b rest ih =>
      intro s h
      rw [List.foldl_cons]
      exact ih _ (hstep s b h)

/-- Counting a guid among the mapped guids is `gcount` on the data list. -/
theorem guids_count_eq (l : List NodeData) (g : String) :
    (l.map NodeData.guid).count g = gcount l g := by
  induction l with
  | nil => rfl
  | cons d rest ih =>
      simp only [List.map_cons, List.count_cons, gcount, List.countP_cons] at ih ⊢
      by_cases hd : d.guid = g
      · simp [hd, ih]
      · simp [hd, ih]

/-- Guid uniqueness of a session tree, phrased through `gcount`. -/
theorem guids_nodup_iff (t : STree) :
    t.guids.Nodup ↔ ∀ g, gcount t.datas g ≤ 1 := by
  rw [STree.guids, List.nodup_iff_count_le_one]
  constructor
  · intro h g
    rw [← guids_count_eq]
    exact h g
  · intro h a
    rw [guids_count_eq]
    exact h a

/-- A guid that `find_by_guid` does not find in a forest does not occur in
it. -/
theorem findGuidF_none (g : String) :
    ∀ f : List VTree, findGuidF g f = none → g ∉ guidsF f := by
  refine forestInd ?_ ?_
  · intro _
    simp [guidsF, datasF]
  · intro d cs rest ihc ihr h
    rw [findGuidF_cons] at h
    by_cases hd : d.guid = g
    · rw [if_pos hd] at h
      simp at h
    · rw [if_neg hd] at h
      rcases h2 : findGuidF g cs with _ | r
      · rw [h2] at h
        simp only [Option.orElse, Option.none_orElse] at h
        intro hmem
        rw [guidsF, datasF, datasT] at hmem
        simp only [List.map_append, List.map_cons, List.mem_cons,
          List.mem_append] at hmem
        rcases hmem with (he | hm) | hm
        · exact hd he.symm
        · exact ihc h2 (by rwa [guidsF])
        · exact ihr h (by rwa [guidsF])
      · rw [h2] at h
        simp [Option.orElse] at h

/-- A guid that `find_by_guid` does not find anywhere occurs zero times in
the tree. -/
theorem STree.findGuid_none (t : STree) (g : String)
    (h : t.findGuid g = none) : gcount t.datas g = 0 := by
  rw [STree.findGuid] at h
  by_cases hr : t.rdata.guid = g
  · rw [if_pos hr] at h
    simp at h
  · rw [if_neg hr] at h
    have hm := findGuidF_none g t.forest h
    refine List.countP_eq_zero.2 ?_
    intro d hd
    simp only [decide_eq_true_eq]
    rcases List.mem_cons.1 hd with rfl | hd'
    · exact hr
    · intro he
      refine hm ?_
      rw [guidsF, ← he]
      exact List.mem_map_of_mem NodeData.guid hd'

/-- Attaching a subtree adds at most the subtree's own guid occurrences. -/
theorem STree.attach_gcount_le (t : STree) (y : Nat) (s : VTree) (g : String) :
    gcount (t.attach y s).datas g ≤ gcount t.datas g + gcount (datasT s) g := by
  rcases STree.attach_datas_count t y s with he | hc
  · rw [he]
    omega
  · have hperm : ((t.attach y s).datas).Perm (t.datas ++ datasT s) :=
      List.perm_iff_count.2 fun a => by rw [hc a, List.count_append]
    rw [gcount, hperm.countP_eq, List.countP_append]
    exact Nat.le_refl _

/-- A relocation never increases the number of occurrences of any guid. -/
theorem moveTo_gcount_le (t : STree) (x y : Nat) (g : String) :
    gcount (t.moveTo x y).datas g ≤ gcount t.datas g := by
  have hsub : List.Subperm ((t.moveTo x y).datas) t.datas :=
    List.subperm_ext_iff.2 fun a _ => STree.moveTo_count_le t x y a
  exact List.Subperm.countP_le _ hsub

/-- Relocation preserves guid uniqueness. -/
theorem moveTo_gnodup (t : STree) (x y : Nat)
    (h : ∀ g, gcount t.datas g ≤ 1) :
    ∀ g, gcount (t.moveTo x y).datas g ≤ 1 :=
  fun g => Nat.le_trans (moveTo_gcount_le t x y g) (h g)

/-- The guid occurrences of a single clone leaf. -/
theorem gcount_leaf (d0 : NodeData) (g : String) :
    gcount (datasT (.node d0 [])) g = if d0.guid = g then 1 else 0 := by
  rw [datasT, datasF, gcount, List.countP_cons]
  by_cases hd : d0.guid = g
  · simp [hd]
  · simp [hd]

/-- Attaching a clone leaf whose guid is absent from the tree preserves guid
uniqueness. -/
theorem attach_fresh_gcount (t : STree) (y : Nat) (d0 : NodeData)
    (hf : t.findGuid d0.guid = none)
    (h : ∀ g, gcount t.datas g ≤ 1) :
    ∀ g, gcount (t.attach y (.node d0 [])).datas g ≤ 1 := by
  intro g
  have hle := STree.attach_gcount_le t y (.node d0 []) g
  rw [gcount_leaf] at hle
  by_cases hg : d0.guid = g
  · rw [if_pos hg] at hle
    have h0 : gcount t.datas g = 0 := by
      rw [← hg]
      exact STree.findGuid_none t d0.guid hf
    omega
  · rw [if_neg hg] at hle
    have h1 := h g
    omega

/-- One tree hit of `bulk_move_points` preserves guid uniqueness. -/
theorem processTreeHit_gnodup (target : Nat) (st : BulkState) (x : Nat)
    (h : ∀ g, gcount st.tree.datas g ≤ 1) :
    ∀ g, gcount (processTreeHit target st x).tree.datas g ≤ 1 := by
  intro g
  rw [processTreeHit]
  split
  · exact h g
  · exact moveTo_gnodup st.tree x target h g

/-- One pool hit of `bulk_move_points` preserves guid uniqueness: a clone is
created only when its guid is absent from the tree. -/
theorem processPoolSrc_gnodup (target : Nat) (st : BulkState) (src : NodeData)
    (h : ∀ g, gcount st.tree.datas g ≤ 1) :
    ∀ g, gcount (processPoolSrc target st src).tree.datas g ≤ 1 := by
  rcases hf : st.tree.findGuid src.guid with _ | exist
  · rw [processPoolSrc, hf]
    exact attach_fresh_gcount st.tree target
      ⟨st.fresh, src.name, src.guid, src.xml_content, false, ""⟩ hf h
  · intro g
    have he : processPoolSrc target st src =
        if st.tree.parentOf exist.oid = some target then
          { st with already := st.already + 1 }
        else { st with tree := st.tree.moveTo exist.oid target, moved := st.moved + 1 } := by
      rw [processPoolSrc, hf]
    rw [he]
    split
    · exact h g
    · exact moveTo_gnodup st.tree exist.oid target h g

/-- Processing one bulk-move token preserves guid uniqueness. -/
theorem processToken_gnodup (ti : String → List Nat) (pl : String → List NodeData)
    (target : Nat) (st : BulkState) (tok : String)
    (h : ∀ g, gcount st.tree.datas g ≤ 1) :
    ∀ g, gcount (processToken ti pl target st tok).tree.datas g ≤ 1 := by
  intro g
  simp only [processToken]
  split
  · exact foldl_inv (fun s : BulkState => ∀ g, gcount s.tree.datas g ≤ 1)
      (processTreeHit target) (fun s x hs => processTreeHit_gnodup target s x hs)
      _ st h g
  · split
    · exact foldl_inv (fun s : BulkState => ∀ g, gcount s.tree.datas g ≤ 1)
        (processPoolSrc target) (fun s x hs => processPoolSrc_gnodup target s x hs)
        _ st h g
    · exact h g

/-- `bulk_move_points` preserves guid uniqueness. -/
theorem bulkMovePoints_gnodup (t : STree) (pool : List NodeData) (fresh : Nat)
    (tokens : List String) (target : Nat)
    (h : ∀ g, gcount t.datas g ≤ 1) :
    ∀ g, gcount (bulkMovePoints t pool fresh tokens target).tree.datas g ≤ 1 := by
  rw [bulkMovePoints]
  exact foldl_inv (fun s : BulkState => ∀ g, gcount s.tree.datas g ≤ 1)
    (processToken (treeIndexLookup t) (poolIndexLookup pool) target)
    (fun s x hs => processToken_gnodup _ _ target s x hs)
    tokens ⟨t, 0, 0, [], fresh⟩ h

/-- `on_move_inside_right` preserves guid uniqueness. -/
theorem moveInsideRight_gnodup (t : STree) (sel : List Nat) (tm : Option Nat)
    (h : ∀ g, gcount t.datas g ≤ 1) :
    ∀ g, gcount (moveInsideRight t sel tm).1.datas g ≤ 1 := by
  simp only [moveInsideRight]
  refine foldl_inv (fun s : STree × Nat => ∀ g, gcount s.1.datas g ≤ 1) _
    ?_ _ (t, 0) h
  intro s x hs g
  split
  · exact hs g
  · exact moveTo_gnodup s.1 x _ hs g

/-- `on_drop_from_left` preserves guid uniqueness: a clone is created only
when no tree node carries its guid. -/
theorem dropFromLeft_gnodup (t : STree) (pool : List NodeData) (guids : List String)
    (tm : Option Nat) (fresh : Nat)
    (h : ∀ g, gcount t.datas g ≤ 1) :
    ∀ g, gcount (dropFromLeft t pool guids tm fresh).1.datas g ≤ 1 := by
  simp only [dropFromLeft]
  refine foldl_inv (fun s : STree × Nat × Nat => ∀ g, gcount s.1.datas g ≤ 1) _
    ?_ guids (t, 0, fresh) h
  intro s gg hs
  rcases hp : poolGet pool gg with _ | src
  · simp only [hp]
    exact hs
  · simp only [hp]
    rcases hf : s.1.findGuid gg with _ | ex
    · simp only [hf]
      have hsg : src.guid = gg := by
        rw [poolGet] at hp
        have hd := List.find?_some hp
        simpa using hd
      refine attach_fresh_gcount s.1 _
        ⟨s.2.2, src.name, src.guid, src.xml_content, false, src.source_file⟩ ?_ hs
      show s.1.findGuid src.guid = none
      rw [hsg]
      exact hf
    · simp only [hf]
      exact hs

/-- One UI mutation preserves guid uniqueness. -/
theorem applyOp_gnodup (pool : List NodeData) (s : STree × Nat) (op : MutOp)
    (h : ∀ g, gcount s.1.datas g ≤ 1) :
    ∀ g, gcount (applyOp pool s op).1.datas g ≤ 1 := by
  rcases op with ⟨guids, tm⟩ | ⟨sel, tm⟩ | ⟨tokens, target⟩
  · simp only [applyOp]
    exact dropFromLeft_gnodup s.1 pool guids tm s.2 h
  · simp only [applyOp]
    exact moveInsideRight_gnodup s.1 sel tm h
  · simp only [applyOp]
    exact bulkMovePoints_gnodup s.1 pool s.2 tokens target h

/-- C1 counterexample data: importing the structured demo file twice puts
two nodes with guid `g1` (and two with guid `gf`) into the tree. -/
theorem claim_C1_counterexample :
    ((loadDocs freshSession [("s.xml", demoDocS), ("s.xml", demoDocS)]).tree.guids.count
        "g1" = 2) ∧
      ¬ (loadDocs freshSession
          [("s.xml", demoDocS), ("s.xml", demoDocS)]).tree.guids.Nodup := by
  refine ⟨by decide, ?_⟩
  intro h
  exact absurd h (by decide)

/-- C1 (amended) — the UI mutations (clone from pool, move inside the tree,
bulk move) preserve guid uniqueness of the tree: starting from any tree
whose guids are pairwise distinct, every sequence of these operations keeps
at most one node per guid, because a clone is attached only when
`find_by_guid` finds no tree node with that guid.  (Import/merge is not
covered: the structured merge performs no deduplication, see the
counterexample.) -/
theorem claim_C1 (pool : List NodeData) (t : STree) (fresh : Nat)
    (ops : List MutOp) (h : t.guids.Nodup) :
    ((applyOps pool (t, fresh) ops).1).guids.Nodup := by
  rw [guids_nodup_iff] at h ⊢
  rw [applyOps]
  exact foldl_inv (fun s : STree × Nat => ∀ g, gcount s.1.datas g ≤ 1)
    (applyOp pool) (fun s x hs => applyOp_gnodup pool s x hs) ops (t, fresh) h

/-- Witness for C1: the fresh session's tree has unique guids, and after the
demo mutation sequence it still does. -/
theorem claim_C1_witness :
    freshSession.tree.guids.Nodup ∧
      ((applyOps demoPool (freshSession.tree, freshSession.fresh)
          demoOps).1).guids.Nodup :=
  ⟨by decide,
   claim_C1 demoPool freshSession.tree freshSession.fresh demoOps (by decide)⟩

end Navis
namespace Navis

/-- A list holding two distinct elements satisfying `p` has `countP p ≥ 2`. -/
theorem two_le_countP {α : Type} {l : List α} {p : α → Bool} {a b : α}
    (ha : a ∈ l) (hb : b ∈ l) (hne : a ≠ b) (hpa : p a = true) (hpb : p b = true) :
    2 ≤ l.countP p := by
  induction l with
  | nil => simp at ha
  | cons c rest ih =>
      rw [List.countP_cons]
      rcases List.mem_cons.1 ha with rfl | ha'
      · rcases List.mem_cons.1 hb with rfl | hb'
        · exact absurd rfl hne
        · have h1 : 0 < rest.countP p := List.countP_pos_iff.2 ⟨b, hb', hpb⟩
          rw [hpa, if_pos rfl]
          omega
      · rcases List.mem_cons.1 hb with rfl | hb'
        · have h1 : 0 < rest.countP p := List.countP_pos_iff.2 ⟨a, ha', hpa⟩
          rw [hpb, if_pos rfl]
          omega
        · have h1 := ih ha' hb'
          omega

/-- Under identity uniqueness, two data entries with the same identity are
equal. -/
theorem eq_of_ocount (l : List NodeData) (hu : ∀ x, ocount l x ≤ 1)
    {a b : NodeData} (ha : a ∈ l) (hb : b ∈ l) (ho : a.oid = b.oid) : a = b := by
  by_contra hne
  have h2 : 2 ≤ ocount l a.oid :=
    two_le_countP ha hb hne (by simp) (by simp [ho])
  have h1 := hu a.oid
  omega

/-- Under guid uniqueness, two data entries with the same guid are equal. -/
theorem eq_of_gcount (l : List NodeData) (hu : ∀ g, gcount l g ≤ 1)
    {a b : NodeData} (ha : a ∈ l) (hb : b ∈ l) (hg : a.guid = b.guid) : a = b := by
  by_contra hne
  have h2 : 2 ≤ gcount l a.guid :=
    two_le_countP ha hb hne (by simp) (by simp [hg])
  have h1 := hu a.guid
  omega

/-- Counting an identity among the mapped identities is `ocount`. -/
theorem oids_count_eq (l : List NodeData) (x : Nat) :
    (l.map NodeData.oid).count x = ocount l x := by
  induction l with
  | nil => rfl
  | cons d rest ih =>
      simp only [List.map_cons, List.count_cons, ocount, List.countP_cons] at ih ⊢
      by_cases hd : d.oid = x
      · simp [hd, ih]
      · simp [hd, ih]

/-- Identity uniqueness of a session tree, phrased through `ocount`. -/
theorem oids_nodup_iff (t : STree) :
    t.oids.Nodup ↔ ∀ x, ocount t.datas x ≤ 1 := by
  rw [STree.oids, List.nodup_iff_count_le_one]
  constructor
  · intro h x
    rw [← oids_count_eq]
    exact h x
  · intro h a
    rw [oids_count_eq]
    exact h a

/-- `ocount` is positive exactly at the identities present in the list. -/
theorem ocount_pos_iff (l : List NodeData) (x : Nat) :
    0 < ocount l x ↔ ∃ d ∈ l, d.oid = x := by
  rw [ocount, List.countP_pos_iff]
  constructor
  · rintro ⟨d, hd, hp⟩
    exact ⟨d, hd, by simpa using hp⟩
  · rintro ⟨d, hd, hp⟩
    exact ⟨d, hd, by simpa using hp⟩

/-- `gcount` is positive exactly at the guids present in the list. -/
theorem gcount_pos_iff (l : List NodeData) (g : String) :
    0 < gcount l g ↔ ∃ d ∈ l, d.guid = g := by
  rw [gcount, List.countP_pos_iff]
  constructor
  · rintro ⟨d, hd, hp⟩
    exact ⟨d, hd, by simpa using hp⟩
  · rintro ⟨d, hd, hp⟩
    exact ⟨d, hd, by simpa using hp⟩

end Navis
namespace Navis

/-- The data list of a forest headed by a node. -/
theorem datasF_cons (d : NodeData) (cs rest : List VTree) :
    datasF (VTree.node d cs :: rest) = d :: (datasF cs ++ datasF rest) := by
  rw [datasF, datasT]
  rfl

/-- A node's own data occurs in its subtree's data. -/
theorem self_data_mem_datasT (t : VTree) : t.data ∈ datasT t := by
  rcases t with ⟨d, cs⟩
  rw [datasT]
  exact List.mem_cons_self _ _

/-- The data of a top-level node of a forest occurs in the forest's data. -/
theorem mem_map_data (f : List VTree) (c : VTree) (hc : c ∈ f) :
    c.data ∈ datasF f := by
  induction f with
  | nil => simp at hc
  | cons t rest ih =>
      rw [datasF]
      rcases List.mem_cons.1 hc with rfl | hc'
      · exact List.mem_append_left _ (self_data_mem_datasT c)
      · exact List.mem_append_right _ (ih hc')

/-- A top-level identity of a forest occurs among the forest's identities. -/
theorem top_mem_oidsF (f : List VTree) (y : Nat)
    (h : y ∈ f.map fun c => c.data.oid) : y ∈ oidsF f := by
  rcases List.mem_map.1 h with ⟨c, hc, rfl⟩
  rw [oidsF]
  exact List.mem_map_of_mem NodeData.oid (mem_map_data f c hc)

/-- `parentF` over an appended forest searches left to right. -/
theorem parentF_append (x : Nat) (a b : List VTree) :
    parentF x (a ++ b) = (parentF x a).orElse fun _ => parentF x b := by
  induction a with
  | nil => rw [List.nil_append, parentF]; rfl
  | cons t rest ih =>
      rw [List.cons_append, parentF, parentF]
      rcases h : parentT x t with _ | p
      · rw [ih]
      · rfl

/-- A node reported as having a parent occurs in the forest. -/
theorem parentF_child_mem (x : Nat) :
    ∀ f : List VTree, ∀ p, parentF x f = some p → x ∈ oidsF f := by
  refine forestInd ?_ ?_
  · intro p h
    rw [parentF] at h
    simp at h
  · intro d cs rest ihc ihr p h
    rw [parentF_cons] at h
    rw [oidsF, datasF_cons]
    simp only [List.map_cons, List.map_append, List.mem_cons, List.mem_append]
    by_cases hc : (cs.map fun c => c.data.oid).contains x
    · have hx : x ∈ cs.map fun c => c.data.oid := by simpa using hc
      refine Or.inr (Or.inl ?_)
      have := top_mem_oidsF cs x hx
      rwa [oidsF] at this
    · rw [if_neg hc] at h
      rcases h2 : parentF x cs with _ | q
      · rw [h2] at h
        simp only [Option.orElse] at h
        refine Or.inr (Or.inr ?_)
        have := ihr p h
        rwa [oidsF] at this
      · refine Or.inr (Or.inl ?_)
        have := ihc q h2
        rwa [oidsF] at this

/-- A node absent from a forest has no parent there. -/
theorem parentF_none_of_not_mem (x : Nat) (f : List VTree) (h : x ∉ oidsF f) :
    parentF x f = none := by
  rcases h2 : parentF x f with _ | p
  · rfl
  · exact absurd (parentF_child_mem x f p h2) h

/-- Attaching never changes the top-level spine data of a forest. -/
theorem attachF_spine (g : Nat) (s : VTree) :
    ∀ f : List VTree, ((attachF g s f).1).map VTree.data = f.map VTree.data := by
  refine forestInd ?_ ?_
  · rfl
  · intro d cs rest ihc ihr
    by_cases hd : d.oid = g
    · rw [attachF_cons_hit s cs rest hd]
      rfl
    · rcases h2 : (attachF g s cs).2 with _ | _
      · rw [attachF_cons_outer rest hd h2]
        simp only [List.map_cons]
        rw [ihr]
      · rw [attachF_cons_inner rest hd h2]
        rfl

/-- A successful attach means the target identity occurs in the forest. -/
theorem attachF_mem (g : Nat) (s : VTree) :
    ∀ f : List VTree, (attachF g s f).2 = true → g ∈ oidsF f := by
  refine forestInd ?_ ?_
  · intro h
    rw [attachF] at h
    simp at h
  · intro d cs rest ihc ihr h
    rw [oidsF, datasF_cons]
    simp only [List.map_cons, List.map_append, List.mem_cons, List.mem_append]
    by_cases hd : d.oid = g
    · exact Or.inl hd.symm
    · rcases h2 : (attachF g s cs).2 with _ | _
      · rw [attachF_cons_outer rest hd h2] at h
        simp only at h
        refine Or.inr (Or.inr ?_)
        have := ihr h
        rwa [oidsF] at this
      · refine Or.inr (Or.inl ?_)
        have := ihc h2
        rwa [oidsF] at this

/-- An identity present in a forest is always found by `detachF`. -/
theorem detachF_some_of_mem (x : Nat) :
    ∀ f : List VTree, x ∈ oidsF f → ∃ s, (detachF x f).2 = some s := by
  refine forestInd ?_ ?_
  · intro h
    simp [oidsF, datasF] at h
  · intro d cs rest ihc ihr h
    rw [oidsF, datasF_cons] at h
    simp only [List.map_cons, List.map_append, List.mem_cons, List.mem_append] at h
    by_cases hd : d.oid = x
    · exact ⟨VTree.node d cs, by rw [detachF_cons_hit cs rest hd]⟩
    · rcases h2 : (detachF x cs).2 with _ | s0
      · have hrest : x ∈ oidsF rest := by
          rcases h with h | h | h
          · exact absurd h.symm hd
          · rcases ihc (by rwa [oidsF]) with ⟨s1, hs1⟩
            rw [h2] at hs1
            simp at hs1
          · rwa [oidsF]
        rcases ihr hrest with ⟨s1, hs1⟩
        exact ⟨s1, by rw [detachF_cons_outer rest hd h2]; simpa using hs1⟩
      · exact ⟨s0, by rw [detachF_cons_inner rest hd h2]⟩

/-- Detaching an identity keeps the containment status of every other
identity at the top level of the forest. -/
theorem detachF_spine_contains (x : Nat) :
    ∀ f : List VTree, ∀ s, (detachF x f).2 = some s → ∀ y, y ≠ x →
      (((detachF x f).1.map fun c => c.data.oid).contains y) =
        ((f.map fun c => c.data.oid).contains y) := by
  refine forestInd ?_ ?_
  · intro s h
    rw [detachF] at h
    simp at h
  · intro d cs rest ihc ihr s h y hy
    by_cases hd : d.oid = x
    · rw [detachF_cons_hit cs rest hd]
      have hne : (y == d.oid) = false :=
        beq_eq_false_iff_ne.2 (by rw [hd]; exact hy)
      have hne2 : (d.oid == y) = false :=
        beq_eq_false_iff_ne.2 (by rw [hd]; exact fun he => hy he.symm)
      simp only [List.map_cons, List.contains_cons, VTree.data_node, hne, hne2,
        Bool.false_or]
    · rcases h2 : (detachF x cs).2 with _ | s0
      · rw [detachF_cons_outer rest hd h2] at h ⊢
        simp only [List.map_cons, List.contains_cons] at h ⊢
        rw [ihr s h y hy]
      · rw [detachF_cons_inner rest hd h2]
        rfl

end Navis
namespace Navis

/-- One-step equation of `viewsChildlessF`. -/
theorem viewsChildlessF_cons (t : VTree) (rest : List VTree) :
    viewsChildlessF (t :: rest) = (viewsChildlessT t && viewsChildlessF rest) := rfl

/-- One-step equation of `viewsChildlessT`. -/
theorem viewsChildlessT_node (d : NodeData) (cs : List VTree) :
    viewsChildlessT (VTree.node d cs) =
      ((d.is_folder || cs.isEmpty) && viewsChildlessF cs) := rfl

/-- Childlessness of an appended forest. -/
theorem viewsChildlessF_append (a b : List VTree) :
    viewsChildlessF (a ++ b) = (viewsChildlessF a && viewsChildlessF b) := by
  induction a with
  | nil => rw [List.nil_append]; rfl
  | cons t rest ih =>
      rw [List.cons_append, viewsChildlessF_cons, viewsChildlessF_cons, ih,
        Bool.and_assoc]

/-- Detaching preserves viewpoint childlessness, and the detached subtree is
itself childless-sound. -/
theorem detachF_childless (x : Nat) :
    ∀ f : List VTree, viewsChildlessF f = true →
      viewsChildlessF (detachF x f).1 = true ∧
      ∀ s, (detachF x f).2 = some s → viewsChildlessT s = true := by
  refine forestInd ?_ ?_
  · intro _
    refine ⟨rfl, ?_⟩
    intro s h
    rw [detachF] at h
    simp at h
  · intro d cs rest ihc ihr h
    rw [viewsChildlessF_cons, viewsChildlessT_node, Bool.and_eq_true,
      Bool.and_eq_true] at h
    obtain ⟨⟨hflag, hcs⟩, hrest⟩ := h
    by_cases hd : d.oid = x
    · rw [detachF_cons_hit cs rest hd]
      refine ⟨(ihr hrest).1.symm ▸ hrest, ?_⟩
      intro s hs
      simp only at hs
      obtain rfl := Option.some.inj hs
      rw [viewsChildlessT_node, Bool.and_eq_true]
      exact ⟨hflag, hcs⟩
    · rcases h2 : (detachF x cs).2 with _ | s0
      · rw [detachF_cons_outer rest hd h2]
        obtain ⟨hr1, hr2⟩ := ihr hrest
        refine ⟨?_, ?_⟩
        · simp only
          rw [viewsChildlessF_cons, viewsChildlessT_node, Bool.and_eq_true,
            Bool.and_eq_true]
          exact ⟨⟨hflag, hcs⟩, hr1⟩
        · intro s hs
          simp only at hs
          exact hr2 s hs
      · rw [detachF_cons_inner rest hd h2]
        obtain ⟨hc1, hc2⟩ := ihc hcs
        refine ⟨?_, ?_⟩
        · simp only
          rw [viewsChildlessF_cons, viewsChildlessT_node, Bool.and_eq_true,
            Bool.and_eq_true]
          refine ⟨⟨?_, hc1⟩, hrest⟩
          rcases (Bool.or_eq_true _ _) ▸ hflag with hf | he
          · rw [hf]
            rfl
          · obtain rfl := List.isEmpty_iff.1 he
            rw [detachF] at h2
            simp at h2
        · intro s hs
          simp only at hs
          obtain rfl := Option.some.inj hs
          exact hc2 s0 h2

/-- Attaching a childless subtree under a folder node preserves viewpoint
childlessness. -/
theorem attachF_childless (g : Nat) (s0 : VTree) (hs0 : viewsChildlessT s0 = true) :
    ∀ f : List VTree, viewsChildlessF f = true →
      (∀ d ∈ datasF f, d.oid = g → d.is_folder = true) →
      viewsChildlessF (attachF g s0 f).1 = true := by
  refine forestInd ?_ ?_
  · intro _ _
    rfl
  · intro d cs rest ihc ihr h hfold
    rw [viewsChildlessF_cons, viewsChildlessT_node, Bool.and_eq_true,
      Bool.and_eq_true] at h
    obtain ⟨⟨hflag, hcs⟩, hrest⟩ := h
    by_cases hd : d.oid = g
    · rw [attachF_cons_hit s0 cs rest hd]
      have hdf : d.is_folder = true :=
        hfold d (by rw [datasF_cons]; exact List.mem_cons_self _ _) hd
      simp only
      rw [viewsChildlessF_cons, viewsChildlessT_node, Bool.and_eq_true,
        Bool.and_eq_true]
      refine ⟨⟨by rw [hdf]; rfl, ?_⟩, hrest⟩
      rw [viewsChildlessF_append, Bool.and_eq_true]
      refine ⟨hcs, ?_⟩
      rw [viewsChildlessF_cons, hs0]
      rfl
    · rcases h2 : (attachF g s0 cs).2 with _ | _
      · rw [attachF_cons_outer rest hd h2]
        simp only
        rw [viewsChildlessF_cons, viewsChildlessT_node, Bool.and_eq_true,
          Bool.and_eq_true]
        refine ⟨⟨hflag, hcs⟩, ?_⟩
        refine ihr hrest ?_
        intro e he hoid
        refine hfold e ?_ hoid
        rw [datasF_cons]
        exact List.mem_cons_of_mem _ (List.mem_append_right _ he)
      · rw [attachF_cons_inner rest hd h2]
        simp only
        rw [viewsChildlessF_cons, viewsChildlessT_node, Bool.and_eq_true,
          Bool.and_eq_true]
        have hcsub : ∀ e ∈ datasF cs, e.oid = g → e.is_folder = true := by
          intro e he hoid
          refine hfold e ?_ hoid
          rw [datasF_cons]
          exact List.mem_cons_of_mem _ (List.mem_append_left _ he)
        refine ⟨⟨?_, ihc hcs hcsub⟩, hrest⟩
        rcases (Bool.or_eq_true _ _) ▸ hflag with hf | he
        · rw [hf]
          rfl
        · obtain rfl := List.isEmpty_iff.1 he
          rw [attachF] at h2
          simp at h2

end Navis
namespace Navis

/-- `orElse` with an empty fallback. -/
theorem orElse_none_right (o : Option Nat) : (o.orElse fun _ => none) = o := by
  rcases o with _ | v <;> rfl

/-- A single leaf grants no parent to anyone. -/
theorem parentF_single_leaf (y : Nat) (d0 : NodeData) :
    parentF y [VTree.node d0 []] = none := rfl

/-- Containment in a list extended on the right by a distinct element. -/
theorem contains_append_singleton (l : List Nat) (a y : Nat) (hy : y ≠ a) :
    (l ++ [a]).contains y = l.contains y := by
  rcases hb : l.contains y with _ | _
  · have h1 : y ∉ l := by simpa using hb
    have h2 : y ∉ l ++ [a] := by
      intro hm
      rcases List.mem_append.1 hm with hm | hm
      · exact h1 hm
      · simp at hm
        exact hy hm
    simpa using h2
  · have h1 : y ∈ l := by simpa using hb
    have h2 : y ∈ l ++ [a] := List.mem_append_left _ h1
    simpa using h2

/-- Detaching a childless subtree does not change anyone else's parent. -/
theorem detach_leaf_parentF (x : Nat) :
    ∀ f : List VTree, ∀ s, (detachF x f).2 = some s → s.children = [] →
      ∀ y, y ≠ x → parentF y (detachF x f).1 = parentF y f := by
  refine forestInd ?_ ?_
  · intro s h
    rw [detachF] at h
    simp at h
  · intro d cs rest ihc ihr s h hleaf y hy
    by_cases hd : d.oid = x
    · rw [detachF_cons_hit cs rest hd] at h ⊢
      simp only at h ⊢
      obtain rfl := Option.some.inj h
      have hcs : cs = [] := by simpa using hleaf
      subst hcs
      rw [parentF_cons]
      simp [parentF, Option.orElse]
    · rcases h2 : (detachF x cs).2 with _ | s0
      · rw [detachF_cons_outer rest hd h2] at h ⊢
        simp only at h ⊢
        rw [parentF_cons, parentF_cons]
        rw [ihr s h hleaf y hy]
      · rw [detachF_cons_inner rest hd h2] at h ⊢
        simp only at h ⊢
        obtain rfl := Option.some.inj h
        rw [parentF_cons, parentF_cons]
        rw [detachF_spine_contains x cs s0 h2 y hy]
        rw [ihc s0 h2 hleaf y hy]

/-- Attaching never changes the top-level identities of a forest. -/
theorem attachF_spine_oids (g : Nat) (s : VTree) (f : List VTree) :
    ((attachF g s f).1.map fun c => c.data.oid) = f.map fun c => c.data.oid := by
  have h := attachF_spine g s f
  calc ((attachF g s f).1.map fun c => c.data.oid)
      = ((attachF g s f).1.map VTree.data).map NodeData.oid := by
        rw [List.map_map]
        rfl
    _ = (f.map VTree.data).map NodeData.oid := by rw [h]
    _ = f.map fun c => c.data.oid := by
        rw [List.map_map]
        rfl

/-- Attaching a fresh leaf does not change anyone else's parent. -/
theorem attach_leaf_parentF_other (g : Nat) (d0 : NodeData) :
    ∀ f : List VTree, ∀ y, y ≠ d0.oid →
      parentF y (attachF g (VTree.node d0 []) f).1 = parentF y f := by
  refine forestInd ?_ ?_
  · intro y _
    rfl
  · intro d cs rest ihc ihr y hy
    by_cases hd : d.oid = g
    · rw [attachF_cons_hit _ cs rest hd]
      simp only
      rw [parentF_cons, parentF_cons]
      have hcont : ((cs ++ [VTree.node d0 []]).map fun c => c.data.oid).contains y =
          ((cs.map fun c => c.data.oid).contains y) := by
        rw [List.map_append]
        simp only [List.map_cons, List.map_nil, VTree.data_node]
        exact contains_append_singleton _ d0.oid y hy
      rw [hcont]
      by_cases hb : ((cs.map fun c => c.data.oid).contains y) = true
      · rw [if_pos hb, if_pos hb]
      · rw [if_neg hb, if_neg hb]
        rw [parentF_append, parentF_single_leaf, orElse_none_right]
    · rcases h2 : (attachF g (VTree.node d0 []) cs).2 with _ | _
      · rw [attachF_cons_outer rest hd h2]
        simp only
        rw [parentF_cons, parentF_cons]
        rw [ihr y hy]
      · rw [attachF_cons_inner rest hd h2]
        simp only
        rw [parentF_cons, parentF_cons]
        rw [attachF_spine_oids g (VTree.node d0 []) cs]
        rw [ihc y hy]

/-- A freshly attached leaf's parent is the attach target. -/
theorem attach_leaf_parentF_self (g : Nat) (d0 : NodeData) :
    ∀ f : List VTree, g ∈ oidsF f → d0.oid ∉ oidsF f →
      parentF d0.oid (attachF g (VTree.node d0 []) f).1 = some g := by
  refine forestInd ?_ ?_
  · intro hg _
    simp [oidsF, datasF] at hg
  · intro d cs rest ihc ihr hg hd0
    rw [oidsF, datasF_cons] at hg hd0
    simp only [List.map_cons, List.map_append, List.mem_cons, List.mem_append] at hg hd0
    push_neg at hd0
    obtain ⟨hd0a, hd0b, hd0c⟩ := hd0
    by_cases hd : d.oid = g
    · rw [attachF_cons_hit _ cs rest hd]
      simp only
      rw [parentF_cons]
      have hcont : ((cs ++ [VTree.node d0 []]).map fun c => c.data.oid).contains
          d0.oid = true := by
        simp
      rw [if_pos hcont, hd]
    · have hnotop : ¬ (d0.oid ∈ cs.map fun c => c.data.oid) := by
        intro hmem
        exact hd0b (by have := top_mem_oidsF cs d0.oid hmem; rwa [oidsF] at this)
      have hcont : ((cs.map fun c => c.data.oid).contains d0.oid) = false := by
        simpa using hnotop
      have hnotcs : d0.oid ∉ oidsF cs := by
        rw [oidsF]
        exact hd0b
      rcases h2 : (attachF g (VTree.node d0 []) cs).2 with _ | _
      · rw [attachF_cons_outer rest hd h2]
        simp only
        rw [parentF_cons]
        have hgrest : g ∈ oidsF rest := by
          rcases hg with h | h | h
          · exact absurd h.symm hd
          · exact absurd (attachF_true_of_mem g (VTree.node d0 []) cs
              (by rwa [oidsF])) (by rw [h2]; simp)
          · rwa [oidsF]
        rw [if_neg (by rw [hcont]; exact Bool.false_ne_true)]
        rw [parentF_none_of_not_mem d0.oid cs hnotcs]
        simp only [Option.orElse, Option.none_orElse]
        exact ihr hgrest (by rw [oidsF]; exact hd0c)
      · rw [attachF_cons_inner rest hd h2]
        simp only
        rw [parentF_cons]
        rw [attachF_spine_oids g (VTree.node d0 []) cs]
        rw [if_neg (by rw [hcont]; exact Bool.false_ne_true)]
        have hgcs : g ∈ oidsF cs := attachF_mem g (VTree.node d0 []) cs h2
        rw [ihc hgcs hnotcs]
        rfl

end Navis
namespace Navis

/-- The identities of a session tree, unfolded. -/
theorem STree.oids_eq (t : STree) : t.oids = t.rdata.oid :: oidsF t.forest := by
  rw [STree.oids, STree.datas, List.map_cons, oidsF]

/-- Attaching a fresh leaf does not change anyone else's parent (tree
level). -/
theorem STree.attach_leaf_parentOf_other (t : STree) (g : Nat) (d0 : NodeData)
    (y : Nat) (hy : y ≠ d0.oid) :
    (t.attach g (VTree.node d0 [])).parentOf y = t.parentOf y := by
  rw [STree.attach]
  by_cases hr : t.rdata.oid = g
  · rw [if_pos hr]
    rw [STree.parentOf, STree.parentOf]
    simp only
    have hcont : ((t.forest ++ [VTree.node d0 []]).map fun c => c.data.oid).contains y
        = ((t.forest.map fun c => c.data.oid).contains y) := by
      rw [List.map_append]
      simp only [List.map_cons, List.map_nil, VTree.data_node]
      exact contains_append_singleton _ d0.oid y hy
    rw [hcont]
    by_cases hb : ((t.forest.map fun c => c.data.oid).contains y) = true
    · rw [if_pos hb, if_pos hb]
    · rw [if_neg hb, if_neg hb]
      rw [parentF_append, parentF_single_leaf, orElse_none_right]
  · rw [if_neg hr]
    rw [STree.parentOf, STree.parentOf]
    simp only
    rw [attachF_spine_oids]
    by_cases hb : ((t.forest.map fun c => c.data.oid).contains y) = true
    · rw [if_pos hb, if_pos hb]
    · rw [if_neg hb, if_neg hb]
      exact attach_leaf_parentF_other g d0 t.forest y hy

/-- A freshly attached leaf's parent is the attach target (tree level). -/
theorem STree.attach_leaf_parentOf_self (t : STree) (g : Nat) (d0 : NodeData)
    (hg : g ∈ t.oids) (hd0 : d0.oid ∉ t.oids) :
    (t.attach g (VTree.node d0 [])).parentOf d0.oid = some g := by
  rw [STree.oids_eq] at hg hd0
  have hd0r : d0.oid ≠ t.rdata.oid := fun he => hd0 (he ▸ List.mem_cons_self _ _)
  have hd0f : d0.oid ∉ oidsF t.forest := fun hm => hd0 (List.mem_cons_of_mem _ hm)
  rw [STree.attach]
  by_cases hr : t.rdata.oid = g
  · rw [if_pos hr]
    rw [STree.parentOf]
    simp only
    have hcont : (((t.forest ++ [VTree.node d0 []]).map fun c => c.data.oid).contains
        d0.oid) = true := by
      simp
    rw [if_pos hcont, hr]
  · rw [if_neg hr]
    have hgf : g ∈ oidsF t.forest := by
      rcases List.mem_cons.1 hg with h | h
      · exact absurd h.symm hr
      · exact h
    rw [STree.parentOf]
    simp only
    rw [attachF_spine_oids]
    have hcont : ((t.forest.map fun c => c.data.oid).contains d0.oid) = false := by
      have : ¬ (d0.oid ∈ t.forest.map fun c => c.data.oid) := fun hm =>
        hd0f (top_mem_oidsF t.forest d0.oid hm)
      simpa using this
    rw [if_neg (by rw [hcont]; exact Bool.false_ne_true)]
    exact attach_leaf_parentF_self g d0 t.forest hgf hd0f

/-- Relocating a childless node does not change anyone else's parent. -/
theorem STree.moveTo_parentOf_other (t : STree) (x target y : Nat) {s : VTree}
    (hdet : (detachF x t.forest).2 = some s) (hleaf : s.children = [])
    (hy : y ≠ x) :
    (t.moveTo x target).parentOf y = t.parentOf y := by
  have hxoid := detachF_some_oid x t.forest s hdet
  rw [STree.moveTo_some target hdet]
  rcases s with ⟨d0, cs0⟩
  obtain rfl : cs0 = [] := by simpa using hleaf
  rw [VTree.data_node] at hxoid
  rw [STree.attach_leaf_parentOf_other ⟨t.rdata, (detachF x t.forest).1⟩ target d0 y
    (by rw [hxoid]; exact hy)]
  rw [STree.parentOf, STree.parentOf]
  simp only
  rw [detachF_spine_contains x t.forest (VTree.node d0 []) hdet y hy]
  by_cases hb : ((t.forest.map fun c => c.data.oid).contains y) = true
  · rw [if_pos hb, if_pos hb]
  · rw [if_neg hb, if_neg hb]
    exact detach_leaf_parentF x t.forest (VTree.node d0 []) hdet rfl y hy

/-- After a detach, the detached identity is completely gone (under identity
uniqueness). -/
theorem detach_ocount_zero (t : STree) (x : Nat) {s : VTree}
    (hdet : (detachF x t.forest).2 = some s) (hleaf : s.children = [])
    (hocc : ∀ z, ocount t.datas z ≤ 1) :
    ocount (datasF (detachF x t.forest).1) x = 0 := by
  have hxoid := detachF_some_oid x t.forest s hdet
  rcases s with ⟨d0, cs0⟩
  obtain rfl : cs0 = [] := by simpa using hleaf
  rw [VTree.data_node] at hxoid
  have hperm : (datasF t.forest).Perm (datasT (VTree.node d0 []) ++
      datasF (detachF x t.forest).1) :=
    List.perm_iff_count.2 fun a => by
      rw [List.count_append]
      exact detachF_count x t.forest _ hdet a
  have hcnt : ocount (datasF t.forest) x =
      ocount (datasT (VTree.node d0 [])) x + ocount (datasF (detachF x t.forest).1) x := by
    rw [ocount, hperm.countP_eq, List.countP_append]
    rfl
  have hone : ocount (datasT (VTree.node d0 [])) x = 1 := by
    rw [datasT, datasF, ocount, List.countP_cons, List.countP_nil]
    simp [hxoid]
  have hle : ocount (datasF t.forest) x ≤ 1 := by
    have h := hocc x
    rw [STree.datas, ocount, List.countP_cons] at h
    rw [ocount]
    omega
  omega

/-- Relocating a childless node onto a present target parents it there. -/
theorem STree.moveTo_parentOf_moved (t : STree) (x target : Nat) {s : VTree}
    (hdet : (detachF x t.forest).2 = some s) (hleaf : s.children = [])
    (hocc : ∀ z, ocount t.datas z ≤ 1)
    (htm : target ∈ t.oids) (hxt : x ≠ target) (hxr : x ≠ t.rdata.oid) :
    (t.moveTo x target).parentOf x = some target := by
  have hxoid := detachF_some_oid x t.forest s hdet
  have hzero := detach_ocount_zero t x hdet hleaf hocc
  rw [STree.moveTo_some target hdet]
  rcases s with ⟨d0, cs0⟩
  obtain rfl : cs0 = [] := by simpa using hleaf
  rw [VTree.data_node] at hxoid
  have hxnot : x ∉ (STree.mk t.rdata (detachF x t.forest).1).oids := by
    rw [STree.oids_eq]
    show x ∉ t.rdata.oid :: oidsF (detachF x t.forest).1
    intro hm
    rcases List.mem_cons.1 hm with h | h
    · exact hxr h
    · rw [oidsF] at h
      rcases List.mem_map.1 h with ⟨d, hd, hoid⟩
      have : 0 < ocount (datasF (detachF x t.forest).1) x :=
        (ocount_pos_iff _ x).2 ⟨d, hd, hoid⟩
      omega
  have htm' : target ∈ (STree.mk t.rdata (detachF x t.forest).1).oids := by
    rw [STree.oids_eq]
    show target ∈ t.rdata.oid :: oidsF (detachF x t.forest).1
    rcases List.mem_map.1 htm with ⟨dtar, hdtar, hoidtar⟩
    rcases List.mem_cons.1 hdtar with rfl | hdtar'
    · rw [← hoidtar]
      exact List.mem_cons_self _ _
    · have hsplit : dtar ∈ datasT (VTree.node d0 []) ∨
          dtar ∈ datasF (detachF x t.forest).1 := by
        have hc := detachF_count x t.forest _ hdet dtar
        have hpos := count_pos_of_mem hdtar'
        by_cases h1 : 0 < (datasT (VTree.node d0 [])).count dtar
        · exact Or.inl (mem_of_count_pos h1)
        · exact Or.inr (mem_of_count_pos (by omega))
      rcases hsplit with h1 | h1
      · rw [datasT, datasF] at h1
        rcases List.mem_cons.1 h1 with rfl | h1'
        · exact absurd (hxoid ▸ hoidtar) hxt
        · simp at h1'
      · refine List.mem_cons_of_mem _ ?_
        rw [oidsF]
        rw [← hoidtar]
        exact List.mem_map_of_mem NodeData.oid h1
  have hres := STree.attach_leaf_parentOf_self ⟨t.rdata, (detachF x t.forest).1⟩
    target d0 htm' (by rw [hxoid]; exact hxnot)
  exact hxoid ▸ hres

/-- A childless node is an ancestor of nobody. -/
theorem isAncestorOf_false_of_leaf (t : STree) (x target : Nat) {s : VTree}
    (hdet : (detachF x t.forest).2 = some s) (hleaf : s.children = [])
    (hxr : x ≠ t.rdata.oid) :
    t.isAncestorOf x target = false := by
  rw [STree.isAncestorOf, if_neg (fun he => hxr he.symm), subAtF_eq_detachF, hdet]
  rcases s with ⟨d0, cs0⟩
  obtain rfl : cs0 = [] := by simpa using hleaf
  simp [oidsF, datasF]

/-- Relocating a childless node preserves viewpoint childlessness when every
node carrying the target identity is a folder. -/
theorem STree.moveTo_childless (t : STree) (x target : Nat) {s : VTree}
    (hdet : (detachF x t.forest).2 = some s)
    (hvc : viewsChildlessF t.forest = true)
    (hfold : ∀ d ∈ t.datas, d.oid = target → d.is_folder = true) :
    viewsChildlessF (t.moveTo x target).forest = true := by
  rw [STree.moveTo_some target hdet]
  obtain ⟨hf', hsc⟩ := detachF_childless x t.forest hvc
  have hs := hsc s hdet
  rw [STree.attach]
  by_cases hr : t.rdata.oid = target
  · rw [if_pos hr]
    simp only
    rw [viewsChildlessF_append, hf', viewsChildlessF_cons, hs]
    rfl
  · rw [if_neg hr]
    simp only
    refine attachF_childless target s hs (detachF x t.forest).1 hf' ?_
    intro d hd hoid
    refine hfold d ?_ hoid
    have hdf : d ∈ datasF t.forest := by
      have hc := detachF_count x t.forest s hdet d
      have hpos := count_pos_of_mem hd
      exact mem_of_count_pos (by omega)
    exact List.mem_cons_of_mem _ hdf

/-- Attaching a fresh leaf preserves viewpoint childlessness when every node
carrying the target identity is a folder. -/
theorem STree.attach_leaf_childless (t : STree) (target : Nat) (d0 : NodeData)
    (hvc : viewsChildlessF t.forest = true)
    (hfold : ∀ d ∈ t.datas, d.oid = target → d.is_folder = true) :
    viewsChildlessF (t.attach target (VTree.node d0 [])).forest = true := by
  have hs : viewsChildlessT (VTree.node d0 []) = true := by
    rw [viewsChildlessT_node]
    simp only [List.isEmpty_nil, Bool.or_true, Bool.true_and]
    rfl
  rw [STree.attach]
  by_cases hr : t.rdata.oid = target
  · rw [if_pos hr]
    simp only
    rw [viewsChildlessF_append, hvc, viewsChildlessF_cons, hs]
    rfl
  · rw [if_neg hr]
    simp only
    refine attachF_childless target _ hs t.forest hvc ?_
    intro d hd hoid
    exact hfold d (List.mem_cons_of_mem _ hd) hoid

end Navis
namespace Navis

/-- `find_by_guid` returns a present node with the requested guid. -/
theorem findGuidF_mem (g : String) :
    ∀ f : List VTree, ∀ d, findGuidF g f = some d → d ∈ datasF f ∧ d.guid = g := by
  refine forestInd ?_ ?_
  · intro d h
    rw [findGuidF] at h
    simp at h
  · intro e cs rest ihc ihr d h
    rw [findGuidF_cons] at h
    rw [datasF_cons]
    by_cases hd : e.guid = g
    · rw [if_pos hd] at h
      obtain rfl := Option.some.inj h
      exact ⟨List.mem_cons_self _ _, hd⟩
    · rw [if_neg hd] at h
      rcases h2 : findGuidF g cs with _ | r
      · rw [h2] at h
        simp only [Option.orElse, Option.none_orElse] at h
        obtain ⟨hm, hg⟩ := ihr d h
        exact ⟨List.mem_cons_of_mem _ (List.mem_append_right _ hm), hg⟩
      · rw [h2] at h
        simp only [Option.orElse] at h
        obtain rfl := Option.some.inj h
        obtain ⟨hm, hg⟩ := ihc _ h2
        exact ⟨List.mem_cons_of_mem _ (List.mem_append_left _ hm), hg⟩

/-- `find_by_guid` on the whole tree returns a present node with the
requested guid. -/
theorem STree.findGuid_mem (t : STree) (g : String) (d : NodeData)
    (h : t.findGuid g = some d) : d ∈ t.datas ∧ d.guid = g := by
  rw [STree.findGuid] at h
  by_cases hr : t.rdata.guid = g
  · rw [if_pos hr] at h
    obtain rfl := Option.some.inj h
    exact ⟨List.mem_cons_self _ _, hr⟩
  · rw [if_neg hr] at h
    obtain ⟨hm, hg⟩ := findGuidF_mem g t.forest d h
    exact ⟨List.mem_cons_of_mem _ hm, hg⟩

/-- Under guid uniqueness, `find_by_guid` finds exactly the present node
with the requested guid. -/
theorem STree.findGuid_unique (t : STree) (g : String) (d : NodeData)
    (hmem : d ∈ t.datas) (hg : d.guid = g) (hu : ∀ gg, gcount t.datas gg ≤ 1) :
    t.findGuid g = some d := by
  rcases hf : t.findGuid g with _ | e
  · have h0 := STree.findGuid_none t g hf
    have h1 : 0 < gcount t.datas g := (gcount_pos_iff _ g).2 ⟨d, hmem, hg⟩
    omega
  · obtain ⟨hm', hg'⟩ := STree.findGuid_mem t g e hf
    obtain rfl : e = d := eq_of_gcount t.datas hu hm' hmem (by rw [hg', hg])
    rfl

/-- `iter_views` yields exactly the non-folder data, in traversal order. -/
theorem iterViewsF_eq_filter :
    ∀ f : List VTree, iterViewsF f = (datasF f).filter fun d => !d.is_folder := by
  refine forestInd ?_ ?_
  · rfl
  · intro d cs rest ihc ihr
    by_cases hf : d.is_folder
    · simp [iterViewsF, iterViewsT, datasF_cons, List.filter_cons,
        List.filter_append, hf, ihc, ihr]
    · simp [iterViewsF, iterViewsT, datasF_cons, List.filter_cons,
        List.filter_append, hf, ihc, ihr]

/-- `iter_views` on the whole tree filters the non-folder data. -/
theorem STree.iterViews_eq (t : STree) :
    t.iterViews = t.datas.filter fun d => !d.is_folder := by
  rw [STree.iterViews, STree.datas, List.filter_cons, iterViewsF_eq_filter]
  by_cases hf : t.rdata.is_folder
  · simp [hf]
  · simp [hf]

/-- Every element of a `nameHits` bucket is the node itself. -/
theorem nameHits_eq (key : String) (d e : NodeData) (he : e ∈ nameHits key d) :
    e = d := by
  simp only [nameHits] at he
  rcases List.mem_append.1 he with h | h
  · by_cases hk : key = pyLower d.name
    · rw [if_pos hk] at h
      simpa using h
    · rw [if_neg hk] at h
      simp at h
  · rcases List.mem_filterMap.1 h with ⟨p, hp, hsome⟩
    by_cases hc : p ≠ pyLower d.name ∧ p = key
    · rw [if_pos hc] at hsome
      exact (Option.some.inj hsome).symm
    · rw [if_neg hc] at hsome
      simp at hsome

/-- Membership in the bulk-move tree index. -/
theorem mem_treeIndexLookup (t : STree) (key : String) (x : Nat) :
    x ∈ treeIndexLookup t key ↔
      ∃ v ∈ t.iterViews, v.oid = x ∧ nameHits key v ≠ [] := by
  rw [treeIndexLookup, List.mem_flatMap]
  constructor
  · rintro ⟨v, hv, hx⟩
    rcases List.mem_map.1 hx with ⟨e, he, rfl⟩
    obtain rfl := nameHits_eq key v e he
    exact ⟨e, hv, rfl, fun hnil => by rw [hnil] at he; simp at he⟩
  · rintro ⟨v, hv, rfl, hne⟩
    refine ⟨v, hv, ?_⟩
    rcases List.exists_mem_of_ne_nil (nameHits key v) hne with ⟨e, he⟩
    obtain rfl := nameHits_eq key v e he
    exact List.mem_map_of_mem NodeData.oid he

/-- Membership in the bulk-move pool index. -/
theorem mem_poolIndexLookup (pool : List NodeData) (key : String) (src : NodeData)
    (h : src ∈ poolIndexLookup pool key) : src ∈ pool ∧ nameHits key src ≠ [] := by
  rw [poolIndexLookup, List.mem_flatMap] at h
  rcases h with ⟨v, hv, hsrc⟩
  obtain rfl := nameHits_eq key v src hsrc
  exact ⟨hv, fun hnil => by rw [hnil] at hsrc; simp at hsrc⟩

end Navis
namespace Navis

/-- Under the invariant, every node carrying the target identity is a
folder. -/
theorem TreeInv_target_folder (t0 : STree) (target fresh0 : Nat) (tr : STree)
    (fr : Nat) (hinv : TreeInv t0 target fresh0 tr fr)
    (htgt0 : target ∈ t0.oids)
    (hfold0 : ∀ d ∈ t0.datas, d.oid = target → d.is_folder = true)
    (hlt0 : ∀ x ∈ t0.oids, x < fresh0) :
    ∀ d ∈ tr.datas, d.oid = target → d.is_folder = true := by
  obtain ⟨_, _, _, _, _, _, _, hnew⟩ := hinv
  intro d hd hoid
  rcases hnew d hd with hmem0 | ⟨_, hge, _⟩
  · exact hfold0 d hmem0 hoid
  · have h1 := hlt0 target htgt0
    omega

/-- Under the invariant, the target is present. -/
theorem TreeInv_target_mem (t0 : STree) (target fresh0 : Nat) (tr : STree)
    (fr : Nat) (hinv : TreeInv t0 target fresh0 tr fr)
    (htgt0 : target ∈ t0.oids) : target ∈ tr.oids := by
  obtain ⟨_, _, _, _, _, _, hsub, _⟩ := hinv
  rcases List.mem_map.1 htgt0 with ⟨d0, hd0, hoid⟩
  rw [STree.oids, ← hoid]
  exact List.mem_map_of_mem NodeData.oid (hsub d0 hd0)

/-- One bulk relocation of a present viewpoint onto the folder target:
the invariant is preserved, the data multiset is untouched, the moved node's
parent becomes the target, and nobody else's parent changes. -/
theorem bulk_move_step (t0 : STree) (target fresh0 : Nat) (tr : STree) (fr : Nat)
    (hinv : TreeInv t0 target fresh0 tr fr)
    (hrootf : t0.rdata.is_folder = true)
    (htgt0 : target ∈ t0.oids)
    (hfold0 : ∀ d ∈ t0.datas, d.oid = target → d.is_folder = true)
    (hlt0 : ∀ x ∈ t0.oids, x < fresh0)
    (v : NodeData) (hv : v ∈ tr.datas) (hvf : v.is_folder = false) :
    TreeInv t0 target fresh0 (tr.moveTo v.oid target) fr ∧
    (∀ a, (tr.moveTo v.oid target).datas.count a = tr.datas.count a) ∧
    (tr.moveTo v.oid target).parentOf v.oid = some target ∧
    (∀ y, y ≠ v.oid → (tr.moveTo v.oid target).parentOf y = tr.parentOf y) := by
  have hfoldtr := TreeInv_target_folder t0 target fresh0 tr fr hinv htgt0 hfold0 hlt0
  have htm_tr := TreeInv_target_mem t0 target fresh0 tr fr hinv htgt0
  obtain ⟨hrd, hgc, hoc, hlt, hf0le, hvc, hsub, hnew⟩ := hinv
  have hrdata_mem : tr.rdata ∈ tr.datas := List.mem_cons_self _ _
  have hroot_folder : tr.rdata.is_folder = true := by
    rw [hrd]
    exact hrootf
  have hne_root : v.oid ≠ tr.rdata.oid := by
    intro he
    have heq := eq_of_ocount tr.datas hoc hv hrdata_mem he
    rw [heq, hroot_folder] at hvf
    exact absurd hvf (by simp)
  have hne_target : v.oid ≠ target := by
    intro he
    rw [hfoldtr v hv he] at hvf
    exact absurd hvf (by simp)
  have hvmemF : v ∈ datasF tr.forest := by
    rcases List.mem_cons.1 hv with he | hm
    · rw [he, hroot_folder] at hvf
      exact absurd hvf (by simp)
    · exact hm
  have hvoidF : v.oid ∈ oidsF tr.forest := by
    rw [oidsF]
    exact List.mem_map_of_mem NodeData.oid hvmemF
  obtain ⟨s, hdet⟩ := detachF_some_of_mem v.oid tr.forest hvoidF
  have hsoid := detachF_some_oid v.oid tr.forest s hdet
  have hsmem : s.data ∈ tr.datas :=
    List.mem_cons_of_mem _ (mem_datasT_mem_datasF hdet (self_data_mem_datasT s))
  have hsv : s.data = v := eq_of_ocount tr.datas hoc hsmem hv hsoid
  have hct := (detachF_childless v.oid tr.forest hvc).2 s hdet
  rcases s with ⟨ds, css⟩
  rw [VTree.data_node] at hsv hsoid
  rw [viewsChildlessT_node, Bool.and_eq_true] at hct
  obtain rfl : css = [] := by
    rcases (Bool.or_eq_true _ _) ▸ hct.1 with hfol | hemp
    · rw [hsv] at hfol
      rw [hvf] at hfol
      exact absurd hfol (by simp)
    · exact List.isEmpty_iff.1 hemp
  rw [hsv] at hdet
  have hleaf : (VTree.node v []).children = [] := rfl
  have hanc := isAncestorOf_false_of_leaf tr v.oid target hdet hleaf hne_root
  have hcnt := STree.moveTo_count_eq tr v.oid target hdet hne_root hanc hne_target
    htm_tr
  have hperm : ((tr.moveTo v.oid target).datas).Perm tr.datas :=
    List.perm_iff_count.2 hcnt
  have hpmoved := STree.moveTo_parentOf_moved tr v.oid target hdet hleaf hoc htm_tr
    hne_target hne_root
  have hpother : ∀ y, y ≠ v.oid →
      (tr.moveTo v.oid target).parentOf y = tr.parentOf y :=
    fun y hy => STree.moveTo_parentOf_other tr v.oid target y hdet hleaf hy
  refine ⟨⟨?_, ?_, ?_, ?_, hf0le, ?_, ?_, ?_⟩, hcnt, hpmoved, hpother⟩
  · rw [STree.moveTo_rdata]
    exact hrd
  · intro g
    rw [gcount, hperm.countP_eq]
    exact hgc g
  · intro x
    rw [ocount, hperm.countP_eq]
    exact hoc x
  · intro x hx
    rcases List.mem_map.1 hx with ⟨d, hd, hoid⟩
    refine hlt x ?_
    rw [STree.oids, ← hoid]
    exact List.mem_map_of_mem NodeData.oid (hperm.mem_iff.1 hd)
  · exact STree.moveTo_childless tr v.oid target hdet hvc hfoldtr
  · intro d hd
    exact hperm.mem_iff.2 (hsub d hd)
  · intro d hd
    rcases hnew d (hperm.mem_iff.1 hd) with hmem0 | ⟨hdf, hge, hpar⟩
    · exact Or.inl hmem0
    · refine Or.inr ⟨hdf, hge, ?_⟩
      by_cases hy : d.oid = v.oid
      · have heq : d = v := eq_of_ocount tr.datas hoc (hperm.mem_iff.1 hd) hv hy
        rw [heq]
        exact hpmoved
      · rw [hpother d.oid hy]
        exact hpar

end Navis
namespace Navis

/-- The single-leaf data list counts one occurrence of the leaf's data. -/
theorem count_leaf (c a : NodeData) :
    (datasT (VTree.node c [])).count a = if a = c then 1 else 0 := by
  rw [datasT, datasF]
  by_cases h : a = c
  · simp [h]
  · simp [List.count_cons, h, fun he : c = a => h he.symm]

/-- One bulk clone attach of a fresh pool viewpoint under the folder target:
the invariant advances with the counter, the data multiset gains exactly the
clone, the clone's parent is the target, and nobody else's parent changes. -/
theorem bulk_attach_step (t0 : STree) (target fresh0 : Nat) (tr : STree) (fr : Nat)
    (hinv : TreeInv t0 target fresh0 tr fr)
    (htgt0 : target ∈ t0.oids)
    (hfold0 : ∀ d ∈ t0.datas, d.oid = target → d.is_folder = true)
    (hlt0 : ∀ x ∈ t0.oids, x < fresh0)
    (c : NodeData) (hcoid : c.oid = fr) (hcf : c.is_folder = false)
    (hguid : tr.findGuid c.guid = none) :
    TreeInv t0 target fresh0 (tr.attach target (VTree.node c [])) (fr + 1) ∧
    (∀ a, (tr.attach target (VTree.node c [])).datas.count a =
      tr.datas.count a + (if a = c then 1 else 0)) ∧
    (tr.attach target (VTree.node c [])).parentOf c.oid = some target ∧
    (∀ y, y ≠ c.oid →
      (tr.attach target (VTree.node c [])).parentOf y = tr.parentOf y) := by
  have hfoldtr := TreeInv_target_folder t0 target fresh0 tr fr hinv htgt0 hfold0 hlt0
  have htm_tr := TreeInv_target_mem t0 target fresh0 tr fr hinv htgt0
  obtain ⟨hrd, hgc, hoc, hlt, hf0le, hvc, hsub, hnew⟩ := hinv
  have hcnot : c.oid ∉ tr.oids := by
    intro hm
    have := hlt c.oid hm
    omega
  have hcnt0 := STree.attach_succ_count tr target (VTree.node c []) htm_tr
  have hcnt : ∀ a, (tr.attach target (VTree.node c [])).datas.count a =
      tr.datas.count a + (if a = c then 1 else 0) := by
    intro a
    rw [hcnt0 a, count_leaf]
  have hperm : ((tr.attach target (VTree.node c [])).datas).Perm
      (tr.datas ++ [c]) := by
    refine List.perm_iff_count.2 fun a => ?_
    rw [hcnt a, List.count_append]
    by_cases h : a = c
    · simp [h]
    · simp [List.count_cons, h, fun he : c = a => h he.symm]
  have hpself := STree.attach_leaf_parentOf_self tr target c htm_tr hcnot
  have hpother : ∀ y, y ≠ c.oid →
      (tr.attach target (VTree.node c [])).parentOf y = tr.parentOf y :=
    fun y hy => STree.attach_leaf_parentOf_other tr target c y hy
  refine ⟨⟨?_, ?_, ?_, ?_, by omega, ?_, ?_, ?_⟩, hcnt, hpself, hpother⟩
  · rw [STree.attach_rdata]
    exact hrd
  · exact attach_fresh_gcount tr target c hguid hgc
  · intro x
    rw [ocount, hperm.countP_eq, List.countP_append]
    have hone : ([c].countP fun d => d.oid = x) = if c.oid = x then 1 else 0 := by
      rw [List.countP_cons, List.countP_nil]
      by_cases h : c.oid = x
      · simp [h]
      · simp [h]
    rw [hone]
    by_cases h : c.oid = x
    · have hz : ocount tr.datas x = 0 := by
        by_contra hnz
        have hpos : 0 < ocount tr.datas x := Nat.pos_of_ne_zero hnz
        rcases (ocount_pos_iff _ x).1 hpos with ⟨d, hd, hoid⟩
        have hmem : x ∈ tr.oids := by
          rw [STree.oids, ← hoid]
          exact List.mem_map_of_mem NodeData.oid hd
        have := hlt x hmem
        omega
      rw [ocount] at hz
      rw [hz, if_pos h]
    · rw [if_neg h]
      have := hoc x
      rw [ocount] at this
      omega
  · intro x hx
    rcases List.mem_map.1 hx with ⟨d, hd, hoid⟩
    rcases List.mem_append.1 (hperm.mem_iff.1 hd) with hd' | hd'
    · have : x ∈ tr.oids := by
        rw [STree.oids, ← hoid]
        exact List.mem_map_of_mem NodeData.oid hd'
      have := hlt x this
      omega
    · simp only [List.mem_cons, List.not_mem_nil, or_false] at hd'
      rw [hd'] at hoid
      omega
  · exact STree.attach_leaf_childless tr target c hvc hfoldtr
  · intro d hd
    exact hperm.mem_iff.2 (List.mem_append_left _ (hsub d hd))
  · intro d hd
    rcases List.mem_append.1 (hperm.mem_iff.1 hd) with hd' | hd'
    · rcases hnew d hd' with hmem0 | ⟨hdf, hge, hpar⟩
      · exact Or.inl hmem0
      · refine Or.inr ⟨hdf, hge, ?_⟩
        have hdo : d.oid ≠ c.oid := by
          have : d.oid ∈ tr.oids := by
            rw [STree.oids]
            exact List.mem_map_of_mem NodeData.oid hd'
          have := hlt d.oid this
          omega
        rw [hpother d.oid hdo]
        exact hpar
    · simp only [List.mem_cons, List.not_mem_nil, or_false] at hd'
      refine Or.inr ?_
      rw [hd']
      exact ⟨hcf, by omega, hpself⟩

end Navis
namespace Navis

/-- A node reported as having a parent is present in the tree. -/
theorem STree.parentOf_child_mem (t : STree) (y p : Nat)
    (h : t.parentOf y = some p) : y ∈ t.oids := by
  rw [STree.parentOf] at h
  rw [STree.oids_eq]
  by_cases hc : ((t.forest.map fun c => c.data.oid).contains y) = true
  · have hm : y ∈ t.forest.map fun c => c.data.oid := by simpa using hc
    exact List.mem_cons_of_mem _ (top_mem_oidsF t.forest y hm)
  · rw [if_neg hc] at h
    exact List.mem_cons_of_mem _ (parentF_child_mem y t.forest p h)

/-- One tree hit of a bulk token: invariant preserved, the hit ends up under
the target, nodes already under the target stay there, and no data is
lost. -/
theorem processTreeHit_step (t0 : STree) (target fresh0 : Nat)
    (hrootf : t0.rdata.is_folder = true)
    (htgt0 : target ∈ t0.oids)
    (hfold0 : ∀ d ∈ t0.datas, d.oid = target → d.is_folder = true)
    (hlt0 : ∀ x ∈ t0.oids, x < fresh0)
    (st : BulkState) (x : Nat)
    (hinv : TreeInv t0 target fresh0 st.tree st.fresh)
    (hx : ∃ v ∈ t0.iterViews, v.oid = x) :
    TreeInv t0 target fresh0 (processTreeHit target st x).tree
      (processTreeHit target st x).fresh ∧
    (processTreeHit target st x).tree.parentOf x = some target ∧
    (∀ y, st.tree.parentOf y = some target →
      (processTreeHit target st x).tree.parentOf y = some target) ∧
    (∀ d ∈ st.tree.datas, d ∈ (processTreeHit target st x).tree.datas) := by
  rcases hx with ⟨v0, hv0, hv0x⟩
  have hv0d : v0 ∈ t0.datas ∧ v0.is_folder = false := by
    rw [STree.iterViews_eq] at hv0
    have h := List.mem_filter.1 hv0
    exact ⟨h.1, by simpa using h.2⟩
  subst hv0x
  obtain ⟨hrd, hgc, hoc, hlt, hf0le, hvc, hsub, hnew⟩ := hinv
  rw [processTreeHit]
  by_cases hpar : st.tree.parentOf v0.oid = some target
  · rw [if_pos hpar]
    exact ⟨⟨hrd, hgc, hoc, hlt, hf0le, hvc, hsub, hnew⟩, hpar,
      fun y h => h, fun d hd => hd⟩
  · rw [if_neg hpar]
    have hmv := bulk_move_step t0 target fresh0 st.tree st.fresh
      ⟨hrd, hgc, hoc, hlt, hf0le, hvc, hsub, hnew⟩ hrootf htgt0 hfold0 hlt0
      v0 (hsub v0 hv0d.1) hv0d.2
    obtain ⟨hinv', hcnt', hpm, hpo⟩ := hmv
    refine ⟨hinv', hpm, ?_, ?_⟩
    · intro y hy
      by_cases hyx : y = v0.oid
      · rw [hyx]
        exact hpm
      · rw [hpo y hyx]
        exact hy
    · intro d hd
      exact mem_of_count_pos (by rw [hcnt' d]; exact count_pos_of_mem hd)

/-- One pool hit of a bulk token: invariant preserved, afterwards a tree
node carrying the source's guid sits under the target, nodes already under
the target stay there, and no data is lost. -/
theorem processPoolSrc_step (t0 : STree) (target fresh0 : Nat)
    (pool : List NodeData)
    (hrootf : t0.rdata.is_folder = true)
    (htgt0 : target ∈ t0.oids)
    (hfold0 : ∀ d ∈ t0.datas, d.oid = target → d.is_folder = true)
    (hlt0 : ∀ x ∈ t0.oids, x < fresh0)
    (hpoolfold : ∀ d ∈ t0.datas, d.is_folder = true → ∀ src ∈ pool,
      src.guid ≠ d.guid)
    (st : BulkState) (src : NodeData) (hsrc : src ∈ pool)
    (hinv : TreeInv t0 target fresh0 st.tree st.fresh) :
    TreeInv t0 target fresh0 (processPoolSrc target st src).tree
      (processPoolSrc target st src).fresh ∧
    (∃ ex ∈ (processPoolSrc target st src).tree.datas, ex.guid = src.guid ∧
      (processPoolSrc target st src).tree.parentOf ex.oid = some target) ∧
    (∀ y, st.tree.parentOf y = some target →
      (processPoolSrc target st src).tree.parentOf y = some target) ∧
    (∀ d ∈ st.tree.datas, d ∈ (processPoolSrc target st src).tree.datas) := by
  rcases hf : st.tree.findGuid src.guid with _ | exist
  · rw [processPoolSrc, hf]
    have hstep := bulk_attach_step t0 target fresh0 st.tree st.fresh hinv htgt0
      hfold0 hlt0 ⟨st.fresh, src.name, src.guid, src.xml_content, false, ""⟩
      rfl rfl hf
    obtain ⟨hinv', hcnt', hps, hpo⟩ := hstep
    obtain ⟨_, _, _, hlt, _, _, _, _⟩ := hinv
    refine ⟨hinv', ?_, ?_, ?_⟩
    · refine ⟨⟨st.fresh, src.name, src.guid, src.xml_content, false, ""⟩, ?_, rfl, hps⟩
      refine mem_of_count_pos ?_
      rw [hcnt']
      simp
    · intro y hy
      have hym : y ∈ st.tree.oids := STree.parentOf_child_mem st.tree y target hy
      have hylt := hlt y hym
      have hyne : y ≠ (⟨st.fresh, src.name, src.guid, src.xml_content, false,
          ""⟩ : NodeData).oid := by
        intro he
        simp only at he
        omega
      rw [hpo y hyne]
      exact hy
    · intro d hd
      refine mem_of_count_pos ?_
      rw [hcnt' d]
      have := count_pos_of_mem hd
      omega
  · have he : processPoolSrc target st src =
        if st.tree.parentOf exist.oid = some target then
          { st with already := st.already + 1 }
        else { st with tree := st.tree.moveTo exist.oid target, moved := st.moved + 1 } := by
      rw [processPoolSrc, hf]
    rw [he]
    obtain ⟨hexmem, hexguid⟩ := STree.findGuid_mem st.tree src.guid exist hf
    obtain ⟨hrd, hgc, hoc, hlt, hf0le, hvc, hsub, hnew⟩ := hinv
    have hexview : exist.is_folder = false := by
      rcases hnew exist hexmem with hmem0 | ⟨hv, _, _⟩
      · rcases hb : exist.is_folder with _ | _
        · rfl
        · exact absurd hexguid.symm (hpoolfold exist hmem0 hb src hsrc)
      · exact hv
    by_cases hpar : st.tree.parentOf exist.oid = some target
    · rw [if_pos hpar]
      exact ⟨⟨hrd, hgc, hoc, hlt, hf0le, hvc, hsub, hnew⟩,
        ⟨exist, hexmem, hexguid, hpar⟩, fun y h => h, fun d hd => hd⟩
    · rw [if_neg hpar]
      have hmv := bulk_move_step t0 target fresh0 st.tree st.fresh
        ⟨hrd, hgc, hoc, hlt, hf0le, hvc, hsub, hnew⟩ hrootf htgt0 hfold0 hlt0
        exist hexmem hexview
      obtain ⟨hinv', hcnt', hpm, hpo⟩ := hmv
      refine ⟨hinv', ?_, ?_, ?_⟩
      · refine ⟨exist, ?_, hexguid, hpm⟩
        exact mem_of_count_pos (by rw [hcnt' exist]; exact count_pos_of_mem hexmem)
      · intro y hy
        by_cases hyx : y = exist.oid
        · rw [hyx]
          exact hpm
        · rw [hpo y hyx]
          exact hy
      · intro d hd
        exact mem_of_count_pos (by rw [hcnt' d]; exact count_pos_of_mem hd)

end Navis
namespace Navis

/-- `TokenDone` transfers along parent-stability and data-stability. -/
theorem TokenDone_mono (t0 : STree) (pool : List NodeData) (target : Nat)
    (tr tr' : STree) (tok : String)
    (hdone : TokenDone t0 pool target tr tok)
    (hpres : ∀ y, tr.parentOf y = some target → tr'.parentOf y = some target)
    (hmem : ∀ d ∈ tr.datas, d ∈ tr'.datas) :
    TokenDone t0 pool target tr' tok := by
  obtain ⟨ha, hb⟩ := hdone
  refine ⟨fun x hx => hpres x (ha x hx), fun hnil src hsrc => ?_⟩
  obtain ⟨ex, hexm, hexg, hexp⟩ := hb hnil src hsrc
  exact ⟨ex, hmem ex hexm, hexg, hpres ex.oid hexp⟩

/-- Folding the tree hits of one token: invariant, every hit under the
target, stability. -/
theorem treeHits_fold (t0 : STree) (target fresh0 : Nat)
    (hrootf : t0.rdata.is_folder = true)
    (htgt0 : target ∈ t0.oids)
    (hfold0 : ∀ d ∈ t0.datas, d.oid = target → d.is_folder = true)
    (hlt0 : ∀ x ∈ t0.oids, x < fresh0) :
    ∀ (hits : List Nat) (st : BulkState),
      TreeInv t0 target fresh0 st.tree st.fresh →
      (∀ x ∈ hits, ∃ v ∈ t0.iterViews, v.oid = x) →
      TreeInv t0 target fresh0 (hits.foldl (processTreeHit target) st).tree
        (hits.foldl (processTreeHit target) st).fresh ∧
      (∀ x ∈ hits,
        (hits.foldl (processTreeHit target) st).tree.parentOf x = some target) ∧
      (∀ y, st.tree.parentOf y = some target →
        (hits.foldl (processTreeHit target) st).tree.parentOf y = some target) ∧
      (∀ d ∈ st.tree.datas, d ∈ (hits.foldl (processTreeHit target) st).tree.datas) := by
  intro hits
  induction hits with
  | nil =>
      intro st hinv _
      exact ⟨hinv, by simp, fun y h => h, fun d hd => hd⟩
  | cons x rest ih =>
      intro st hinv hsrc
      rw [List.foldl_cons]
      have hstep := processTreeHit_step t0 target fresh0 hrootf htgt0 hfold0 hlt0
        st x hinv (hsrc x (List.mem_cons_self _ _))
      obtain ⟨hinv1, hpx, hpres1, hmem1⟩ := hstep
      have hrest := ih (processTreeHit target st x) hinv1
        (fun x' hx' => hsrc x' (List.mem_cons_of_mem _ hx'))
      obtain ⟨hinvf, hhits, hpresf, hmemf⟩ := hrest
      refine ⟨hinvf, ?_, ?_, ?_⟩
      · intro x' hx'
        rcases List.mem_cons.1 hx' with rfl | hx''
        · exact hpresf x' hpx
        · exact hhits x' hx''
      · intro y hy
        exact hpresf y (hpres1 y hy)
      · intro d hd
        exact hmemf d (hmem1 d hd)

/-- Folding the pool hits of one token: invariant, every source guid rooted
under the target, stability. -/
theorem poolSrcs_fold (t0 : STree) (target fresh0 : Nat) (pool : List NodeData)
    (hrootf : t0.rdata.is_folder = true)
    (htgt0 : target ∈ t0.oids)
    (hfold0 : ∀ d ∈ t0.datas, d.oid = target → d.is_folder = true)
    (hlt0 : ∀ x ∈ t0.oids, x < fresh0)
    (hpoolfold : ∀ d ∈ t0.datas, d.is_folder = true → ∀ src ∈ pool,
      src.guid ≠ d.guid) :
    ∀ (srcs : List NodeData) (st : BulkState),
      TreeInv t0 target fresh0 st.tree st.fresh →
      (∀ src ∈ srcs, src ∈ pool) →
      TreeInv t0 target fresh0 (srcs.foldl (processPoolSrc target) st).tree
        (srcs.foldl (processPoolSrc target) st).fresh ∧
      (∀ src ∈ srcs, ∃ ex ∈ (srcs.foldl (processPoolSrc target) st).tree.datas,
        ex.guid = src.guid ∧
        (srcs.foldl (processPoolSrc target) st).tree.parentOf ex.oid = some target) ∧
      (∀ y, st.tree.parentOf y = some target →
        (srcs.foldl (processPoolSrc target) st).tree.parentOf y = some target) ∧
      (∀ d ∈ st.tree.datas,
        d ∈ (srcs.foldl (processPoolSrc target) st).tree.datas) := by
  intro srcs
  induction srcs with
  | nil =>
      intro st hinv _
      exact ⟨hinv, by simp, fun y h => h, fun d hd => hd⟩
  | cons src rest ih =>
      intro st hinv hsrc
      rw [List.foldl_cons]
      have hstep := processPoolSrc_step t0 target fresh0 pool hrootf htgt0 hfold0
        hlt0 hpoolfold st src (hsrc src (List.mem_cons_self _ _)) hinv
      obtain ⟨hinv1, ⟨ex, hexm, hexg, hexp⟩, hpres1, hmem1⟩ := hstep
      have hrest := ih (processPoolSrc target st src) hinv1
        (fun s' hs' => hsrc s' (List.mem_cons_of_mem _ hs'))
      obtain ⟨hinvf, hsrcs, hpresf, hmemf⟩ := hrest
      refine ⟨hinvf, ?_, ?_, ?_⟩
      · intro s' hs'
        rcases List.mem_cons.1 hs' with rfl | hs''
        · exact ⟨ex, hmemf ex hexm, hexg, hpresf ex.oid hexp⟩
        · exact hsrcs s' hs''
      · intro y hy
        exact hpresf y (hpres1 y hy)
      · intro d hd
        exact hmemf d (hmem1 d hd)

/-- Processing one token in the first bulk run: the invariant is preserved
and the token's after-state facts are established, stably. -/
theorem processToken_run1 (t0 : STree) (target fresh0 : Nat) (pool : List NodeData)
    (hrootf : t0.rdata.is_folder = true)
    (htgt0 : target ∈ t0.oids)
    (hfold0 : ∀ d ∈ t0.datas, d.oid = target → d.is_folder = true)
    (hlt0 : ∀ x ∈ t0.oids, x < fresh0)
    (hpoolfold : ∀ d ∈ t0.datas, d.is_folder = true → ∀ src ∈ pool,
      src.guid ≠ d.guid)
    (st : BulkState) (tok : String)
    (hinv : TreeInv t0 target fresh0 st.tree st.fresh) :
    TreeInv t0 target fresh0
      (processToken (treeIndexLookup t0) (poolIndexLookup pool) target st tok).tree
      (processToken (treeIndexLookup t0) (poolIndexLookup pool) target st tok).fresh ∧
    TokenDone t0 pool target
      (processToken (treeIndexLookup t0) (poolIndexLookup pool) target st tok).tree
      tok ∧
    (∀ y, st.tree.parentOf y = some target →
      (processToken (treeIndexLookup t0) (poolIndexLookup pool) target st
        tok).tree.parentOf y = some target) ∧
    (∀ d ∈ st.tree.datas,
      d ∈ (processToken (treeIndexLookup t0) (poolIndexLookup pool) target st
        tok).tree.datas) := by
  simp only [processToken]
  split
  · rename_i hne
    have hfold := treeHits_fold t0 target fresh0 hrootf htgt0 hfold0 hlt0
      (treeIndexLookup t0 (pyLower tok)) st hinv
      (fun x hx => by
        obtain ⟨v, hv, hoid, _⟩ := (mem_treeIndexLookup t0 (pyLower tok) x).1 hx
        exact ⟨v, hv, hoid⟩)
    obtain ⟨hinvf, hhits, hpresf, hmemf⟩ := hfold
    exact ⟨hinvf, ⟨hhits, fun hnil => absurd hnil hne⟩, hpresf, hmemf⟩
  · rename_i hne
    have heq : treeIndexLookup t0 (pyLower tok) = [] := by
      by_contra hc
      exact hne hc
    split
    · rename_i hne2
      have hfold := poolSrcs_fold t0 target fresh0 pool hrootf htgt0 hfold0 hlt0
        hpoolfold (poolIndexLookup pool (pyLower tok)) st hinv
        (fun src hsrc => (mem_poolIndexLookup pool (pyLower tok) src hsrc).1)
      obtain ⟨hinvf, hsrcs, hpresf, hmemf⟩ := hfold
      refine ⟨hinvf, ⟨?_, fun _ => hsrcs⟩, hpresf, hmemf⟩
      intro x hx
      rw [heq] at hx
      simp at hx
    · refine ⟨hinv, ⟨?_, ?_⟩, fun y h => h, fun d hd => hd⟩
      · intro x hx
        rw [heq] at hx
        simp at hx
      · rename_i hne2
        have heq2 : poolIndexLookup pool (pyLower tok) = [] := by
          by_contra hc
          exact hne2 hc
        intro _ src hsrc
        rw [heq2] at hsrc
        simp at hsrc

/-- Folding all tokens of the first bulk run. -/
theorem run1_fold (t0 : STree) (target fresh0 : Nat) (pool : List NodeData)
    (hrootf : t0.rdata.is_folder = true)
    (htgt0 : target ∈ t0.oids)
    (hfold0 : ∀ d ∈ t0.datas, d.oid = target → d.is_folder = true)
    (hlt0 : ∀ x ∈ t0.oids, x < fresh0)
    (hpoolfold : ∀ d ∈ t0.datas, d.is_folder = true → ∀ src ∈ pool,
      src.guid ≠ d.guid) :
    ∀ (toks : List String) (st : BulkState),
      TreeInv t0 target fresh0 st.tree st.fresh →
      TreeInv t0 target fresh0
        (toks.foldl (processToken (treeIndexLookup t0) (poolIndexLookup pool)
          target) st).tree
        (toks.foldl (processToken (treeIndexLookup t0) (poolIndexLookup pool)
          target) st).fresh ∧
      (∀ tok ∈ toks, TokenDone t0 pool target
        (toks.foldl (processToken (treeIndexLookup t0) (poolIndexLookup pool)
          target) st).tree tok) ∧
      (∀ y, st.tree.parentOf y = some target →
        (toks.foldl (processToken (treeIndexLookup t0) (poolIndexLookup pool)
          target) st).tree.parentOf y = some target) ∧
      (∀ d ∈ st.tree.datas,
        d ∈ (toks.foldl (processToken (treeIndexLookup t0) (poolIndexLookup pool)
          target) st).tree.datas) := by
  intro toks
  induction toks with
  | nil =>
      intro st hinv
      exact ⟨hinv, by simp, fun y h => h, fun d hd => hd⟩
  | cons tok rest ih =>
      intro st hinv
      rw [List.foldl_cons]
      have hstep := processToken_run1 t0 target fresh0 pool hrootf htgt0 hfold0
        hlt0 hpoolfold st tok hinv
      obtain ⟨hinv1, hdone1, hpres1, hmem1⟩ := hstep
      have hrest := ih
        (processToken (treeIndexLookup t0) (poolIndexLookup pool) target st tok)
        hinv1
      obtain ⟨hinvf, hdones, hpresf, hmemf⟩ := hrest
      refine ⟨hinvf, ?_, ?_, ?_⟩
      · intro tok' htok'
        rcases List.mem_cons.1 htok' with rfl | htok''
        · exact TokenDone_mono t0 pool target _ _ tok' hdone1 hpresf hmemf
        · exact hdones tok' htok''
      · intro y hy
        exact hpresf y (hpres1 y hy)
      · intro d hd
        exact hmemf d (hmem1 d hd)

end Navis
namespace Navis

/-- In the second run, tree hits that already sit under the target are all
counted as already placed: the tree and the moved counter do not change. -/
theorem treeHits_noop (target : Nat) (t1 : STree) :
    ∀ (hits : List Nat) (st : BulkState), st.tree = t1 →
      (∀ x ∈ hits, t1.parentOf x = some target) →
      (hits.foldl (processTreeHit target) st).tree = t1 ∧
      (hits.foldl (processTreeHit target) st).moved = st.moved := by
  intro hits
  induction hits with
  | nil =>
      intro st hst _
      exact ⟨hst, rfl⟩
  | cons x rest ih =>
      intro st hst hhits
      rw [List.foldl_cons]
      have hx : st.tree.parentOf x = some target := by
        rw [hst]
        exact hhits x (List.mem_cons_self _ _)
      have hstep : processTreeHit target st x = { st with already := st.already + 1 } := by
        rw [processTreeHit, if_pos hx]
      rw [hstep]
      exact ih _ hst (fun x' hx' => hhits x' (List.mem_cons_of_mem _ hx'))

/-- In the second run, pool hits whose guids are already rooted under the
target are all counted as already placed. -/
theorem poolSrcs_noop (target : Nat) (t1 : STree)
    (hgc : ∀ g, gcount t1.datas g ≤ 1) :
    ∀ (srcs : List NodeData) (st : BulkState), st.tree = t1 →
      (∀ src ∈ srcs, ∃ ex ∈ t1.datas, ex.guid = src.guid ∧
        t1.parentOf ex.oid = some target) →
      (srcs.foldl (processPoolSrc target) st).tree = t1 ∧
      (srcs.foldl (processPoolSrc target) st).moved = st.moved := by
  intro srcs
  induction srcs with
  | nil =>
      intro st hst _
      exact ⟨hst, rfl⟩
  | cons src rest ih =>
      intro st hst hsrcs
      rw [List.foldl_cons]
      obtain ⟨ex, hexm, hexg, hexp⟩ := hsrcs src (List.mem_cons_self _ _)
      have hfind : st.tree.findGuid src.guid = some ex := by
        rw [hst]
        exact STree.findGuid_unique t1 src.guid ex hexm hexg hgc
      have he1 : processPoolSrc target st src =
          if st.tree.parentOf ex.oid = some target then
            { st with already := st.already + 1 }
          else { st with tree := st.tree.moveTo ex.oid target, moved := st.moved + 1 } := by
        rw [processPoolSrc, hfind]
      rw [he1, if_pos (by rw [hst]; exact hexp)]
      exact ih _ hst (fun s' hs' => hsrcs s' (List.mem_cons_of_mem _ hs'))

/-- Processing one token in the second bulk run is a no-op on the tree and
the moved counter. -/
theorem processToken_run2 (t0 : STree) (target fresh0 : Nat) (pool : List NodeData)
    (t1 : STree) (f1 : Nat)
    (hinv1 : TreeInv t0 target fresh0 t1 f1)
    (st : BulkState) (tok : String)
    (hst : st.tree = t1)
    (hdone : TokenDone t0 pool target t1 tok) :
    (processToken (treeIndexLookup t1) (poolIndexLookup pool) target st tok).tree
        = t1 ∧
    (processToken (treeIndexLookup t1) (poolIndexLookup pool) target st
        tok).moved = st.moved := by
  obtain ⟨hrd, hgc, hoc, hlt, hf0le, hvc, hsub, hnew⟩ := hinv1
  simp only [processToken]
  split
  · refine treeHits_noop target t1 _ st hst ?_
    intro x hx
    obtain ⟨v, hv, hoid, hhit⟩ := (mem_treeIndexLookup t1 (pyLower tok) x).1 hx
    have hvd : v ∈ t1.datas ∧ v.is_folder = false := by
      rw [STree.iterViews_eq] at hv
      have hh := List.mem_filter.1 hv
      exact ⟨hh.1, by simpa using hh.2⟩
    rcases hnew v hvd.1 with hmem0 | ⟨_, _, hpar⟩
    · have hv0 : v ∈ t0.iterViews := by
        rw [STree.iterViews_eq]
        refine List.mem_filter.2 ⟨hmem0, ?_⟩
        simp [hvd.2]
      have hx0 : x ∈ treeIndexLookup t0 (pyLower tok) :=
        (mem_treeIndexLookup t0 (pyLower tok) x).2 ⟨v, hv0, hoid, hhit⟩
      exact hdone.1 x hx0
    · rw [← hoid]
      exact hpar
  · rename_i hne
    have heq2 : treeIndexLookup t1 (pyLower tok) = [] := by
      by_contra hc
      exact hne hc
    have heq1 : treeIndexLookup t0 (pyLower tok) = [] := by
      by_contra hc
      rcases List.exists_mem_of_ne_nil _ hc with ⟨x, hx⟩
      obtain ⟨v, hv, hoid, hhit⟩ := (mem_treeIndexLookup t0 (pyLower tok) x).1 hx
      have hvd : v ∈ t0.datas ∧ v.is_folder = false := by
        rw [STree.iterViews_eq] at hv
        have hh := List.mem_filter.1 hv
        exact ⟨hh.1, by simpa using hh.2⟩
      have hv1 : v ∈ t1.iterViews := by
        rw [STree.iterViews_eq]
        refine List.mem_filter.2 ⟨hsub v hvd.1, ?_⟩
        simp [hvd.2]
      have hx1 : x ∈ treeIndexLookup t1 (pyLower tok) :=
        (mem_treeIndexLookup t1 (pyLower tok) x).2 ⟨v, hv1, hoid, hhit⟩
      rw [heq2] at hx1
      simp at hx1
    split
    · exact poolSrcs_noop target t1 hgc _ st hst (hdone.2 heq1)
    · exact ⟨hst, rfl⟩

/-- The whole second bulk run is a no-op on the tree and moves nothing. -/
theorem run2_fold (t0 : STree) (target fresh0 : Nat) (pool : List NodeData)
    (t1 : STree) (f1 : Nat)
    (hinv1 : TreeInv t0 target fresh0 t1 f1) :
    ∀ (toks : List String) (st : BulkState), st.tree = t1 →
      (∀ tok ∈ toks, TokenDone t0 pool target t1 tok) →
      (toks.foldl (processToken (treeIndexLookup t1) (poolIndexLookup pool)
        target) st).tree = t1 ∧
      (toks.foldl (processToken (treeIndexLookup t1) (poolIndexLookup pool)
        target) st).moved = st.moved := by
  intro toks
  induction toks with
  | nil =>
      intro st hst _
      exact ⟨hst, rfl⟩
  | cons tok rest ih =>
      intro st hst hdones
      rw [List.foldl_cons]
      have hstep := processToken_run2 t0 target fresh0 pool t1 f1 hinv1 st tok hst
        (hdones tok (List.mem_cons_self _ _))
      have hrest := ih
        (processToken (treeIndexLookup t1) (poolIndexLookup pool) target st tok)
        hstep.1 (fun tok' htok' => hdones tok' (List.mem_cons_of_mem _ htok'))
      exact ⟨hrest.1, by rw [hrest.2, hstep.2]⟩

end Navis
namespace Navis

/-- C3 (amended) — bulk move is idempotent on well-formed trees: when the
root is a folder, viewpoints are childless, guids and identities are unique
in the tree, the allocation counter is ahead, the target is a folder node of
the tree, and no tree folder shares a guid with a pool entry, then running
`bulk_move_points` twice with the same tokens and target leaves the second
run with the first run's tree unchanged, zero nodes moved, and the target's
viewpoint count identical after both runs.  (Without guid uniqueness the
second run can move again: see the counterexample.) -/
theorem claim_C3 (t : STree) (pool : List NodeData) (fresh : Nat)
    (tokens : List String) (target : Nat)
    (h : BulkOK t pool target fresh) :
    (bulkMovePoints (bulkMovePoints t pool fresh tokens target).tree pool
        (bulkMovePoints t pool fresh tokens target).fresh tokens target).tree =
      (bulkMovePoints t pool fresh tokens target).tree ∧
    (bulkMovePoints (bulkMovePoints t pool fresh tokens target).tree pool
        (bulkMovePoints t pool fresh tokens target).fresh tokens target).moved
      = 0 ∧
    (bulkMovePoints (bulkMovePoints t pool fresh tokens target).tree pool
        (bulkMovePoints t pool fresh tokens target).fresh tokens
        target).tree.countAt target =
      (bulkMovePoints t pool fresh tokens target).tree.countAt target := by
  obtain ⟨hrootf, hvc, hgn, hon, hlt, htgt, hfold0, hpoolfold⟩ := h
  have hgc := (guids_nodup_iff t).1 hgn
  have hoc := (oids_nodup_iff t).1 hon
  have hinv0 : TreeInv t target fresh t fresh :=
    ⟨rfl, hgc, hoc, hlt, Nat.le_refl _, hvc, fun d hd => hd, fun d hd => Or.inl hd⟩
  have hrun1 := run1_fold t target fresh pool hrootf htgt hfold0 hlt hpoolfold
    tokens ⟨t, 0, 0, [], fresh⟩ hinv0
  obtain ⟨hinv1, hdones, _, _⟩ := hrun1
  have hr1 : bulkMovePoints t pool fresh tokens target =
      tokens.foldl (processToken (treeIndexLookup t) (poolIndexLookup pool) target)
        ⟨t, 0, 0, [], fresh⟩ := rfl
  have hrun2 := run2_fold t target fresh pool
    (bulkMovePoints t pool fresh tokens target).tree
    (bulkMovePoints t pool fresh tokens target).fresh
    (by rw [hr1]; exact hinv1)
    tokens
    ⟨(bulkMovePoints t pool fresh tokens target).tree, 0, 0, [],
      (bulkMovePoints t pool fresh tokens target).fresh⟩ rfl
    (by rw [hr1]; exact hdones)
  have hr2 : bulkMovePoints (bulkMovePoints t pool fresh tokens target).tree pool
      (bulkMovePoints t pool fresh tokens target).fresh tokens target =
      tokens.foldl (processToken
        (treeIndexLookup (bulkMovePoints t pool fresh tokens target).tree)
        (poolIndexLookup pool) target)
        ⟨(bulkMovePoints t pool fresh tokens target).tree, 0, 0, [],
          (bulkMovePoints t pool fresh tokens target).fresh⟩ := rfl
  refine ⟨?_, ?_, ?_⟩
  · rw [hr2]
    exact hrun2.1
  · rw [hr2]
    exact hrun2.2
  · rw [hr2, hrun2.1]

/-- C3 counterexample: with two tree viewpoints sharing guid `g` and a pool
entry `tok` carrying that guid, the first run moves the first duplicate, and
the second run — instead of reporting already-placed with zero moves — moves
the second duplicate, raising the target folder's viewpoint count from 1
to 2. -/
theorem claim_C3_counterexample :
    (bulkMovePoints (bulkMovePoints demoDupTree demoDupPool 10 ["tok"] 3).tree
        demoDupPool (bulkMovePoints demoDupTree demoDupPool 10 ["tok"] 3).fresh
        ["tok"] 3).moved = 1 ∧
    (bulkMovePoints demoDupTree demoDupPool 10 ["tok"] 3).tree.countAt 3 = 1 ∧
    (bulkMovePoints (bulkMovePoints demoDupTree demoDupPool 10 ["tok"] 3).tree
        demoDupPool (bulkMovePoints demoDupTree demoDupPool 10 ["tok"] 3).fresh
        ["tok"] 3).tree.countAt 3 = 2 := by
  refine ⟨?_, ?_, ?_⟩ <;> decide

/-- Witness for C3: the spec's `1311`/`1312` demo — the first run moves both
viewpoints, the second reports both already placed and, by the theorem,
changes nothing. -/
theorem claim_C3_witness :
    ((bulkMovePoints demoBulkTree [] 10 ["1311", "1312"] 4).moved = 2 ∧
      (bulkMovePoints (bulkMovePoints demoBulkTree [] 10 ["1311", "1312"] 4).tree
        [] (bulkMovePoints demoBulkTree [] 10 ["1311", "1312"] 4).fresh
        ["1311", "1312"] 4).already = 2) ∧
    ((bulkMovePoints (bulkMovePoints demoBulkTree [] 10 ["1311", "1312"] 4).tree
        [] (bulkMovePoints demoBulkTree [] 10 ["1311", "1312"] 4).fresh
        ["1311", "1312"] 4).tree =
      (bulkMovePoints demoBulkTree [] 10 ["1311", "1312"] 4).tree ∧
    (bulkMovePoints (bulkMovePoints demoBulkTree [] 10 ["1311", "1312"] 4).tree
        [] (bulkMovePoints demoBulkTree [] 10 ["1311", "1312"] 4).fresh
        ["1311", "1312"] 4).moved = 0 ∧
    (bulkMovePoints (bulkMovePoints demoBulkTree [] 10 ["1311", "1312"] 4).tree
        [] (bulkMovePoints demoBulkTree [] 10 ["1311", "1312"] 4).fresh
        ["1311", "1312"] 4).tree.countAt 4 =
      (bulkMovePoints demoBulkTree [] 10 ["1311", "1312"] 4).tree.countAt 4) :=
  ⟨by decide, claim_C3 demoBulkTree [] 10 ["1311", "1312"] 4
    (by unfold BulkOK; decide)⟩

end Navis
